import Mathlib

/-!
The cupt download progress engine: a shallow embedding

Embedding of `cpp/lib/src/download/progress.cpp` (class `Progress` and its
`ProgressImpl`) and of `split` / `join` from `cpp/lib/src/common.cpp`.

Conventions of the embedding.

* `size_t` and `uint64_t` are 64-bit unsigned integers (an LP64 target such as
  amd64); they are natural numbers reduced modulo `2 ^ 64` wherever the C++
  arithmetic can wrap.  `unsigned int` is 32 bits wide.
* `float` is IEEE-754 binary32 with round-to-nearest-even and every operation
  rounded to `float` (`FLT_EVAL_METHOD == 0`).  A finite value is stored as a
  sign and a natural number of units of `2 ^ (-149)`, the smallest positive
  binary32 value, so all binary32 arithmetic is arithmetic on naturals.
* a conversion from `float` to an unsigned integer whose truncated value does
  not fit the target type is undefined behaviour in C++; it is `none` here.
* the hooks are virtual methods with empty default bodies; a call of
  `progress` records which hooks it invokes, each with the engine state at the
  moment of the call.
* `fatal2` and a failing `lexical_cast` throw; the state a call leaves behind
  when it throws is part of its result.
* the clock (`clock_gettime`, `time`) is passed explicitly.
-/

set_option exponentiation.threshold 2048
set_option maxRecDepth 100000

namespace Cupt

/-! ## binary32 -/

/-- A binary32 value: `fin neg k` is `(-1)^neg * k * 2^(-149)`. -/
inductive CFloat where
  | fin (neg : Bool) (k : Nat)
  | inf (neg : Bool)
  | nan
deriving DecidableEq, Repr

/-- Units of `2^(-149)` in the value one. -/
def unitsPerOne : Nat := 2 ^ 149

/-- Number of binary digits of `n`, by halving; `fuel` bounds the number of
halvings and `n` itself is always enough. -/
def bitLengthAux : Nat → Nat → Nat
  | 0, _ => 0
  | fuel + 1, n => if n = 0 then 0 else bitLengthAux fuel (n / 2) + 1

/-- Number of binary digits of `n`: `bitLength 0 = 0`, `bitLength 5 = 3`. -/
def bitLength (n : Nat) : Nat := bitLengthAux n n

/-- Round the quotient `q` with remainder `r` of a division by `d` to the
nearest integer, ties to even. -/
def roundHalfEven (q r d : Nat) : Nat :=
  if 2 * r < d then q else if d < 2 * r then q + 1 else if q % 2 = 0 then q else q + 1

/-- Round the non-negative rational `num / den`, given in units of `2^(-149)`,
to the nearest binary32 magnitude, ties to even; `none` is overflow to
infinity.  `s` is the binary exponent of the rounding quantum: zero for
subnormals and the lowest normal binade, so that the significand keeps 24
bits. -/
def roundUnits (num den : Nat) : Option Nat :=
  let s := bitLength (num / den) - 24
  let d := den * 2 ^ s
  let m := roundHalfEven (num / d) (num % d) d
  if m * 2 ^ s < 2 ^ 277 then some (m * 2 ^ s) else none

namespace CFloat

/-- A sign and a rounded magnitude as a binary32 value. -/
def ofRounded (neg : Bool) : Option Nat → CFloat
  | some k => fin neg k
  | none => inf neg

/-- Conversion of an integer to `float`. -/
def ofInt (z : Int) : CFloat :=
  ofRounded (decide (z < 0)) (roundUnits (z.natAbs * unitsPerOne) 1)

/-- Conversion of an unsigned integer to `float`. -/
def ofNat (n : Nat) : CFloat :=
  ofRounded false (roundUnits (n * unitsPerOne) 1)

/-- Binary32 addition. -/
def add : CFloat → CFloat → CFloat
  | nan, _ => nan
  | _, nan => nan
  | inf a, inf b => if a = b then inf a else nan
  | inf a, fin _ _ => inf a
  | fin _ _, inf b => inf b
  | fin sa a, fin sb b =>
    if sa = sb then ofRounded sa (roundUnits (a + b) 1)
    else if b < a then ofRounded sa (roundUnits (a - b) 1)
    else if a < b then ofRounded sb (roundUnits (b - a) 1)
    else fin false 0

/-- Binary32 multiplication. -/
def mul : CFloat → CFloat → CFloat
  | nan, _ => nan
  | _, nan => nan
  | inf a, inf b => inf (xor a b)
  | inf a, fin sb b => if b = 0 then nan else inf (xor a sb)
  | fin sa a, inf b => if a = 0 then nan else inf (xor sa b)
  | fin sa a, fin sb b => ofRounded (xor sa sb) (roundUnits (a * b) unitsPerOne)

/-- Binary32 division. -/
def div : CFloat → CFloat → CFloat
  | nan, _ => nan
  | _, nan => nan
  | inf _, inf _ => nan
  | inf a, fin sb _ => inf (xor a sb)
  | fin sa _, inf b => fin (xor sa b) 0
  | fin sa a, fin sb b =>
    if b = 0 then (if a = 0 then nan else inf (xor sa sb))
    else ofRounded (xor sa sb) (roundUnits (a * unitsPerOne) b)

/-- The comparison `x < y` of two `float`s. -/
def lt : CFloat → CFloat → Bool
  | nan, _ => false
  | _, nan => false
  | inf a, inf b => a && !b
  | inf a, fin _ _ => a
  | fin _ _, inf b => !b
  | fin sa a, fin sb b =>
    match sa, sb with
    | false, false => decide (a < b)
    | true, true => decide (b < a)
    | true, false => decide (0 < a ∨ 0 < b)
    | false, true => false

/-- Conversion of a `float` to a 64-bit unsigned integer: truncation toward
zero, undefined (`none`) when the truncated value is not representable. -/
def toUInt64 : CFloat → Option Nat
  | fin false k => if k / unitsPerOne < 2 ^ 64 then some (k / unitsPerOne) else none
  | fin true k => if k / unitsPerOne = 0 then some 0 else none
  | inf _ => none
  | nan => none

/-- The value is not negative: a finite value or an infinity with the sign bit
clear, or not a number. -/
def NonNeg : CFloat → Prop
  | fin neg _ => neg = false
  | inf neg => neg = false
  | nan => True

end CFloat

/-! ## machine integers and `lexical_cast` -/

/-- The value of `(size_t)-1` and of `(uint64_t)-1`. -/
def SIZE_MAX : Nat := 2 ^ 64 - 1

/-- The value of `-1u`, an `unsigned int`. -/
def UINT_MAX : Nat := 2 ^ 32 - 1

/-- Reduction of an unsigned 64-bit result. -/
def wrap64 (n : Nat) : Nat := n % 2 ^ 64

/-- Value of a string of decimal digits, `none` when a character is not a
digit. -/
def parseDecimal : List Char → Nat → Option Nat
  | [], acc => some acc
  | c :: cs, acc =>
    if '0' ≤ c ∧ c ≤ '9' then parseDecimal cs (acc * 10 + (c.toNat - 48)) else none

/-- Modelled from the spec: `boost::lexical_cast< size_t >` is a library
function outside the repository.  The spec says: numeric fields are decimal,
unsigned; decode failure is a fatal error.  A field decodes when it is a
non-empty string of decimal digits whose value fits `size_t`. -/
def lexical_cast (s : String) : Option Nat :=
  match s.data with
  | [] => none
  | c :: cs =>
    match parseDecimal (c :: cs) 0 with
    | some v => if v < 2 ^ 64 then some v else none
    | none => none

/-! ## `std::map< string, V >` -/

/-- Lexicographic comparison of two character sequences. -/
def charsLess : List Char → List Char → Bool
  | [], [] => false
  | [], _ :: _ => true
  | _ :: _, [] => false
  | a :: as, b :: bs =>
    if a.toNat < b.toNat then true
    else if b.toNat < a.toNat then false
    else charsLess as bs

/-- The key order of the map, `std::less< string >`: lexicographic comparison
of the characters. -/
def stringLess (a b : String) : Bool := charsLess a.data b.data

/-- A `std::map< string, V >`: its entries in iteration order. -/
abbrev StdMap (V : Type) := List (String × V)

namespace StdMap

variable {V : Type}

/-- The member `find`: the value stored under `key`, if any. -/
def find : StdMap V → String → Option V
  | [], _ => none
  | (k, v) :: rest, key => if k = key then some v else find rest key

/-- Store `val` under `key`, replacing the entry of `key` or inserting a new
entry at its place in key order. -/
def insert : StdMap V → String → V → StdMap V
  | [], key, val => [(key, val)]
  | (k, v) :: rest, key, val =>
    if k = key then (key, val) :: rest
    else if stringLess key k then (key, val) :: (k, v) :: rest
    else (k, v) :: insert rest key val

/-- The member `erase` for the entry of `key`. -/
def erase : StdMap V → String → StdMap V
  | [], _ => []
  | (k, v) :: rest, key => if k = key then rest else (k, v) :: erase rest key

end StdMap

/-! ## the engine state -/

/-- The struct `Progress::DownloadRecord`.  Modelled from the spec: the struct
is declared in `cupt/download/progress.hpp`, which is not among the sources;
the spec lists its fields (sequence number, declared size with an unknown
value, transferred bytes, post-processing flag, scale factor) and
`progress.cpp` uses them under these names, the sizes as `size_t` and the
factor as `float`. -/
structure DownloadRecord where
  number : Nat
  downloadedSize : Nat
  size : Nat
  beingPostprocessed : Bool
  sizeScaleFactor : CFloat
deriving DecidableEq, Repr

/-- A value-initialised `DownloadRecord`, as `operator[]` of the map creates
it for a key that is not present. -/
def DownloadRecord.zero : DownloadRecord :=
  { number := 0, downloadedSize := 0, size := 0, beingPostprocessed := false,
    sizeScaleFactor := CFloat.fin false 0 }

/-- The struct `AliasPair`. -/
structure AliasPair where
  shortAlias : String
  longAlias : String
deriving DecidableEq, Repr

/-- The struct `timespec`. -/
structure timespec where
  tv_sec : Int
  tv_nsec : Int
deriving DecidableEq, Repr

/-- The struct `ProgressImpl::FetchedChunk`. -/
structure FetchedChunk where
  timeSpec : timespec
  size : Nat
deriving DecidableEq, Repr

/-- The class `ProgressImpl`. -/
structure ProgressImpl where
  fetchedChunks : List FetchedChunk
  doneDownloadsSize : Nat
  fetchedSize : Nat
  aliases : StdMap AliasPair
  nextDownloadNumber : Nat
  totalEstimatedSize : Nat
  startTimestamp : Int
  nowDownloading : StdMap DownloadRecord
deriving DecidableEq, Repr

/-- The constructor `ProgressImpl::ProgressImpl`, at clock value `now`. -/
def ProgressImpl.new (now : Int) : ProgressImpl :=
  { fetchedChunks := [], doneDownloadsSize := 0, fetchedSize := 0, aliases := [],
    nextDownloadNumber := 1, totalEstimatedSize := SIZE_MAX, startTimestamp := now,
    nowDownloading := [] }

/-- The keys of a map are strictly increasing in iteration order, as in every
`std::map`. -/
def StdMap.Ordered {V : Type} : StdMap V → Prop
  | [] => True
  | (k, _) :: rest => (∀ p ∈ rest, stringLess k p.1 = true) ∧ StdMap.Ordered rest

instance StdMap.decidableOrdered {V : Type} : (m : StdMap V) → Decidable m.Ordered
  | [] => isTrue trivial
  | (k, _) :: rest =>
    @instDecidableAnd _ _ (List.decidableBAll (fun p => stringLess k p.1 = true) rest)
      (StdMap.decidableOrdered rest)

/-- The representation invariant of an engine state: both maps are ordered. -/
def ProgressImpl.WellFormed (impl : ProgressImpl) : Prop :=
  impl.nowDownloading.Ordered ∧ impl.aliases.Ordered

instance (impl : ProgressImpl) : Decidable impl.WellFormed := by
  unfold ProgressImpl.WellFormed
  exact instDecidableAnd

/-- The amount a successful `done` adds to `doneDownloadsSize`: the record's
size, or its downloaded size when the size is the unknown value. -/
def doneValue (record : DownloadRecord) : Nat :=
  if record.size ≠ SIZE_MAX then record.size else record.downloadedSize

/-! ## the speed sampler -/

/-- The static member `Progress::speedCalculatingAccuracy`, initialised to 16. -/
def speedCalculatingAccuracy : CFloat := CFloat.ofInt 16

/-- The function `getTimeSpecDiff`. -/
def getTimeSpecDiff (oldValue newValue : timespec) : CFloat :=
  let result := CFloat.ofInt (newValue.tv_sec - oldValue.tv_sec)
  CFloat.add result
    (CFloat.div (CFloat.ofInt (newValue.tv_nsec - oldValue.tv_nsec))
      (CFloat.ofInt (1000 * 1000 * 1000)))

/-- The test of both scans over the chunks: the time difference of the chunk
to `now` is below the accuracy. -/
def recent (now : timespec) (c : FetchedChunk) : Bool :=
  CFloat.lt (getTimeSpecDiff c.timeSpec now) speedCalculatingAccuracy

/-- The scan shared by `addChunk` and `getDownloadSpeed`: the chunks from the
first one that passes the test on; `none` when the scan reaches the end of the
list. -/
def firstRecent (now : timespec) : List FetchedChunk → Option (List FetchedChunk)
  | [] => none
  | c :: cs => if recent now c then some (c :: cs) else firstRecent now cs

/-- The method `ProgressImpl::addChunk` on the chunk list, the clock reading
`now`: the chunk is pushed, then the loop erases the chunks before the first
one that passes the test and stops; when no chunk passes, nothing is erased. -/
def addChunk (now : timespec) (size : Nat) (fetchedChunks : List FetchedChunk) :
    List FetchedChunk :=
  let pushed := fetchedChunks ++ [{ timeSpec := now, size := size }]
  match firstRecent now pushed with
  | some kept => kept
  | none => pushed

/-- The sum loop of `getDownloadSpeed`, a `size_t` accumulator. -/
def sumSizes : List FetchedChunk → Nat → Nat
  | [], fetchedBytes => fetchedBytes
  | c :: cs, fetchedBytes => sumSizes cs (wrap64 (fetchedBytes + c.size))

/-- The method `ProgressImpl::getDownloadSpeed`, the clock reading `now`. -/
def getDownloadSpeed (now : timespec) (fetchedChunks : List FetchedChunk) : Option Nat :=
  let fetchedBytes := sumSizes ((firstRecent now fetchedChunks).getD []) 0
  CFloat.toUInt64 (CFloat.div (CFloat.ofNat fetchedBytes) speedCalculatingAccuracy)

/-- The point in time of a `timespec`, in nanoseconds. -/
def nanoseconds (t : timespec) : Int := t.tv_sec * 1000000000 + t.tv_nsec

/-- The age of a chunk at the clock reading `now`, in nanoseconds: the exact
difference of the two points in time, which `getTimeSpecDiff` approximates in
`float`. -/
def ageNanoseconds (now : timespec) (c : FetchedChunk) : Int :=
  nanoseconds now - nanoseconds c.timeSpec

/-- The field `tv_nsec` is in its range, from 0 to 999999999. -/
def timespec.Normalized (t : timespec) : Prop := 0 ≤ t.tv_nsec ∧ t.tv_nsec < 1000000000

instance (t : timespec) : Decidable t.Normalized := by
  unfold timespec.Normalized
  exact inferInstance

/-! ## the dispatcher -/

/-- A call of one of the four hooks. -/
inductive HookCall where
  | updateHook (isImportant : Bool)
  | newDownloadHook (uri : String) (record : DownloadRecord)
  | finishedDownloadHook (uri : String) (result : String)
  | finishHook
deriving DecidableEq, Repr

/-- The places where `progress` throws: the five calls of `fatal2`, which
throws like `fatal` in `common.cpp`, and a failing `lexical_cast`. -/
inductive Thrown where
  | lessThan2Parameters
  | moreThanParameters (action : String) (maxCount : Nat)
  | notParameters (action : String) (count : Nat)
  | notStartedDownload (uri : String)
  | invalidAction (action : String)
  | bad_lexical_cast
deriving DecidableEq, Repr

/-- What a call of `progress` leaves behind: `thrown = none` when it returns,
the engine state after the call, and the hooks invoked, in order, each with
the engine state at the moment of the call. -/
structure Run where
  thrown : Option Thrown
  impl : ProgressImpl
  hooks : List (HookCall × ProgressImpl)
deriving DecidableEq, Repr

/-- The `start` branch of `progress`, after the arity check.  `record` is a
reference into the map: `operator[]` creates the entry when it is absent, the
assignment of `number` happens before `lexical_cast` can throw, the other
fields are assigned after it. -/
def progressStart (impl : ProgressImpl) (uri : String) (params : List String) : Run :=
  let record0 := (impl.nowDownloading.find uri).getD DownloadRecord.zero
  let record1 := { record0 with number := impl.nextDownloadNumber }
  let impl1 := { impl with
    nowDownloading := impl.nowDownloading.insert uri record1
    nextDownloadNumber := wrap64 (impl.nextDownloadNumber + 1) }
  let size : Option Nat :=
    match params with
    | [] => some SIZE_MAX
    | p :: _ => lexical_cast p
  match size with
  | none => { thrown := some .bad_lexical_cast, impl := impl1, hooks := [] }
  | some sz =>
    let record : DownloadRecord :=
      { number := impl.nextDownloadNumber, size := sz, downloadedSize := 0,
        beingPostprocessed := false, sizeScaleFactor := CFloat.ofInt 1 }
    let impl2 := { impl1 with nowDownloading := impl1.nowDownloading.insert uri record }
    { thrown := none, impl := impl2,
      hooks := [(.newDownloadHook uri record, impl2), (.updateHook true, impl2)] }

/-- The branches of `progress` for an identifier found in `nowDownloading`,
with `record` its record.  `record` is a reference into the map, so every
assignment to one of its fields is a store under `uri`; in the `downloading`
branch the first assignment is done when the second `lexical_cast` throws. -/
def progressActive (now : timespec) (impl : ProgressImpl) (uri action : String)
    (params : List String) (record : DownloadRecord) : Run :=
  if action = "downloading" then
    match params with
    | [p0, p1] =>
      match lexical_cast p0 with
      | none => { thrown := some .bad_lexical_cast, impl := impl, hooks := [] }
      | some downloaded =>
        let impl1 := { impl with
          nowDownloading :=
            impl.nowDownloading.insert uri { record with downloadedSize := downloaded } }
        match lexical_cast p1 with
        | none => { thrown := some .bad_lexical_cast, impl := impl1, hooks := [] }
        | some bytesInFetchedPiece =>
          let impl2 := { impl1 with
            fetchedSize := wrap64 (impl.fetchedSize + bytesInFetchedPiece)
            fetchedChunks := addChunk now bytesInFetchedPiece impl.fetchedChunks }
          { thrown := none, impl := impl2, hooks := [(.updateHook false, impl2)] }
    | _ => { thrown := some (.notParameters action 2), impl := impl, hooks := [] }
  else if action = "expected-size" then
    match params with
    | [p0] =>
      match lexical_cast p0 with
      | none => { thrown := some .bad_lexical_cast, impl := impl, hooks := [] }
      | some sz =>
        let impl1 := { impl with
          nowDownloading := impl.nowDownloading.insert uri { record with size := sz } }
        { thrown := none, impl := impl1, hooks := [(.updateHook true, impl1)] }
    | _ => { thrown := some (.notParameters action 1), impl := impl, hooks := [] }
  else if action = "ui-size" then
    match params with
    | [p0] =>
      match lexical_cast p0 with
      | none => { thrown := some .bad_lexical_cast, impl := impl, hooks := [] }
      | some uiSize =>
        let factor :=
          if record.size ≠ UINT_MAX then CFloat.div (CFloat.ofNat record.size) (CFloat.ofNat uiSize)
          else record.sizeScaleFactor
        let impl1 := { impl with
          nowDownloading :=
            impl.nowDownloading.insert uri { record with sizeScaleFactor := factor, size := uiSize } }
        { thrown := none, impl := impl1, hooks := [] }
    | _ => { thrown := some (.notParameters action 1), impl := impl, hooks := [] }
  else if action = "pre-done" then
    match params with
    | [] =>
      let impl1 := { impl with
        nowDownloading := impl.nowDownloading.insert uri { record with beingPostprocessed := true } }
      { thrown := none, impl := impl1, hooks := [(.updateHook true, impl1)] }
    | _ => { thrown := some (.notParameters action 0), impl := impl, hooks := [] }
  else if action = "done" then
    match params with
    | [result] =>
      let impl1 :=
        if result = "" then
          { impl with doneDownloadsSize := wrap64 (impl.doneDownloadsSize + doneValue record) }
        else impl
      let impl2 := { impl1 with nowDownloading := impl1.nowDownloading.erase uri }
      { thrown := none, impl := impl2,
        hooks := [(.finishedDownloadHook uri result, impl1), (.updateHook true, impl2)] }
    | _ => { thrown := some (.notParameters action 1), impl := impl, hooks := [] }
  else { thrown := some (.invalidAction action), impl := impl, hooks := [] }

/-- The method `Progress::progress`, the clock reading `now`. -/
def progress (now : timespec) (impl : ProgressImpl) (allParams : List String) : Run :=
  match allParams with
  | [] => { thrown := some .lessThan2Parameters, impl := impl, hooks := [] }
  | [p] =>
    if p = "finish" then { thrown := none, impl := impl, hooks := [(.finishHook, impl)] }
    else { thrown := some .lessThan2Parameters, impl := impl, hooks := [] }
  | uri :: action :: params =>
    if action = "ping" then { thrown := none, impl := impl, hooks := [(.updateHook false, impl)] }
    else if action = "start" then
      if 1 < params.length then
        { thrown := some (.moreThanParameters action 1), impl := impl, hooks := [] }
      else progressStart impl uri params
    else
      match impl.nowDownloading.find uri with
      | none => { thrown := some (.notStartedDownload uri), impl := impl, hooks := [] }
      | some record => progressActive now impl uri action params record

/-! ## aggregate metrics -/

/-- The loop of `getOverallDownloadedSize`: the statement
`result += downloadedSize * sizeScaleFactor` adds in `float` and converts the
sum back to `uint64_t`. -/
def downloadedLoop : StdMap DownloadRecord → Nat → Option Nat
  | [], result => some result
  | (_, item) :: rest, result =>
    match CFloat.toUInt64 (CFloat.add (CFloat.ofNat result)
        (CFloat.mul (CFloat.ofNat item.downloadedSize) item.sizeScaleFactor)) with
    | none => none
    | some result1 => downloadedLoop rest result1

/-- The method `Progress::getOverallDownloadedSize`. -/
def getOverallDownloadedSize (impl : ProgressImpl) : Option Nat :=
  downloadedLoop impl.nowDownloading impl.doneDownloadsSize

/-- The loop of `getOverallEstimatedSize`. -/
def estimatedLoop : StdMap DownloadRecord → Nat → Option Nat
  | [], result => some result
  | (_, item) :: rest, result =>
    let size := if item.size = SIZE_MAX then item.downloadedSize else item.size
    match CFloat.toUInt64 (CFloat.add (CFloat.ofNat result)
        (CFloat.mul (CFloat.ofNat size) item.sizeScaleFactor)) with
    | none => none
    | some result1 => estimatedLoop rest result1

/-- The method `Progress::getOverallEstimatedSize`. -/
def getOverallEstimatedSize (impl : ProgressImpl) : Option Nat :=
  if impl.totalEstimatedSize ≠ SIZE_MAX then some impl.totalEstimatedSize
  else estimatedLoop impl.nowDownloading impl.doneDownloadsSize

/-- The value of the `double` literal `0.001`, which is
`0x1.0624dd2f1a9fcp-10`, in units of `2^(-149)`. -/
def doubleThousandth : Nat := 4611686018427388 * 2 ^ 87

/-- The method `Progress::getOverallEstimatedTime`, the clock reading
`currentTimestamp`.  The conditional expression has the type `double` and is
stored into the `float` without a change of value; the comparison with `0.001`
is a comparison of exact values, and the assignment of `0.001` rounds the
`double` to `float`.  The quotient of the `time_t` difference by the `float`
is a `float`, converted to `size_t` on return. -/
def getOverallEstimatedTime (currentTimestamp : Int) (impl : ProgressImpl) : Option Nat :=
  match getOverallEstimatedSize impl with
  | none => none
  | some estimatedSize =>
    let part : Option CFloat :=
      if estimatedSize ≠ 0 then
        match getOverallDownloadedSize impl with
        | none => none
        | some downloaded =>
          some (CFloat.div (CFloat.ofNat downloaded) (CFloat.ofNat estimatedSize))
      else some (CFloat.fin false 0)
    match part with
    | none => none
    | some overallPart =>
      let clamped :=
        if CFloat.lt overallPart (CFloat.fin false doubleThousandth) then
          CFloat.ofRounded false (roundUnits doubleThousandth 1)
        else overallPart
      CFloat.toUInt64
        (CFloat.div (CFloat.ofInt (currentTimestamp - impl.startTimestamp)) clamped)

/-! ## the alias table -/

/-- A value-initialised `AliasPair`, as `operator[]` of the map creates it. -/
def AliasPair.empty : AliasPair := { shortAlias := "", longAlias := "" }

/-- The method `Progress::setShortAliasForUri`. -/
def setShortAliasForUri (impl : ProgressImpl) (uri theAlias : String) : ProgressImpl :=
  { impl with
    aliases := impl.aliases.insert uri
      { (impl.aliases.find uri).getD AliasPair.empty with shortAlias := theAlias } }

/-- The method `Progress::setLongAliasForUri`. -/
def setLongAliasForUri (impl : ProgressImpl) (uri theAlias : String) : ProgressImpl :=
  { impl with
    aliases := impl.aliases.insert uri
      { (impl.aliases.find uri).getD AliasPair.empty with longAlias := theAlias } }

/-- The method `Progress::getLongAliasForUri`. -/
def getLongAliasForUri (impl : ProgressImpl) (uri : String) : String :=
  match impl.aliases.find uri with
  | some pair => pair.longAlias
  | none => uri

/-- The method `Progress::getShortAliasForUri`. -/
def getShortAliasForUri (impl : ProgressImpl) (uri : String) : String :=
  match impl.aliases.find uri with
  | some pair => pair.shortAlias
  | none => uri

/-! ## `split` and `join` of `common.cpp` -/

/-- The constructor `string(str, pos, len)`: the `len` characters from `pos`. -/
def substring (str : List Char) (pos len : Nat) : List Char :=
  (str.drop pos).take len

/-- The loop of `split` from the index `i` on, `rest` being the characters of
`str` from `i`; after the loop, the last piece. -/
def splitLoop (c : Char) (str : List Char) (allowEmpty : Bool) :
    List Char → Nat → Nat → List (List Char) → List (List Char)
  | [], i, startPosition, result =>
    if startPosition < i ∨ allowEmpty = true then
      result ++ [substring str startPosition (i - startPosition)]
    else result
  | ch :: rest, i, startPosition, result =>
    if ch = c then
      splitLoop c str allowEmpty rest (i + 1) (i + 1)
        (if startPosition < i ∨ allowEmpty = true then
          result ++ [substring str startPosition (i - startPosition)]
        else result)
    else splitLoop c str allowEmpty rest (i + 1) startPosition result

/-- The function `split` of `common.cpp`, on the characters of the string. -/
def splitChars (c : Char) (str : List Char) (allowEmpty : Bool) : List (List Char) :=
  splitLoop c str allowEmpty str 0 0 []

/-- The function `split` of `common.cpp`. -/
def split (c : Char) (str : String) (allowEmpty : Bool) : List String :=
  (splitChars c str.data allowEmpty).map String.mk

/-- The loop of `join`: `result += joiner; result += parts[i]`. -/
def joinLoop (joiner : List Char) : List (List Char) → List Char → List Char
  | [], result => result
  | part :: rest, result => joinLoop joiner rest (result ++ joiner ++ part)

/-- The function `join` of `common.cpp`, on the characters of the strings. -/
def joinChars (joiner : List Char) : List (List Char) → List Char
  | [] => []
  | part :: rest => joinLoop joiner rest part

/-- The function `join` of `common.cpp`. -/
def join (joiner : String) (parts : List String) : String :=
  String.mk (joinChars joiner.data (parts.map String.data))

/-- The pieces that `split` produces from the characters `rest`, the piece
begun before them being `cur`: an index-free description of the loop, used to
reason about `splitLoop`. -/
def piecesFrom (c : Char) (allowEmpty : Bool) : List Char → List Char → List (List Char)
  | cur, [] => if 0 < cur.length ∨ allowEmpty = true then [cur] else []
  | cur, ch :: rest =>
    if ch = c then
      (if 0 < cur.length ∨ allowEmpty = true then [cur] else []) ++
        piecesFrom c allowEmpty [] rest
    else piecesFrom c allowEmpty (cur ++ [ch]) rest

/-! ## runs of the engine -/

/-- The engine state after the submessages of `steps`, each processed at its
clock reading, one after the other. -/
def progressAll (impl : ProgressImpl) : List (timespec × List String) → ProgressImpl
  | [] => impl
  | (now, allParams) :: rest => progressAll (progress now impl allParams).impl rest

/-- Every submessage of `steps` is accepted: no call of `progress` throws. -/
def allAccepted (impl : ProgressImpl) : List (timespec × List String) → Bool
  | [] => true
  | (now, allParams) :: rest =>
    (progress now impl allParams).thrown.isNone &&
      allAccepted (progress now impl allParams).impl rest

/-- The engine states reached from a fresh engine by accepted submessages. -/
inductive Reachable : ProgressImpl → Prop where
  | fresh (start : Int) : Reachable (ProgressImpl.new start)
  | step (now : timespec) (impl : ProgressImpl) (allParams : List String) :
      Reachable impl → (progress now impl allParams).thrown = none →
      Reachable (progress now impl allParams).impl

/-- The engine states reached from a fresh engine by accepted submessages none
of which makes the counter `nextDownloadNumber` wrap around. -/
inductive ReachableNoWrap : ProgressImpl → Prop where
  | fresh (start : Int) : ReachableNoWrap (ProgressImpl.new start)
  | step (now : timespec) (impl : ProgressImpl) (allParams : List String) :
      ReachableNoWrap impl → (progress now impl allParams).thrown = none →
      impl.nextDownloadNumber ≤ (progress now impl allParams).impl.nextDownloadNumber →
      ReachableNoWrap (progress now impl allParams).impl

/-- Every record of the map has a number below `next`, and records under
different identifiers have different numbers. -/
def NumbersBelow (m : StdMap DownloadRecord) (next : Nat) : Prop :=
  (∀ k r, m.find k = some r → r.number < next) ∧
    ∀ k1 k2 r1 r2, m.find k1 = some r1 → m.find k2 = some r2 → k1 ≠ k2 →
      r1.number ≠ r2.number

/-- The submessages that `progress` accepts in the state `impl`, one
constructor for each returning path of the method. -/
inductive Accepted (impl : ProgressImpl) : List String → Prop where
  | finish : Accepted impl ["finish"]
  | ping (uri : String) (params : List String) : Accepted impl (uri :: "ping" :: params)
  | startUnknown (uri : String) : Accepted impl [uri, "start"]
  | startSized (uri p : String) (size : Nat) :
      lexical_cast p = some size → Accepted impl [uri, "start", p]
  | downloading (uri p0 p1 : String) (record : DownloadRecord) (downloaded piece : Nat) :
      impl.nowDownloading.find uri = some record → lexical_cast p0 = some downloaded →
      lexical_cast p1 = some piece → Accepted impl [uri, "downloading", p0, p1]
  | expectedSize (uri p : String) (record : DownloadRecord) (size : Nat) :
      impl.nowDownloading.find uri = some record → lexical_cast p = some size →
      Accepted impl [uri, "expected-size", p]
  | uiSize (uri p : String) (record : DownloadRecord) (size : Nat) :
      impl.nowDownloading.find uri = some record → lexical_cast p = some size →
      Accepted impl [uri, "ui-size", p]
  | preDone (uri : String) (record : DownloadRecord) :
      impl.nowDownloading.find uri = some record → Accepted impl [uri, "pre-done"]
  | done (uri result : String) (record : DownloadRecord) :
      impl.nowDownloading.find uri = some record → Accepted impl [uri, "done", result]

/-! ## scenarios -/

/-- A clock reading. -/
def t0 : timespec := { tv_sec := 0, tv_nsec := 0 }

/-- A download of 18446744073709551614 bytes is started and finished, then
"b" is started with size 5. -/
def nearlyFullSteps : List (timespec × List String) :=
  [(t0, ["a", "start", "18446744073709551614"]), (t0, ["a", "done", ""]),
   (t0, ["b", "start", "5"])]

/-- A download of unknown size reports 18446744073709551615 bytes and
finishes, a download of size 1 is started and finishes. -/
def wrappingSteps : List (timespec × List String) :=
  [(t0, ["a", "start"]), (t0, ["a", "downloading", "18446744073709551615", "0"]),
   (t0, ["a", "done", ""]), (t0, ["b", "start", "1"]), (t0, ["b", "done", ""])]

/-- A download is started and finished. -/
def startedAndDoneSteps : List (timespec × List String) :=
  [(t0, ["a", "start"]), (t0, ["a", "done", ""])]

/-- A download is started and reports a piece of 18446744073709551615 bytes. -/
def hugePieceSteps : List (timespec × List String) :=
  [(t0, ["a", "start"]), (t0, ["a", "downloading", "0", "18446744073709551615"])]

/-- A download is started, reports 100 bytes and then reports 50 bytes. -/
def shrinkingSteps : List (timespec × List String) :=
  [(t0, ["a", "start"]), (t0, ["a", "downloading", "100", "0"]),
   (t0, ["a", "downloading", "50", "0"])]

/-- A download of declared size 4294967295 receives the `ui-size` 2. -/
def uiSizeAfterSize4GSteps : List (timespec × List String) :=
  [(t0, ["u", "start", "4294967295"]), (t0, ["u", "ui-size", "2"])]

/-- A download of declared size 1000 receives the `ui-size` 500. -/
def uiSizeAfterSize1000Steps : List (timespec × List String) :=
  [(t0, ["u", "start", "1000"]), (t0, ["u", "ui-size", "500"])]

/-- A download started without a size receives the `ui-size` 500. -/
def uiSizeAfterPlainStartSteps : List (timespec × List String) :=
  [(t0, ["u", "start"]), (t0, ["u", "ui-size", "500"])]

/-- Two chunks one nanosecond apart, stamped about 16 seconds before the clock
reading `lateReading`. -/
def edgeChunks : List FetchedChunk :=
  [{ timeSpec := { tv_sec := 0, tv_nsec := 999999999 }, size := 1 },
   { timeSpec := { tv_sec := 1, tv_nsec := 0 }, size := 2 }]

/-- The clock reading 16.999999521 s. -/
def lateReading : timespec := { tv_sec := 16, tv_nsec := 999999521 }

/-- The chunks after a piece of 1000 bytes at 0 s and one of 500 bytes at 20 s. -/
def twoPieces : List FetchedChunk :=
  addChunk { tv_sec := 20, tv_nsec := 0 } 500 (addChunk { tv_sec := 0, tv_nsec := 0 } 1000 [])

/-- A download of declared size 100 reports 200 bytes. -/
def overshootSteps : List (timespec × List String) :=
  [(t0, ["a", "start", "100"]), (t0, ["a", "downloading", "200", "0"])]

/-- A download of declared size 1000 reports 250 bytes. -/
def withinSizeSteps : List (timespec × List String) :=
  [(t0, ["a", "start", "1000"]), (t0, ["a", "downloading", "250", "250"])]

/-- The download "uri1" is started and reports 100 bytes. -/
def uri1Steps : List (timespec × List String) :=
  [(t0, ["uri1", "start"]), (t0, ["uri1", "downloading", "100", "40"])]

/-- The downloads "a" and "b" are started, "a" with the size 7. -/
def twoStartsSteps : List (timespec × List String) :=
  [(t0, ["a", "start", "7"]), (t0, ["b", "start"])]

/-- A download of 16777217 bytes is started and finished, then "b" is
started. -/
def oddTotalSteps : List (timespec × List String) :=
  [(t0, ["a", "start", "16777217"]), (t0, ["a", "done", ""]), (t0, ["b", "start"])]

/-- A download of declared size 1000 receives the `ui-size` 500 and reports 250
bytes. -/
def scaledSteps : List (timespec × List String) :=
  [(t0, ["u", "start", "1000"]), (t0, ["u", "ui-size", "500"]),
   (t0, ["u", "downloading", "250", "250"])]

/-- A download of declared size 100 reports 100 bytes. -/
def completeSteps : List (timespec × List String) :=
  [(t0, ["a", "start", "100"]), (t0, ["a", "downloading", "100", "100"])]

/-- A download of 50331648 bytes is started and finished, then "b" is
started. -/
def evenTotalSteps : List (timespec × List String) :=
  [(t0, ["a", "start", "50331648"]), (t0, ["a", "done", ""]), (t0, ["b", "start"])]

/-! ## lemmas on the key order and the map -/

theorem charsLess_irrefl (a : List Char) : charsLess a a = false := by
  induction a with
  | nil => rfl
  | cons c cs ih => simp [charsLess, ih]

theorem charsLess_trans :
    ∀ a b c : List Char, charsLess a b = true → charsLess b c = true → charsLess a c = true
  | [], [], _, h, _ => by simp [charsLess] at h
  | [], _ :: _, [], _, h => by simp [charsLess] at h
  | [], _ :: _, _ :: _, _, _ => by simp [charsLess]
  | _ :: _, [], _, h, _ => by simp [charsLess] at h
  | _ :: _, _ :: _, [], _, h => by simp [charsLess] at h
  | x :: xs, y :: ys, z :: zs, h1, h2 => by
    simp only [charsLess] at h1 h2 ⊢
    by_cases hxy : x.toNat < y.toNat
    · by_cases hyz : y.toNat < z.toNat
      · simp [show x.toNat < z.toNat by omega]
      · by_cases hzy : z.toNat < y.toNat
        · simp [hyz, hzy] at h2
        · simp [show x.toNat < z.toNat by omega]
    · by_cases hyx : y.toNat < x.toNat
      · simp [hxy, hyx] at h1
      · simp only [hxy, hyx, if_false] at h1
        by_cases hyz : y.toNat < z.toNat
        · simp [show x.toNat < z.toNat by omega]
        · by_cases hzy : z.toNat < y.toNat
          · simp [hyz, hzy] at h2
          · simp only [hyz, hzy, if_false] at h2
            have hxz : ¬ x.toNat < z.toNat := by omega
            have hzx : ¬ z.toNat < x.toNat := by omega
            simp only [hxz, hzx, if_false]
            exact charsLess_trans xs ys zs h1 h2

theorem charsLess_total :
    ∀ a b : List Char, a ≠ b → charsLess a b = false → charsLess b a = true
  | [], [], h, _ => absurd rfl h
  | [], _ :: _, _, h => by simp [charsLess] at h
  | _ :: _, [], _, _ => by simp [charsLess]
  | x :: xs, y :: ys, hne, h => by
    simp only [charsLess] at h ⊢
    by_cases hxy : x.toNat < y.toNat
    · simp [hxy] at h
    · by_cases hyx : y.toNat < x.toNat
      · simp [hyx]
      · simp only [hxy, hyx, if_false] at h ⊢
        have hxyeq : x = y := by
          apply Char.ext
          apply UInt32.ext
          have : x.toNat = y.toNat := by omega
          exact this
        subst hxyeq
        exact charsLess_total xs ys (fun e => hne (by rw [e])) h

theorem stringLess_irrefl (a : String) : stringLess a a = false :=
  charsLess_irrefl a.data

theorem stringLess_trans {a b c : String} (h1 : stringLess a b = true)
    (h2 : stringLess b c = true) : stringLess a c = true :=
  charsLess_trans a.data b.data c.data h1 h2

theorem stringLess_total {a b : String} (hne : a ≠ b) (h : stringLess a b = false) :
    stringLess b a = true :=
  charsLess_total a.data b.data (fun e => hne (String.ext e)) h

theorem stringLess_ne {a b : String} (h : stringLess a b = true) : a ≠ b := by
  intro e
  subst e
  rw [stringLess_irrefl] at h
  exact Bool.noConfusion h

namespace StdMap

variable {V : Type}

theorem find_insert_self (m : StdMap V) (key : String) (val : V) :
    find (insert m key val) key = some val := by
  induction m with
  | nil => simp [insert, find]
  | cons p rest ih =>
    obtain ⟨k, v⟩ := p
    simp only [insert]
    by_cases h1 : k = key
    · simp [h1, find]
    · by_cases h2 : stringLess key k = true
      · simp [h1, h2, find]
      · simp [h1, h2, find, ih]

theorem find_insert_ne (m : StdMap V) (key other : String) (val : V) (hne : other ≠ key) :
    find (insert m key val) other = find m other := by
  induction m with
  | nil => simp [insert, find, Ne.symm hne]
  | cons p rest ih =>
    obtain ⟨k, v⟩ := p
    simp only [insert]
    by_cases h1 : k = key
    · subst h1
      simp [find, Ne.symm hne]
    · by_cases h2 : stringLess key k = true
      · simp [h1, h2, find, Ne.symm hne]
      · simp [h1, h2, find, ih]

theorem find_insert (m : StdMap V) (key other : String) (val : V) :
    find (insert m key val) other = if other = key then some val else find m other := by
  by_cases h : other = key
  · rw [h, find_insert_self]; simp
  · rw [find_insert_ne m key other val h]; simp [h]

theorem insert_insert (m : StdMap V) (key : String) (v1 v2 : V) :
    insert (insert m key v1) key v2 = insert m key v2 := by
  induction m with
  | nil => simp [insert]
  | cons p rest ih =>
    obtain ⟨k, v⟩ := p
    by_cases h1 : k = key
    · simp [insert, h1]
    · by_cases h2 : stringLess key k = true
      · simp [insert, h1, h2]
      · simp [insert, h1, h2, ih]

theorem find_erase_ne (m : StdMap V) (key other : String) (hne : other ≠ key) :
    find (erase m key) other = find m other := by
  induction m with
  | nil => simp [erase]
  | cons p rest ih =>
    obtain ⟨k, v⟩ := p
    simp only [erase]
    by_cases h1 : k = key
    · subst h1
      simp [find, Ne.symm hne]
    · simp [h1, find, ih]

theorem find_eq_none_of_above (m : StdMap V) (key : String)
    (h : ∀ p ∈ m, stringLess key p.1 = true) : find m key = none := by
  induction m with
  | nil => rfl
  | cons p rest ih =>
    obtain ⟨k, v⟩ := p
    have hk : stringLess key k = true := h (k, v) (List.mem_cons_self _ _)
    have hne : k ≠ key := fun e => stringLess_ne hk e.symm
    simp only [find, hne, if_false]
    exact ih (fun q hq => h q (List.mem_cons_of_mem _ hq))

theorem find_erase_self (m : StdMap V) (key : String) (ho : m.Ordered) :
    find (erase m key) key = none := by
  induction m with
  | nil => simp [erase, find]
  | cons p rest ih =>
    obtain ⟨k, v⟩ := p
    simp only [erase]
    by_cases h1 : k = key
    · subst h1
      simp only [if_true]
      exact find_eq_none_of_above rest k ho.1
    · simp only [h1, if_false, find]
      exact ih ho.2

theorem mem_of_mem_insert (m : StdMap V) (key : String) (val : V) (p : String × V)
    (h : p ∈ insert m key val) : p = (key, val) ∨ p ∈ m := by
  induction m with
  | nil => simpa [insert] using h
  | cons q rest ih =>
    obtain ⟨k, v⟩ := q
    simp only [insert] at h
    by_cases h1 : k = key
    · simp only [h1, if_true, List.mem_cons] at h
      rcases h with h | h
      · exact Or.inl h
      · exact Or.inr (List.mem_cons_of_mem _ h)
    · by_cases h2 : stringLess key k = true
      · simp only [h1, h2, if_true, if_false, List.mem_cons] at h
        rcases h with h | h | h
        · exact Or.inl h
        · exact Or.inr (List.mem_cons.mpr (Or.inl h))
        · exact Or.inr (List.mem_cons_of_mem _ h)
      · simp only [h1, h2, if_false, Bool.false_eq_true, List.mem_cons] at h
        rcases h with h | h
        · exact Or.inr (List.mem_cons.mpr (Or.inl h))
        · rcases ih h with h | h
          · exact Or.inl h
          · exact Or.inr (List.mem_cons_of_mem _ h)

theorem mem_of_mem_erase (m : StdMap V) (key : String) (p : String × V)
    (h : p ∈ erase m key) : p ∈ m := by
  induction m with
  | nil => simp [erase] at h
  | cons q rest ih =>
    obtain ⟨k, v⟩ := q
    simp only [erase] at h
    by_cases h1 : k = key
    · simp only [h1, if_true] at h
      exact List.mem_cons_of_mem _ h
    · simp only [h1, if_false, List.mem_cons] at h
      rcases h with h | h
      · exact List.mem_cons.mpr (Or.inl h)
      · exact List.mem_cons_of_mem _ (ih h)

theorem ordered_insert (m : StdMap V) (key : String) (val : V) (ho : m.Ordered) :
    (insert m key val).Ordered := by
  induction m with
  | nil => simp [insert, Ordered]
  | cons q rest ih =>
    obtain ⟨k, v⟩ := q
    simp only [insert]
    by_cases h1 : k = key
    · subst h1
      simp only [if_true]
      exact ho
    · by_cases h2 : stringLess key k = true
      · simp only [h1, h2, if_true, if_false]
        refine ⟨?_, ho⟩
        intro p hp
        rcases List.mem_cons.mp hp with hp | hp
        · rw [hp]; exact h2
        · exact stringLess_trans h2 (ho.1 p hp)
      · simp only [h1, h2, if_false, Bool.false_eq_true]
        refine ⟨?_, ih ho.2⟩
        intro p hp
        rcases mem_of_mem_insert rest key val p hp with hp | hp
        · rw [hp]
          exact stringLess_total (Ne.symm h1) (by simpa using h2)
        · exact ho.1 p hp

theorem ordered_erase (m : StdMap V) (key : String) (ho : m.Ordered) :
    (erase m key).Ordered := by
  induction m with
  | nil => simp [erase, Ordered]
  | cons q rest ih =>
    obtain ⟨k, v⟩ := q
    simp only [erase]
    by_cases h1 : k = key
    · simp only [h1, if_true]
      exact ho.2
    · simp only [h1, if_false]
      exact ⟨fun p hp => ho.1 p (mem_of_mem_erase rest key p hp), ih ho.2⟩

theorem mem_of_find (m : StdMap V) (key : String) (val : V) (h : find m key = some val) :
    (key, val) ∈ m := by
  induction m with
  | nil => simp [find] at h
  | cons q rest ih =>
    obtain ⟨k, v⟩ := q
    simp only [find] at h
    by_cases h1 : k = key
    · simp only [h1, if_true, Option.some.injEq] at h
      rw [h1, h]
      exact List.mem_cons_self _ _
    · simp only [h1, if_false] at h
      exact List.mem_cons_of_mem _ (ih h)

end StdMap

/-! ## lemmas on binary32 rounding -/

theorem bitLengthAux_lt (fuel n : Nat) (h : n ≤ fuel) : n < 2 ^ bitLengthAux fuel n := by
  induction fuel generalizing n with
  | zero =>
    have : n = 0 := by omega
    subst this
    simp [bitLengthAux]
  | succ f ih =>
    simp only [bitLengthAux]
    by_cases h0 : n = 0
    · simp [h0]
    · simp only [h0, if_false]
      have h2 : n / 2 ≤ f := by omega
      have := ih (n / 2) h2
      rw [pow_succ]
      omega

theorem bitLengthAux_zero (fuel : Nat) : bitLengthAux fuel 0 = 0 := by
  cases fuel <;> simp [bitLengthAux]

theorem bitLengthAux_le (fuel n : Nat) (h0 : 0 < n) :
    2 ^ bitLengthAux fuel n ≤ 2 * n := by
  induction fuel generalizing n with
  | zero => simp [bitLengthAux]; omega
  | succ f ih =>
    simp only [bitLengthAux]
    have hn : n ≠ 0 := by omega
    simp only [hn, if_false]
    rw [pow_succ]
    by_cases h1 : n / 2 = 0
    · rw [h1, bitLengthAux_zero]
      simp
      omega
    · have := ih (n / 2) (by omega)
      omega

theorem lt_two_pow_bitLength (n : Nat) : n < 2 ^ bitLength n :=
  bitLengthAux_lt n n (Nat.le_refl n)

theorem two_pow_bitLength_le (n : Nat) (h : 0 < n) : 2 ^ bitLength n ≤ 2 * n :=
  bitLengthAux_le n n h

theorem bitLength_le_iff (n L : Nat) : bitLength n ≤ L ↔ n < 2 ^ L := by
  constructor
  · intro h
    exact lt_of_lt_of_le (lt_two_pow_bitLength n) (Nat.pow_le_pow_right (by norm_num) h)
  · intro h
    by_contra hc
    have hpos : 0 < n := by
      rcases Nat.eq_zero_or_pos n with h0 | h0
      · subst h0
        simp [bitLength, bitLengthAux] at hc
      · exact h0
    have h1 := two_pow_bitLength_le n hpos
    have h2 : 2 ^ (L + 1) ≤ 2 ^ bitLength n := Nat.pow_le_pow_right (by norm_num) (by omega)
    rw [pow_succ] at h2
    omega

theorem bitLength_mono {a b : Nat} (h : a ≤ b) : bitLength a ≤ bitLength b := by
  rw [bitLength_le_iff]
  exact lt_of_le_of_lt h (lt_two_pow_bitLength b)

theorem le_roundHalfEven (q r d : Nat) : q ≤ roundHalfEven q r d := by
  unfold roundHalfEven
  split_ifs <;> omega

theorem roundHalfEven_le (q r d : Nat) : roundHalfEven q r d ≤ q + 1 := by
  unfold roundHalfEven
  split_ifs <;> omega

theorem roundHalfEven_mono (q r1 r2 d : Nat) (h : r1 ≤ r2) :
    roundHalfEven q r1 d ≤ roundHalfEven q r2 d := by
  unfold roundHalfEven
  split_ifs <;> omega

theorem roundUnits_eq_some (num den k : Nat) (h : roundUnits num den = some k) :
    k = roundHalfEven (num / (den * 2 ^ (bitLength (num / den) - 24)))
          (num % (den * 2 ^ (bitLength (num / den) - 24)))
          (den * 2 ^ (bitLength (num / den) - 24)) * 2 ^ (bitLength (num / den) - 24) := by
  unfold roundUnits at h
  simp only at h
  split at h
  · exact (Option.some.inj h).symm
  · cases h

theorem roundUnits_mono (num1 num2 den k1 k2 : Nat) (h : num1 ≤ num2)
    (h1 : roundUnits num1 den = some k1) (h2 : roundUnits num2 den = some k2) : k1 ≤ k2 := by
  rw [roundUnits_eq_some num1 den k1 h1, roundUnits_eq_some num2 den k2 h2]
  have hn : num1 / den ≤ num2 / den := Nat.div_le_div_right h
  have hs : bitLength (num1 / den) - 24 ≤ bitLength (num2 / den) - 24 :=
    Nat.sub_le_sub_right (bitLength_mono hn) 24
  generalize hs1 : bitLength (num1 / den) - 24 = s1 at hs ⊢
  generalize hs2 : bitLength (num2 / den) - 24 = s2 at hs ⊢
  rcases Nat.eq_or_lt_of_le hs with heq | hlt
  · subst heq
    apply Nat.mul_le_mul_right
    have hq : num1 / (den * 2 ^ s1) ≤ num2 / (den * 2 ^ s1) := Nat.div_le_div_right h
    rcases Nat.eq_or_lt_of_le hq with hqe | hql
    · rw [hqe]
      apply roundHalfEven_mono
      have e1 := Nat.div_add_mod num1 (den * 2 ^ s1)
      have e2 := Nat.div_add_mod num2 (den * 2 ^ s1)
      rw [hqe] at e1
      omega
    · calc roundHalfEven _ _ _ ≤ num1 / (den * 2 ^ s1) + 1 := roundHalfEven_le _ _ _
        _ ≤ num2 / (den * 2 ^ s1) := hql
        _ ≤ roundHalfEven _ _ _ := le_roundHalfEven _ _ _
  · have hb1 : num1 / den < 2 ^ (s1 + 24) := by
      rw [← bitLength_le_iff]
      omega
    have hq1 : num1 / (den * 2 ^ s1) < 2 ^ 24 := by
      rw [← Nat.div_div_eq_div_mul]
      rw [Nat.div_lt_iff_lt_mul (Nat.pow_pos (by norm_num))]
      rw [← pow_add]
      rw [Nat.add_comm]
      exact hb1
    have hb2 : 2 ^ (s2 + 23) ≤ num2 / den := by
      by_contra hc
      have : bitLength (num2 / den) ≤ s2 + 23 := by
        rw [bitLength_le_iff]
        omega
      omega
    have hq2 : 2 ^ 23 ≤ num2 / (den * 2 ^ s2) := by
      rw [← Nat.div_div_eq_div_mul]
      rw [Nat.le_div_iff_mul_le (Nat.pow_pos (by norm_num))]
      rw [← pow_add]
      rw [Nat.add_comm]
      exact hb2
    calc roundHalfEven (num1 / (den * 2 ^ s1)) _ _ * 2 ^ s1
        ≤ (num1 / (den * 2 ^ s1) + 1) * 2 ^ s1 :=
          Nat.mul_le_mul_right _ (roundHalfEven_le _ _ _)
      _ ≤ 2 ^ 24 * 2 ^ s1 := Nat.mul_le_mul_right _ hq1
      _ = 2 ^ (24 + s1) := by rw [pow_add]
      _ ≤ 2 ^ (23 + s2) := Nat.pow_le_pow_right (by norm_num) (by omega)
      _ = 2 ^ 23 * 2 ^ s2 := by rw [pow_add]
      _ ≤ num2 / (den * 2 ^ s2) * 2 ^ s2 := Nat.mul_le_mul_right _ hq2
      _ ≤ roundHalfEven (num2 / (den * 2 ^ s2)) _ _ * 2 ^ s2 :=
          Nat.mul_le_mul_right _ (le_roundHalfEven _ _ _)

theorem roundUnits_exact (m e den : Nat) (hden : 0 < den) (hm : m < 2 ^ 24)
    (hk : m * 2 ^ e < 2 ^ 277) : roundUnits (m * 2 ^ e * den) den = some (m * 2 ^ e) := by
  have hn : m * 2 ^ e * den / den = m * 2 ^ e := Nat.mul_div_cancel _ hden
  have hbl : bitLength (m * 2 ^ e) ≤ 24 + e := by
    rw [bitLength_le_iff, pow_add]
    exact Nat.mul_lt_mul_of_pos_right hm (Nat.pow_pos (by norm_num))
  unfold roundUnits
  simp only [hn]
  generalize hs : bitLength (m * 2 ^ e) - 24 = s
  have hse : s ≤ e := by omega
  obtain ⟨t, ht⟩ : ∃ t, e = t + s := ⟨e - s, by omega⟩
  have hnum : m * 2 ^ e * den = m * 2 ^ t * (den * 2 ^ s) := by
    rw [ht, pow_add]
    ring
  have hd : 0 < den * 2 ^ s := Nat.mul_pos hden (Nat.pow_pos (by norm_num))
  have hq : m * 2 ^ e * den / (den * 2 ^ s) = m * 2 ^ t := by
    rw [hnum]
    exact Nat.mul_div_cancel _ hd
  have hr : m * 2 ^ e * den % (den * 2 ^ s) = 0 := by
    rw [hnum]
    exact Nat.mul_mod_left _ _
  have hround : roundHalfEven (m * 2 ^ t) 0 (den * 2 ^ s) = m * 2 ^ t := by
    unfold roundHalfEven
    simp [hd]
  have hval : m * 2 ^ t * 2 ^ s = m * 2 ^ e := by
    rw [ht, pow_add]
    ring
  rw [hq, hr, hround, hval]
  exact if_pos hk

theorem toUInt64_some (z : CFloat) (d : Nat) (h : CFloat.toUInt64 z = some d) :
    ∃ s k, z = CFloat.fin s k := by
  cases z with
  | fin s k => exact ⟨s, k, rfl⟩
  | inf s => simp [CFloat.toUInt64] at h
  | nan => simp [CFloat.toUInt64] at h

theorem add_eq_fin (z w : CFloat) (s : Bool) (k : Nat) (h : CFloat.add z w = CFloat.fin s k) :
    ∃ s1 k1 s2 k2, z = CFloat.fin s1 k1 ∧ w = CFloat.fin s2 k2 := by
  cases z with
  | fin s1 k1 =>
    cases w with
    | fin s2 k2 => exact ⟨s1, k1, s2, k2, rfl, rfl⟩
    | inf s2 => simp [CFloat.add] at h
    | nan => simp [CFloat.add] at h
  | inf s1 =>
    cases w with
    | fin s2 k2 => simp [CFloat.add] at h
    | inf s2 =>
      simp only [CFloat.add] at h
      split at h <;> cases h
    | nan => simp [CFloat.add] at h
  | nan => simp [CFloat.add] at h

theorem mul_eq_fin (z w : CFloat) (s : Bool) (k : Nat) (h : CFloat.mul z w = CFloat.fin s k) :
    ∃ s1 k1 s2 k2, z = CFloat.fin s1 k1 ∧ w = CFloat.fin s2 k2 := by
  cases z with
  | fin s1 k1 =>
    cases w with
    | fin s2 k2 => exact ⟨s1, k1, s2, k2, rfl, rfl⟩
    | inf s2 =>
      simp only [CFloat.mul] at h
      split at h <;> cases h
    | nan => simp [CFloat.mul] at h
  | inf s1 =>
    cases w with
    | fin s2 k2 =>
      simp only [CFloat.mul] at h
      split at h <;> cases h
    | inf s2 => simp [CFloat.mul] at h
    | nan => simp [CFloat.mul] at h
  | nan => simp [CFloat.mul] at h

theorem ofRounded_eq_fin (neg : Bool) (o : Option Nat) (s : Bool) (k : Nat)
    (h : CFloat.ofRounded neg o = CFloat.fin s k) : o = some k ∧ s = neg := by
  cases o with
  | none => simp [CFloat.ofRounded] at h
  | some v =>
    simp only [CFloat.ofRounded, CFloat.fin.injEq] at h
    exact ⟨by rw [h.2], h.1.symm⟩

theorem accumulate_some (f : CFloat) (a x d : Nat) (hf : f.NonNeg)
    (hd : CFloat.toUInt64 (CFloat.add (CFloat.ofNat a) (CFloat.mul (CFloat.ofNat x) f)) = some d) :
    ∃ ka kx kf p k, roundUnits (a * unitsPerOne) 1 = some ka ∧
      roundUnits (x * unitsPerOne) 1 = some kx ∧ f = CFloat.fin false kf ∧
      roundUnits (kx * kf) unitsPerOne = some p ∧ roundUnits (ka + p) 1 = some k ∧
      d = k / unitsPerOne := by
  obtain ⟨s, k, hk⟩ := toUInt64_some _ _ hd
  obtain ⟨sa, ka, sp, p, hka, hp⟩ := add_eq_fin _ _ _ _ hk
  obtain ⟨sx, kx, sf, kf, hkx, hkf⟩ := mul_eq_fin _ _ _ _ hp
  obtain ⟨hra, hsa⟩ := ofRounded_eq_fin _ _ _ _ hka
  obtain ⟨hrx, hsx⟩ := ofRounded_eq_fin _ _ _ _ hkx
  subst hkf
  have hsf : sf = false := hf
  subst hsf hsa hsx
  rw [hkx] at hp
  simp only [CFloat.mul, Bool.xor_false] at hp
  obtain ⟨hrp, hsp⟩ := ofRounded_eq_fin _ _ _ _ hp
  subst hsp
  rw [hka, hkx] at hk
  simp only [CFloat.mul, Bool.xor_false] at hk
  rw [hrp] at hk
  simp only [CFloat.ofRounded, CFloat.add, if_true] at hk
  obtain ⟨hrk, hsk⟩ := ofRounded_eq_fin _ _ _ _ hk
  subst hsk
  rw [hka, hkx] at hd
  simp only [CFloat.mul, Bool.xor_false] at hd
  rw [hrp] at hd
  simp only [CFloat.ofRounded, CFloat.add, if_true] at hd
  rw [hrk] at hd
  simp only [CFloat.ofRounded, CFloat.toUInt64] at hd
  split at hd
  · exact ⟨ka, kx, kf, p, k, hra, hrx, rfl, hrp, hrk, (Option.some.inj hd).symm⟩
  · cases hd

theorem accumulate_mono (f : CFloat) (hf : f.NonNeg) (a b x y d e : Nat) (hab : a ≤ b)
    (hxy : x ≤ y)
    (hd : CFloat.toUInt64 (CFloat.add (CFloat.ofNat a) (CFloat.mul (CFloat.ofNat x) f)) = some d)
    (he : CFloat.toUInt64 (CFloat.add (CFloat.ofNat b) (CFloat.mul (CFloat.ofNat y) f)) = some e) :
    d ≤ e := by
  obtain ⟨ka, kx, kf, p, k, h1, h2, h3, h4, h5, h6⟩ := accumulate_some f a x d hf hd
  obtain ⟨kb, ky, kf2, q, m, g1, g2, g3, g4, g5, g6⟩ := accumulate_some f b y e hf he
  rw [h3] at g3
  cases g3
  have hkab : ka ≤ kb := roundUnits_mono _ _ 1 _ _ (Nat.mul_le_mul_right _ hab) h1 g1
  have hkxy : kx ≤ ky := roundUnits_mono _ _ 1 _ _ (Nat.mul_le_mul_right _ hxy) h2 g2
  have hpq : p ≤ q := roundUnits_mono _ _ _ _ _ (Nat.mul_le_mul_right _ hkxy) h4 g4
  have hkm : k ≤ m := roundUnits_mono _ _ 1 _ _ (Nat.add_le_add hkab hpq) h5 g5
  rw [h6, g6]
  exact Nat.div_le_div_right hkm

/-- The rounded magnitude before the overflow test is monotone in the
numerator. -/
theorem roundMagnitude_mono (num1 num2 den : Nat) (h : num1 ≤ num2) :
    roundHalfEven (num1 / (den * 2 ^ (bitLength (num1 / den) - 24)))
        (num1 % (den * 2 ^ (bitLength (num1 / den) - 24)))
        (den * 2 ^ (bitLength (num1 / den) - 24)) * 2 ^ (bitLength (num1 / den) - 24) ≤
      roundHalfEven (num2 / (den * 2 ^ (bitLength (num2 / den) - 24)))
        (num2 % (den * 2 ^ (bitLength (num2 / den) - 24)))
        (den * 2 ^ (bitLength (num2 / den) - 24)) * 2 ^ (bitLength (num2 / den) - 24) := by
  have hn : num1 / den ≤ num2 / den := Nat.div_le_div_right h
  have hs : bitLength (num1 / den) - 24 ≤ bitLength (num2 / den) - 24 :=
    Nat.sub_le_sub_right (bitLength_mono hn) 24
  generalize hs1 : bitLength (num1 / den) - 24 = s1 at hs ⊢
  generalize hs2 : bitLength (num2 / den) - 24 = s2 at hs ⊢
  rcases Nat.eq_or_lt_of_le hs with heq | hlt
  · subst heq
    apply Nat.mul_le_mul_right
    have hq : num1 / (den * 2 ^ s1) ≤ num2 / (den * 2 ^ s1) := Nat.div_le_div_right h
    rcases Nat.eq_or_lt_of_le hq with hqe | hql
    · rw [hqe]
      apply roundHalfEven_mono
      have e1 := Nat.div_add_mod num1 (den * 2 ^ s1)
      have e2 := Nat.div_add_mod num2 (den * 2 ^ s1)
      rw [hqe] at e1
      omega
    · calc roundHalfEven _ _ _ ≤ num1 / (den * 2 ^ s1) + 1 := roundHalfEven_le _ _ _
        _ ≤ num2 / (den * 2 ^ s1) := hql
        _ ≤ roundHalfEven _ _ _ := le_roundHalfEven _ _ _
  · have hb1 : num1 / den < 2 ^ (s1 + 24) := by
      rw [← bitLength_le_iff]
      omega
    have hq1 : num1 / (den * 2 ^ s1) < 2 ^ 24 := by
      rw [← Nat.div_div_eq_div_mul]
      rw [Nat.div_lt_iff_lt_mul (Nat.pow_pos (by norm_num))]
      rw [← pow_add]
      rw [Nat.add_comm]
      exact hb1
    have hb2 : 2 ^ (s2 + 23) ≤ num2 / den := by
      by_contra hc
      have : bitLength (num2 / den) ≤ s2 + 23 := by
        rw [bitLength_le_iff]
        omega
      omega
    have hq2 : 2 ^ 23 ≤ num2 / (den * 2 ^ s2) := by
      rw [← Nat.div_div_eq_div_mul]
      rw [Nat.le_div_iff_mul_le (Nat.pow_pos (by norm_num))]
      rw [← pow_add]
      rw [Nat.add_comm]
      exact hb2
    calc roundHalfEven (num1 / (den * 2 ^ s1)) _ _ * 2 ^ s1
        ≤ (num1 / (den * 2 ^ s1) + 1) * 2 ^ s1 :=
          Nat.mul_le_mul_right _ (roundHalfEven_le _ _ _)
      _ ≤ 2 ^ 24 * 2 ^ s1 := Nat.mul_le_mul_right _ hq1
      _ = 2 ^ (24 + s1) := by rw [pow_add]
      _ ≤ 2 ^ (23 + s2) := Nat.pow_le_pow_right (by norm_num) (by omega)
      _ = 2 ^ 23 * 2 ^ s2 := by rw [pow_add]
      _ ≤ num2 / (den * 2 ^ s2) * 2 ^ s2 := Nat.mul_le_mul_right _ hq2
      _ ≤ roundHalfEven (num2 / (den * 2 ^ s2)) _ _ * 2 ^ s2 :=
          Nat.mul_le_mul_right _ (le_roundHalfEven _ _ _)

/-- Below a numerator whose quotient rounds to a finite value, every quotient
rounds to a finite value. -/
theorem roundUnits_some_of_le (num1 num2 den k2 : Nat) (h : num1 ≤ num2)
    (h2 : roundUnits num2 den = some k2) : ∃ k1, roundUnits num1 den = some k1 := by
  have hraw := roundMagnitude_mono num1 num2 den h
  have hk2 := roundUnits_eq_some num2 den k2 h2
  have hlt2 : k2 < 2 ^ 277 := by
    unfold roundUnits at h2
    simp only at h2
    split at h2
    · rename_i hlt
      rw [hk2]
      exact hlt
    · cases h2
  rw [← hk2] at hraw
  unfold roundUnits
  simp only
  rw [if_pos (lt_of_le_of_lt hraw hlt2)]
  exact ⟨_, rfl⟩

/-! ## unfolding `progress` on the submessages of one action -/

theorem progress_done (now : timespec) (impl : ProgressImpl) (uri result : String)
    (record : DownloadRecord) (h : impl.nowDownloading.find uri = some record) :
    progress now impl [uri, "done", result] =
      (let impl1 :=
        if result = "" then
          { impl with doneDownloadsSize := wrap64 (impl.doneDownloadsSize + doneValue record) }
        else impl
      let impl2 := { impl1 with nowDownloading := impl1.nowDownloading.erase uri }
      { thrown := none, impl := impl2,
        hooks := [(.finishedDownloadHook uri result, impl1), (.updateHook true, impl2)] }) := by
  simp [progress, progressActive, h]

theorem progress_ping (now : timespec) (impl : ProgressImpl) (uri : String)
    (params : List String) :
    progress now impl (uri :: "ping" :: params) =
      { thrown := none, impl := impl, hooks := [(.updateHook false, impl)] } := by
  simp [progress]

theorem progress_finish (now : timespec) (impl : ProgressImpl) :
    progress now impl ["finish"] =
      { thrown := none, impl := impl, hooks := [(.finishHook, impl)] } := by
  simp [progress]

theorem progress_startUnknown (now : timespec) (impl : ProgressImpl) (uri : String) :
    progress now impl [uri, "start"] =
      (let record : DownloadRecord :=
        { number := impl.nextDownloadNumber, size := SIZE_MAX, downloadedSize := 0,
          beingPostprocessed := false, sizeScaleFactor := CFloat.ofInt 1 }
      let impl2 := { impl with
        nowDownloading := impl.nowDownloading.insert uri record
        nextDownloadNumber := wrap64 (impl.nextDownloadNumber + 1) }
      { thrown := none, impl := impl2,
        hooks := [(.newDownloadHook uri record, impl2), (.updateHook true, impl2)] }) := by
  simp [progress, progressStart, StdMap.insert_insert]

theorem progress_startSized (now : timespec) (impl : ProgressImpl) (uri p : String)
    (size : Nat) (hsize : lexical_cast p = some size) :
    progress now impl [uri, "start", p] =
      (let record : DownloadRecord :=
        { number := impl.nextDownloadNumber, size := size, downloadedSize := 0,
          beingPostprocessed := false, sizeScaleFactor := CFloat.ofInt 1 }
      let impl2 := { impl with
        nowDownloading := impl.nowDownloading.insert uri record
        nextDownloadNumber := wrap64 (impl.nextDownloadNumber + 1) }
      { thrown := none, impl := impl2,
        hooks := [(.newDownloadHook uri record, impl2), (.updateHook true, impl2)] }) := by
  simp [progress, progressStart, hsize, StdMap.insert_insert]

theorem progress_downloading (now : timespec) (impl : ProgressImpl) (uri p0 p1 : String)
    (record : DownloadRecord) (downloaded piece : Nat)
    (h : impl.nowDownloading.find uri = some record) (h0 : lexical_cast p0 = some downloaded)
    (h1 : lexical_cast p1 = some piece) :
    progress now impl [uri, "downloading", p0, p1] =
      (let impl2 := { impl with
        nowDownloading :=
          impl.nowDownloading.insert uri { record with downloadedSize := downloaded }
        fetchedSize := wrap64 (impl.fetchedSize + piece)
        fetchedChunks := addChunk now piece impl.fetchedChunks }
      { thrown := none, impl := impl2, hooks := [(.updateHook false, impl2)] }) := by
  simp [progress, progressActive, h, h0, h1]

theorem progress_expectedSize (now : timespec) (impl : ProgressImpl) (uri p : String)
    (record : DownloadRecord) (size : Nat)
    (h : impl.nowDownloading.find uri = some record) (h0 : lexical_cast p = some size) :
    progress now impl [uri, "expected-size", p] =
      (let impl1 := { impl with
        nowDownloading := impl.nowDownloading.insert uri { record with size := size } }
      { thrown := none, impl := impl1, hooks := [(.updateHook true, impl1)] }) := by
  simp [progress, progressActive, h, h0]

theorem progress_uiSize (now : timespec) (impl : ProgressImpl) (uri p : String)
    (record : DownloadRecord) (uiSize : Nat)
    (h : impl.nowDownloading.find uri = some record) (h0 : lexical_cast p = some uiSize) :
    progress now impl [uri, "ui-size", p] =
      { thrown := none,
        impl := { impl with
          nowDownloading := impl.nowDownloading.insert uri
            { record with
              sizeScaleFactor :=
                if record.size ≠ UINT_MAX then
                  CFloat.div (CFloat.ofNat record.size) (CFloat.ofNat uiSize)
                else record.sizeScaleFactor
              size := uiSize } },
        hooks := [] } := by
  simp [progress, progressActive, h, h0]

theorem progress_preDone (now : timespec) (impl : ProgressImpl) (uri : String)
    (record : DownloadRecord) (h : impl.nowDownloading.find uri = some record) :
    progress now impl [uri, "pre-done"] =
      (let impl1 := { impl with
        nowDownloading :=
          impl.nowDownloading.insert uri { record with beingPostprocessed := true } }
      { thrown := none, impl := impl1, hooks := [(.updateHook true, impl1)] }) := by
  simp [progress, progressActive, h]

/-- A call of `progress` that returns was given one of the accepted
submessages. -/
theorem accepted_of_returns (now : timespec) (impl : ProgressImpl) (allParams : List String)
    (h : (progress now impl allParams).thrown = none) : Accepted impl allParams := by
  match allParams with
  | [] => simp [progress] at h
  | [p] =>
    by_cases hp : p = "finish"
    · subst hp; exact .finish
    · simp [progress, hp] at h
  | uri :: action :: params =>
    by_cases hping : action = "ping"
    · subst hping; exact .ping uri params
    by_cases hstart : action = "start"
    · subst hstart
      match params with
      | [] => exact .startUnknown uri
      | [p] =>
        cases hc : lexical_cast p with
        | none => simp [progress, progressStart, hc] at h
        | some v => exact .startSized uri p v hc
      | _ :: _ :: _ => simp [progress] at h
    cases hf : impl.nowDownloading.find uri with
    | none => simp [progress, hping, hstart, hf] at h
    | some record =>
      simp only [progress, hping, hstart, hf, if_false] at h
      unfold progressActive at h
      by_cases h1 : action = "downloading"
      · subst h1
        match params with
        | [] => simp at h
        | [_] => simp at h
        | [p0, p1] =>
          cases hc0 : lexical_cast p0 with
          | none => simp [hc0] at h
          | some a =>
            cases hc1 : lexical_cast p1 with
            | none => simp [hc0, hc1] at h
            | some b => exact .downloading uri p0 p1 record a b hf hc0 hc1
        | _ :: _ :: _ :: _ => simp at h
      by_cases h2 : action = "expected-size"
      · subst h2
        match params with
        | [] => simp at h
        | [p] =>
          cases hc : lexical_cast p with
          | none => simp [hc] at h
          | some v => exact .expectedSize uri p record v hf hc
        | _ :: _ :: _ => simp at h
      by_cases h3 : action = "ui-size"
      · subst h3
        match params with
        | [] => simp at h
        | [p] =>
          cases hc : lexical_cast p with
          | none => simp [hc] at h
          | some v => exact .uiSize uri p record v hf hc
        | _ :: _ :: _ => simp at h
      by_cases h4 : action = "pre-done"
      · subst h4
        match params with
        | [] => exact .preDone uri record hf
        | _ :: _ => simp at h
      by_cases h5 : action = "done"
      · subst h5
        match params with
        | [] => simp at h
        | [result] => exact .done uri result record hf
        | _ :: _ :: _ => simp at h
      simp [h1, h2, h3, h4, h5] at h

/-- Every accepted submessage makes `progress` return. -/
theorem returns_of_accepted (now : timespec) (impl : ProgressImpl) (allParams : List String)
    (h : Accepted impl allParams) : (progress now impl allParams).thrown = none := by
  cases h with
  | finish => rw [progress_finish]
  | ping uri params => rw [progress_ping]
  | startUnknown uri => rw [progress_startUnknown]
  | startSized uri p size hc => rw [progress_startSized now impl uri p size hc]
  | downloading uri p0 p1 record a b hf h0 h1 => rw [progress_downloading now impl uri p0 p1 record a b hf h0 h1]
  | expectedSize uri p record v hf hc => rw [progress_expectedSize now impl uri p record v hf hc]
  | uiSize uri p record v hf hc => rw [progress_uiSize now impl uri p record v hf hc]
  | preDone uri record hf => rw [progress_preDone now impl uri record hf]
  | done uri result record hf => rw [progress_done now impl uri result record hf]

theorem progress_notStarted (now : timespec) (impl : ProgressImpl) (uri action : String)
    (params : List String) (hfind : impl.nowDownloading.find uri = none)
    (hping : action ≠ "ping") (hstart : action ≠ "start") :
    progress now impl (uri :: action :: params) =
      { thrown := some (.notStartedDownload uri), impl := impl, hooks := [] } := by
  simp [progress, hping, hstart, hfind]

theorem accepted_done_inv (impl : ProgressImpl) (uri : String) (params : List String)
    (h : Accepted impl (uri :: "done" :: params)) :
    ∃ result record, params = [result] ∧ impl.nowDownloading.find uri = some record := by
  generalize hm : uri :: "done" :: params = m at h
  cases h with
  | finish => simp at hm
  | ping u ps => simp at hm
  | startUnknown u => simp at hm
  | startSized u p size hc => simp at hm
  | downloading u p0 p1 record a b hf h0 h1 => simp at hm
  | expectedSize u p record v hf hc => simp at hm
  | uiSize u p record v hf hc => simp at hm
  | preDone u record hf => simp at hm
  | done u result record hf =>
    simp only [List.cons.injEq, true_and] at hm
    obtain ⟨hu, hp⟩ := hm
    subst hu
    exact ⟨result, record, hp, hf⟩

/-! ## C1: a successful `done` -/

/-- C1, the claim as stated fails: in the state reached by starting and
finishing a download of 18446744073709551614 bytes and starting "b" with size
5, the record of "b" is active with known size 5, and the successful `done`
of "b" is accepted but takes `doneDownloadsSize` from 18446744073709551614 to
3: it does not increase it by 5. -/
theorem C1_counterexample :
    (progressAll (ProgressImpl.new 0) nearlyFullSteps).nowDownloading.find "b" =
        some { number := 2, downloadedSize := 0, size := 5, beingPostprocessed := false,
               sizeScaleFactor := CFloat.ofInt 1 } ∧
      (progressAll (ProgressImpl.new 0) nearlyFullSteps).doneDownloadsSize =
        18446744073709551614 ∧
      (progress t0 (progressAll (ProgressImpl.new 0) nearlyFullSteps)
        ["b", "done", ""]).thrown = none ∧
      (progress t0 (progressAll (ProgressImpl.new 0) nearlyFullSteps)
        ["b", "done", ""]).impl.doneDownloadsSize = 3 ∧
      (progress t0 (progressAll (ProgressImpl.new 0) nearlyFullSteps)
        ["b", "done", ""]).impl.doneDownloadsSize ≠
        (progressAll (ProgressImpl.new 0) nearlyFullSteps).doneDownloadsSize + 5 := by
  decide

/-- C1 (amended): in every engine state in which `X` has an active record `r`,
the submessage `[X, "done", ""]` is accepted, removes `X` from the registry
and sets `doneDownloadsSize` to the old value plus `r.size` (plus
`r.downloadedSize` when `r.size` is the unknown value) reduced modulo `2^64`;
that is an increase by exactly that amount whenever the sum fits 64 bits. -/
theorem C1_done_success (now : timespec) (impl : ProgressImpl) (X : String)
    (r : DownloadRecord) (hwf : impl.WellFormed)
    (hX : impl.nowDownloading.find X = some r) :
    (progress now impl [X, "done", ""]).thrown = none ∧
      (progress now impl [X, "done", ""]).impl.nowDownloading.find X = none ∧
      (progress now impl [X, "done", ""]).impl.doneDownloadsSize =
        (impl.doneDownloadsSize + (if r.size ≠ SIZE_MAX then r.size else r.downloadedSize))
          % 2 ^ 64 ∧
      (impl.doneDownloadsSize + (if r.size ≠ SIZE_MAX then r.size else r.downloadedSize)
          < 2 ^ 64 →
        (progress now impl [X, "done", ""]).impl.doneDownloadsSize =
          impl.doneDownloadsSize + (if r.size ≠ SIZE_MAX then r.size else r.downloadedSize)) := by
  rw [progress_done now impl X "" r hX]
  refine ⟨rfl, ?_, ?_, ?_⟩
  · simp only [if_true]
    exact StdMap.find_erase_self _ _ hwf.1
  · simp [wrap64, doneValue]
  · intro hlt
    simp only [if_true, wrap64, doneValue]
    exact Nat.mod_eq_of_lt hlt

/-- C1, witness: the theorem at the state after `["a", "start", "7"]`. -/
theorem C1_done_success_witness :
    (progressAll (ProgressImpl.new 0) [(t0, ["a", "start", "7"])]).WellFormed ∧
      (progressAll (ProgressImpl.new 0) [(t0, ["a", "start", "7"])]).nowDownloading.find "a" =
        some { number := 1, downloadedSize := 0, size := 7, beingPostprocessed := false,
               sizeScaleFactor := CFloat.ofInt 1 } ∧
      (progress t0 (progressAll (ProgressImpl.new 0) [(t0, ["a", "start", "7"])])
        ["a", "done", ""]).thrown = none ∧
      (progress t0 (progressAll (ProgressImpl.new 0) [(t0, ["a", "start", "7"])])
        ["a", "done", ""]).impl.nowDownloading.find "a" = none ∧
      (progress t0 (progressAll (ProgressImpl.new 0) [(t0, ["a", "start", "7"])])
        ["a", "done", ""]).impl.doneDownloadsSize = 7 :=
  have h := C1_done_success t0 (progressAll (ProgressImpl.new 0) [(t0, ["a", "start", "7"])])
    "a" { number := 1, downloadedSize := 0, size := 7, beingPostprocessed := false,
          sizeScaleFactor := CFloat.ofInt 1 } (by decide) (by decide)
  ⟨by decide, by decide, h.1, h.2.1, h.2.2.2 (by decide)⟩

/-! ## C2: `doneDownloadsSize` along a run -/

/-- C2, the claim as stated fails: every submessage of `wrappingSteps` is
accepted, after the first four `doneDownloadsSize` is 18446744073709551615 and
the fifth, a successful `done`, decreases it to 0. -/
theorem C2_counterexample :
    allAccepted (ProgressImpl.new 0) wrappingSteps = true ∧
      (progressAll (ProgressImpl.new 0) (wrappingSteps.take 4)).doneDownloadsSize =
        18446744073709551615 ∧
      (progressAll (ProgressImpl.new 0) wrappingSteps).doneDownloadsSize = 0 ∧
      (progressAll (ProgressImpl.new 0) wrappingSteps).doneDownloadsSize <
        (progressAll (ProgressImpl.new 0) (wrappingSteps.take 4)).doneDownloadsSize := by
  decide

/-- C2 (amended): every accepted submessage other than a successful `done`
leaves `doneDownloadsSize` unchanged, and a successful `done` of the record
`r` sets it to the old value plus `doneValue r` modulo `2^64`, so that it does
not decrease whenever that sum fits 64 bits. -/
theorem C2_doneDownloadsSize_step (now : timespec) (impl : ProgressImpl)
    (allParams : List String) (h : (progress now impl allParams).thrown = none) :
    ((∀ X, allParams ≠ [X, "done", ""]) →
        (progress now impl allParams).impl.doneDownloadsSize = impl.doneDownloadsSize) ∧
      (∀ X r, allParams = [X, "done", ""] → impl.nowDownloading.find X = some r →
        (progress now impl allParams).impl.doneDownloadsSize =
            (impl.doneDownloadsSize + doneValue r) % 2 ^ 64 ∧
          (impl.doneDownloadsSize + doneValue r < 2 ^ 64 →
            impl.doneDownloadsSize ≤ (progress now impl allParams).impl.doneDownloadsSize)) := by
  constructor
  · intro hnot
    cases accepted_of_returns now impl allParams h with
    | finish => rw [progress_finish]
    | ping uri params => rw [progress_ping]
    | startUnknown uri => rw [progress_startUnknown]
    | startSized uri p size hc => rw [progress_startSized now impl uri p size hc]
    | downloading uri p0 p1 record a b hf h0 h1 =>
      rw [progress_downloading now impl uri p0 p1 record a b hf h0 h1]
    | expectedSize uri p record v hf hc => rw [progress_expectedSize now impl uri p record v hf hc]
    | uiSize uri p record v hf hc => rw [progress_uiSize now impl uri p record v hf hc]
    | preDone uri record hf => rw [progress_preDone now impl uri record hf]
    | done uri result record hf =>
      rw [progress_done now impl uri result record hf]
      have hres : result ≠ "" := fun e => hnot uri (by rw [e])
      simp [hres]
  · intro X r hshape hX
    subst hshape
    rw [progress_done now impl X "" r hX]
    constructor
    · simp [wrap64]
    · intro hlt
      simp only [if_true, wrap64]
      rw [Nat.mod_eq_of_lt hlt]
      exact Nat.le_add_right _ _

/-- C2, witness: the theorem at the successful `done` of a download of size 7. -/
theorem C2_doneDownloadsSize_step_witness :
    (progress t0 (progressAll (ProgressImpl.new 0) [(t0, ["a", "start", "7"])])
        ["a", "done", ""]).thrown = none ∧
      (progressAll (ProgressImpl.new 0) [(t0, ["a", "start", "7"])]).doneDownloadsSize ≤
        (progress t0 (progressAll (ProgressImpl.new 0) [(t0, ["a", "start", "7"])])
          ["a", "done", ""]).impl.doneDownloadsSize :=
  ⟨by decide,
    ((C2_doneDownloadsSize_step t0 (progressAll (ProgressImpl.new 0) [(t0, ["a", "start", "7"])])
      ["a", "done", ""] (by decide)).2 "a"
      { number := 1, downloadedSize := 0, size := 7, beingPostprocessed := false,
        sizeScaleFactor := CFloat.ofInt 1 } rfl (by decide)).2 (by decide)⟩

/-! ## C3: after `done` -/

/-- C3, the claim as stated fails: after the accepted `done` of "a" the
registry has no record for "a", yet the submessage `["a", "ping"]`, whose
action is not "start", is accepted. -/
theorem C3_counterexample :
    allAccepted (ProgressImpl.new 0) startedAndDoneSteps = true ∧
      (progressAll (ProgressImpl.new 0) startedAndDoneSteps).nowDownloading.find "a" = none ∧
      "ping" ≠ "start" ∧
      (progress t0 (progressAll (ProgressImpl.new 0) startedAndDoneSteps)
        ["a", "ping"]).thrown = none := by
  decide

/-- C3 (amended): after an accepted `done` for `X`, with any result string,
the registry has no record for `X`, and every following submessage
`[X, action, ...]` whose action is neither "ping" nor "start" throws the
not-started error and leaves the state as it is. -/
theorem C3_after_done (now : timespec) (impl : ProgressImpl) (X : String)
    (params : List String) (hwf : impl.WellFormed)
    (h : (progress now impl (X :: "done" :: params)).thrown = none) :
    (progress now impl (X :: "done" :: params)).impl.nowDownloading.find X = none ∧
      ∀ (later : timespec) (action : String) (rest : List String),
        action ≠ "ping" → action ≠ "start" →
        (progress later (progress now impl (X :: "done" :: params)).impl
            (X :: action :: rest)).thrown = some (.notStartedDownload X) ∧
          (progress later (progress now impl (X :: "done" :: params)).impl
            (X :: action :: rest)).impl = (progress now impl (X :: "done" :: params)).impl := by
  obtain ⟨result, record, hp, hf⟩ :=
    accepted_done_inv impl X params (accepted_of_returns now impl _ h)
  subst hp
  have hnone : (progress now impl [X, "done", result]).impl.nowDownloading.find X = none := by
    rw [progress_done now impl X result record hf]
    by_cases hres : result = ""
    · simp only [hres, if_true]
      exact StdMap.find_erase_self _ _ hwf.1
    · simp only [hres, if_false]
      exact StdMap.find_erase_self _ _ hwf.1
  refine ⟨hnone, ?_⟩
  intro later action rest hping hstart
  rw [progress_notStarted later _ X action rest hnone hping hstart]
  exact ⟨rfl, rfl⟩

/-- C3, witness: the theorem at a failed `done` of a started download. -/
theorem C3_after_done_witness :
    (progressAll (ProgressImpl.new 0) [(t0, ["a", "start"])]).WellFormed ∧
      (progress t0 (progressAll (ProgressImpl.new 0) [(t0, ["a", "start"])])
        ["a", "done", "404"]).thrown = none ∧
      (progress t0 (progressAll (ProgressImpl.new 0) [(t0, ["a", "start"])])
        ["a", "done", "404"]).impl.nowDownloading.find "a" = none ∧
      (progress t0 (progress t0 (progressAll (ProgressImpl.new 0) [(t0, ["a", "start"])])
        ["a", "done", "404"]).impl ["a", "downloading", "1", "1"]).thrown =
        some (.notStartedDownload "a") :=
  have h := C3_after_done t0 (progressAll (ProgressImpl.new 0) [(t0, ["a", "start"])]) "a"
    ["404"] (by decide) (by decide)
  ⟨by decide, by decide, h.1, (h.2 t0 "downloading" ["1", "1"] (by decide) (by decide)).1⟩

/-! ## C4: `downloading` -/

/-- The effect of one accepted `downloading` submessage. -/
theorem downloading_step (now : timespec) (impl : ProgressImpl) (X sa sb : String)
    (r : DownloadRecord) (a b : Nat) (hX : impl.nowDownloading.find X = some r)
    (ha : lexical_cast sa = some a) (hb : lexical_cast sb = some b) :
    (progress now impl [X, "downloading", sa, sb]).thrown = none ∧
      (progress now impl [X, "downloading", sa, sb]).impl.nowDownloading.find X =
        some { r with downloadedSize := a } ∧
      (progress now impl [X, "downloading", sa, sb]).impl.fetchedSize =
        (impl.fetchedSize + b) % 2 ^ 64 ∧
      (∀ Y, Y ≠ X →
        (progress now impl [X, "downloading", sa, sb]).impl.nowDownloading.find Y =
          impl.nowDownloading.find Y) ∧
      (progress now impl [X, "downloading", sa, sb]).impl.doneDownloadsSize =
        impl.doneDownloadsSize := by
  rw [progress_downloading now impl X sa sb r a b hX ha hb]
  refine ⟨rfl, ?_, rfl, ?_, rfl⟩
  · exact StdMap.find_insert_self _ _ _
  · intro Y hY
    exact StdMap.find_insert_ne _ _ _ _ hY

/-- C4, the claim as stated fails: in the state after `hugePieceSteps` the
download "a" is active and `fetchedSize` is 18446744073709551615; the accepted
submessages `downloading (100, 40)` and `downloading (150, 50)` leave
`fetchedSize` at 89, which is not an increase by 90. -/
theorem C4_counterexample :
    allAccepted (ProgressImpl.new 0) hugePieceSteps = true ∧
      (progressAll (ProgressImpl.new 0) hugePieceSteps).fetchedSize = 18446744073709551615 ∧
      allAccepted (progressAll (ProgressImpl.new 0) hugePieceSteps)
        [(t0, ["a", "downloading", "100", "40"]), (t0, ["a", "downloading", "150", "50"])] =
        true ∧
      (progressAll (progressAll (ProgressImpl.new 0) hugePieceSteps)
        [(t0, ["a", "downloading", "100", "40"]),
         (t0, ["a", "downloading", "150", "50"])]).fetchedSize = 89 ∧
      (progressAll (progressAll (ProgressImpl.new 0) hugePieceSteps)
        [(t0, ["a", "downloading", "100", "40"]),
         (t0, ["a", "downloading", "150", "50"])]).fetchedSize ≠
        (progressAll (ProgressImpl.new 0) hugePieceSteps).fetchedSize + 90 := by
  decide

/-- C4 (amended): for an active identifier `X` with record `r` and fields
`sa`, `sb` that decode to `a`, `b`, the submessage `[X, "downloading", sa, sb]`
is accepted, sets the `downloadedSize` of `X` to `a` and changes no other field
of the record, no other record and not `doneDownloadsSize`; `fetchedSize`
becomes the old value plus `b` modulo `2^64`, an increase by exactly `b` when
the sum fits 64 bits.  Sending `(100, 40)` then `(150, 50)` yields
`downloadedSize = 150` and, when `fetchedSize + 90` fits 64 bits, `fetchedSize`
increased by exactly 90. -/
theorem C4_downloading (now later : timespec) (impl : ProgressImpl) (X sa sb : String)
    (r : DownloadRecord) (a b : Nat) (hX : impl.nowDownloading.find X = some r)
    (ha : lexical_cast sa = some a) (hb : lexical_cast sb = some b) :
    ((progress now impl [X, "downloading", sa, sb]).thrown = none ∧
      (progress now impl [X, "downloading", sa, sb]).impl.nowDownloading.find X =
        some { r with downloadedSize := a } ∧
      (progress now impl [X, "downloading", sa, sb]).impl.fetchedSize =
        (impl.fetchedSize + b) % 2 ^ 64 ∧
      (impl.fetchedSize + b < 2 ^ 64 →
        (progress now impl [X, "downloading", sa, sb]).impl.fetchedSize =
          impl.fetchedSize + b) ∧
      (∀ Y, Y ≠ X →
        (progress now impl [X, "downloading", sa, sb]).impl.nowDownloading.find Y =
          impl.nowDownloading.find Y) ∧
      (progress now impl [X, "downloading", sa, sb]).impl.doneDownloadsSize =
        impl.doneDownloadsSize) ∧
    ((progress later (progress now impl [X, "downloading", "100", "40"]).impl
        [X, "downloading", "150", "50"]).thrown = none ∧
      (progress later (progress now impl [X, "downloading", "100", "40"]).impl
        [X, "downloading", "150", "50"]).impl.nowDownloading.find X =
        some { r with downloadedSize := 150 } ∧
      (impl.fetchedSize + 90 < 2 ^ 64 →
        (progress later (progress now impl [X, "downloading", "100", "40"]).impl
          [X, "downloading", "150", "50"]).impl.fetchedSize = impl.fetchedSize + 90)) := by
  constructor
  · obtain ⟨h1, h2, h3, h4, h5⟩ := downloading_step now impl X sa sb r a b hX ha hb
    refine ⟨h1, h2, h3, ?_, h4, h5⟩
    intro hlt
    rw [h3, Nat.mod_eq_of_lt hlt]
  · have c100 : lexical_cast "100" = some 100 := by decide
    have c40 : lexical_cast "40" = some 40 := by decide
    have c150 : lexical_cast "150" = some 150 := by decide
    have c50 : lexical_cast "50" = some 50 := by decide
    obtain ⟨_, h2, h3, _, _⟩ := downloading_step now impl X "100" "40" r 100 40 hX c100 c40
    obtain ⟨k1, k2, k3, _, _⟩ :=
      downloading_step later (progress now impl [X, "downloading", "100", "40"]).impl X
        "150" "50" _ 150 50 h2 c150 c50
    refine ⟨k1, k2, ?_⟩
    intro hlt
    rw [k3, h3]
    have e1 : (impl.fetchedSize + 40) % 2 ^ 64 = impl.fetchedSize + 40 :=
      Nat.mod_eq_of_lt (by omega)
    rw [e1]
    have e2 : (impl.fetchedSize + 40 + 50) % 2 ^ 64 = impl.fetchedSize + 40 + 50 :=
      Nat.mod_eq_of_lt (by omega)
    rw [e2]

/-- C4, witness: the theorem at a freshly started download. -/
theorem C4_downloading_witness :
    (progressAll (ProgressImpl.new 0) [(t0, ["a", "start"])]).nowDownloading.find "a" =
        some { number := 1, downloadedSize := 0, size := SIZE_MAX, beingPostprocessed := false,
               sizeScaleFactor := CFloat.ofInt 1 } ∧
      lexical_cast "100" = some 100 ∧ lexical_cast "40" = some 40 ∧
      (progress t0 (progress t0 (progressAll (ProgressImpl.new 0) [(t0, ["a", "start"])])
        ["a", "downloading", "100", "40"]).impl
        ["a", "downloading", "150", "50"]).impl.fetchedSize = 90 :=
  ⟨by decide, by decide, by decide,
    (C4_downloading t0 t0 (progressAll (ProgressImpl.new 0) [(t0, ["a", "start"])]) "a"
      "100" "40"
      { number := 1, downloadedSize := 0, size := SIZE_MAX, beingPostprocessed := false,
        sizeScaleFactor := CFloat.ofInt 1 }
      100 40 (by decide) (by decide) (by decide)).2.2.2 (by decide)⟩

/-! ## C5: `downloadedSize` along a run -/

/-- C5, the claim as stated fails: the three submessages of `shrinkingSteps`
are accepted, "a" stays in the registry, and its `downloadedSize` goes from 100
after the second submessage to 50 after the third. -/
theorem C5_counterexample :
    allAccepted (ProgressImpl.new 0) shrinkingSteps = true ∧
      ((progressAll (ProgressImpl.new 0) (shrinkingSteps.take 2)).nowDownloading.find "a").map
        DownloadRecord.downloadedSize = some 100 ∧
      ((progressAll (ProgressImpl.new 0) shrinkingSteps).nowDownloading.find "a").map
        DownloadRecord.downloadedSize = some 50 := by
  decide

/-- C5 (amended): across an accepted submessage that leaves `X` in the
registry, the `downloadedSize` of the record of `X` does not decrease, provided
the submessage is neither a `downloading` for `X` that reports less than the
current value nor a `start` for `X`, which sets it to 0. -/
theorem C5_downloadedSize_step (now : timespec) (impl : ProgressImpl)
    (allParams : List String) (X : String) (r r' : DownloadRecord) (hwf : impl.WellFormed)
    (h : (progress now impl allParams).thrown = none)
    (hX : impl.nowDownloading.find X = some r)
    (hX' : (progress now impl allParams).impl.nowDownloading.find X = some r')
    (hdown : ∀ sa sb a, allParams = [X, "downloading", sa, sb] → lexical_cast sa = some a →
      r.downloadedSize ≤ a)
    (hstart : ∀ params, allParams ≠ X :: "start" :: params) :
    r.downloadedSize ≤ r'.downloadedSize := by
  cases accepted_of_returns now impl allParams h with
  | finish =>
    rw [progress_finish, hX] at hX'
    cases hX'
    exact Nat.le_refl _
  | ping uri params =>
    rw [progress_ping, hX] at hX'
    cases hX'
    exact Nat.le_refl _
  | startUnknown uri =>
    have hne : X ≠ uri := fun e => hstart [] (by rw [e])
    rw [progress_startUnknown] at hX'
    simp only [StdMap.find_insert, hne, if_false] at hX'
    rw [hX] at hX'
    cases hX'
    exact Nat.le_refl _
  | startSized uri p size hc =>
    have hne : X ≠ uri := fun e => hstart [p] (by rw [e])
    rw [progress_startSized now impl uri p size hc] at hX'
    simp only [StdMap.find_insert, hne, if_false] at hX'
    rw [hX] at hX'
    cases hX'
    exact Nat.le_refl _
  | downloading uri p0 p1 record a b hf h0 h1 =>
    rw [progress_downloading now impl uri p0 p1 record a b hf h0 h1] at hX'
    simp only [StdMap.find_insert] at hX'
    by_cases hxu : X = uri
    · subst hxu
      simp only [if_true, Option.some.injEq] at hX'
      subst hX'
      exact hdown p0 p1 a rfl h0
    · simp only [hxu, if_false] at hX'
      rw [hX] at hX'
      cases hX'
      exact Nat.le_refl _
  | expectedSize uri p record v hf hc =>
    rw [progress_expectedSize now impl uri p record v hf hc] at hX'
    simp only [StdMap.find_insert] at hX'
    by_cases hxu : X = uri
    · subst hxu
      simp only [if_true, Option.some.injEq] at hX'
      subst hX'
      rw [hX] at hf
      cases hf
      exact Nat.le_refl _
    · simp only [hxu, if_false] at hX'
      rw [hX] at hX'
      cases hX'
      exact Nat.le_refl _
  | uiSize uri p record v hf hc =>
    rw [progress_uiSize now impl uri p record v hf hc] at hX'
    simp only [StdMap.find_insert] at hX'
    by_cases hxu : X = uri
    · subst hxu
      simp only [if_true, Option.some.injEq] at hX'
      subst hX'
      rw [hX] at hf
      cases hf
      exact Nat.le_refl _
    · simp only [hxu, if_false] at hX'
      rw [hX] at hX'
      cases hX'
      exact Nat.le_refl _
  | preDone uri record hf =>
    rw [progress_preDone now impl uri record hf] at hX'
    simp only [StdMap.find_insert] at hX'
    by_cases hxu : X = uri
    · subst hxu
      simp only [if_true, Option.some.injEq] at hX'
      subst hX'
      rw [hX] at hf
      cases hf
      exact Nat.le_refl _
    · simp only [hxu, if_false] at hX'
      rw [hX] at hX'
      cases hX'
      exact Nat.le_refl _
  | done uri result record hf =>
    rw [progress_done now impl uri result record hf] at hX'
    have herase : (impl.nowDownloading.erase uri).find X = some r' := by
      by_cases hres : result = ""
      · simpa [hres] using hX'
      · simpa [hres] using hX'
    by_cases hxu : X = uri
    · subst hxu
      rw [StdMap.find_erase_self _ _ hwf.1] at herase
      cases herase
    · rw [StdMap.find_erase_ne _ _ _ hxu, hX] at herase
      cases herase
      exact Nat.le_refl _

/-- C5, witness: the theorem at a `downloading` that reports 150 after 100. -/
theorem C5_downloadedSize_step_witness :
    (progressAll (ProgressImpl.new 0) (shrinkingSteps.take 2)).WellFormed ∧
      (progress t0 (progressAll (ProgressImpl.new 0) (shrinkingSteps.take 2))
        ["a", "downloading", "150", "50"]).thrown = none ∧
      (100 : Nat) ≤ 150 :=
  ⟨by decide, by decide,
    C5_downloadedSize_step t0 (progressAll (ProgressImpl.new 0) (shrinkingSteps.take 2))
      ["a", "downloading", "150", "50"] "a"
      { number := 1, downloadedSize := 100, size := SIZE_MAX, beingPostprocessed := false,
        sizeScaleFactor := CFloat.ofInt 1 }
      { number := 1, downloadedSize := 150, size := SIZE_MAX, beingPostprocessed := false,
        sizeScaleFactor := CFloat.ofInt 1 }
      (by decide) (by decide) (by decide) (by decide)
      (by
        intro sa sb a hshape hcast
        simp only [List.cons.injEq, true_and, and_true] at hshape
        obtain ⟨hsa, _⟩ := hshape
        subst hsa
        have : lexical_cast "150" = some 150 := by decide
        rw [this] at hcast
        cases hcast
        decide)
      (by intro params; simp)⟩

/-! ## C6: downloaded size and estimated size -/

theorem ofNat_cases (n : Nat) :
    (∃ k, CFloat.ofNat n = CFloat.fin false k) ∨ CFloat.ofNat n = CFloat.inf false := by
  unfold CFloat.ofNat
  cases roundUnits (n * unitsPerOne) 1 with
  | none => exact Or.inr rfl
  | some k => exact Or.inl ⟨k, rfl⟩

theorem nonNeg_ofRounded (o : Option Nat) : (CFloat.ofRounded false o).NonNeg := by
  cases o <;> simp [CFloat.ofRounded, CFloat.NonNeg]

theorem nonNeg_div_ofNat (a b : Nat) :
    (CFloat.div (CFloat.ofNat a) (CFloat.ofNat b)).NonNeg := by
  rcases ofNat_cases a with ⟨ka, ha⟩ | ha <;> rcases ofNat_cases b with ⟨kb, hb⟩ | hb <;>
    rw [ha, hb] <;> simp only [CFloat.div, Bool.xor_false]
  · by_cases h0 : kb = 0
    · by_cases h1 : ka = 0
      · simp [h0, h1, CFloat.NonNeg]
      · simp [h0, h1, CFloat.NonNeg]
    · simp only [h0, if_false]
      exact nonNeg_ofRounded _
  · simp [CFloat.NonNeg]
  · simp [CFloat.NonNeg]
  · simp [CFloat.NonNeg]

/-- In a state reached from a fresh engine by accepted submessages no total
estimated size is set and no scale factor is negative. -/
theorem reachable_invariant (impl : ProgressImpl) (h : Reachable impl) :
    impl.totalEstimatedSize = SIZE_MAX ∧
      ∀ p ∈ impl.nowDownloading, p.2.sizeScaleFactor.NonNeg := by
  induction h with
  | fresh start => exact ⟨rfl, fun p hp => by simp [ProgressImpl.new] at hp⟩
  | step now impl allParams _ hret ih =>
    obtain ⟨ht, hn⟩ := ih
    have hone : (CFloat.ofInt 1).NonNeg := by
      have e : CFloat.ofInt 1 = CFloat.fin false unitsPerOne := by decide
      rw [e]
      rfl
    cases accepted_of_returns now impl allParams hret with
    | finish => rw [progress_finish]; exact ⟨ht, hn⟩
    | ping uri params => rw [progress_ping]; exact ⟨ht, hn⟩
    | startUnknown uri =>
      rw [progress_startUnknown]
      refine ⟨ht, fun p hp => ?_⟩
      rcases StdMap.mem_of_mem_insert _ _ _ _ hp with hp | hp
      · rw [hp]; exact hone
      · exact hn p hp
    | startSized uri q size hc =>
      rw [progress_startSized now impl uri q size hc]
      refine ⟨ht, fun p hp => ?_⟩
      rcases StdMap.mem_of_mem_insert _ _ _ _ hp with hp | hp
      · rw [hp]; exact hone
      · exact hn p hp
    | downloading uri p0 p1 record a b hf h0 h1 =>
      rw [progress_downloading now impl uri p0 p1 record a b hf h0 h1]
      refine ⟨ht, fun p hp => ?_⟩
      rcases StdMap.mem_of_mem_insert _ _ _ _ hp with hp | hp
      · rw [hp]; exact hn (uri, record) (StdMap.mem_of_find _ _ _ hf)
      · exact hn p hp
    | expectedSize uri q record v hf hc =>
      rw [progress_expectedSize now impl uri q record v hf hc]
      refine ⟨ht, fun p hp => ?_⟩
      rcases StdMap.mem_of_mem_insert _ _ _ _ hp with hp | hp
      · rw [hp]; exact hn (uri, record) (StdMap.mem_of_find _ _ _ hf)
      · exact hn p hp
    | uiSize uri q record v hf hc =>
      rw [progress_uiSize now impl uri q record v hf hc]
      refine ⟨ht, fun p hp => ?_⟩
      rcases StdMap.mem_of_mem_insert _ _ _ _ hp with hp | hp
      · rw [hp]
        show CFloat.NonNeg (if record.size ≠ UINT_MAX then _ else _)
        split
        · exact nonNeg_div_ofNat _ _
        · exact hn (uri, record) (StdMap.mem_of_find _ _ _ hf)
      · exact hn p hp
    | preDone uri record hf =>
      rw [progress_preDone now impl uri record hf]
      refine ⟨ht, fun p hp => ?_⟩
      rcases StdMap.mem_of_mem_insert _ _ _ _ hp with hp | hp
      · rw [hp]; exact hn (uri, record) (StdMap.mem_of_find _ _ _ hf)
      · exact hn p hp
    | done uri result record hf =>
      rw [progress_done now impl uri result record hf]
      by_cases hres : result = ""
      · simp only [hres, if_true]
        exact ⟨ht, fun p hp => hn p (StdMap.mem_of_mem_erase _ _ _ hp)⟩
      · simp only [hres, if_false]
        exact ⟨ht, fun p hp => hn p (StdMap.mem_of_mem_erase _ _ _ hp)⟩

theorem downloadedLoop_cons (key : String) (item : DownloadRecord)
    (rest : StdMap DownloadRecord) (result : Nat) :
    downloadedLoop ((key, item) :: rest) result =
      (CFloat.toUInt64 (CFloat.add (CFloat.ofNat result)
        (CFloat.mul (CFloat.ofNat item.downloadedSize) item.sizeScaleFactor))).bind
        (downloadedLoop rest) := by
  show (match CFloat.toUInt64 (CFloat.add (CFloat.ofNat result)
      (CFloat.mul (CFloat.ofNat item.downloadedSize) item.sizeScaleFactor)) with
    | none => none
    | some result1 => downloadedLoop rest result1) = _
  cases CFloat.toUInt64 (CFloat.add (CFloat.ofNat result)
    (CFloat.mul (CFloat.ofNat item.downloadedSize) item.sizeScaleFactor)) <;> rfl

theorem estimatedLoop_cons (key : String) (item : DownloadRecord)
    (rest : StdMap DownloadRecord) (result : Nat) :
    estimatedLoop ((key, item) :: rest) result =
      (CFloat.toUInt64 (CFloat.add (CFloat.ofNat result)
        (CFloat.mul
          (CFloat.ofNat (if item.size = SIZE_MAX then item.downloadedSize else item.size))
          item.sizeScaleFactor))).bind (estimatedLoop rest) := by
  show (match CFloat.toUInt64 (CFloat.add (CFloat.ofNat result)
      (CFloat.mul
        (CFloat.ofNat (if item.size = SIZE_MAX then item.downloadedSize else item.size))
        item.sizeScaleFactor)) with
    | none => none
    | some result1 => estimatedLoop rest result1) = _
  cases CFloat.toUInt64 (CFloat.add (CFloat.ofNat result)
    (CFloat.mul
      (CFloat.ofNat (if item.size = SIZE_MAX then item.downloadedSize else item.size))
      item.sizeScaleFactor)) <;> rfl

/-- The two loops over the same records, started from `a ≤ b`: when no scale
factor is negative and no record has downloaded more than the size the
estimate counts for it, the downloaded total is at most the estimated one. -/
theorem downloadedLoop_le_estimatedLoop (l : StdMap DownloadRecord)
    (hnn : ∀ p ∈ l, p.2.sizeScaleFactor.NonNeg)
    (hle : ∀ p ∈ l, p.2.downloadedSize ≤
      (if p.2.size = SIZE_MAX then p.2.downloadedSize else p.2.size))
    (a b d e : Nat) (hab : a ≤ b) (hd : downloadedLoop l a = some d)
    (he : estimatedLoop l b = some e) : d ≤ e := by
  induction l generalizing a b with
  | nil =>
    have hd1 : some a = some d := hd
    have he1 : some b = some e := he
    cases hd1
    cases he1
    exact hab
  | cons p rest ih =>
    obtain ⟨key, item⟩ := p
    rw [downloadedLoop_cons] at hd
    rw [estimatedLoop_cons] at he
    cases ha1 : CFloat.toUInt64 (CFloat.add (CFloat.ofNat a)
        (CFloat.mul (CFloat.ofNat item.downloadedSize) item.sizeScaleFactor)) with
    | none =>
      rw [ha1] at hd
      cases hd
    | some a1 =>
      cases hb1 : CFloat.toUInt64 (CFloat.add (CFloat.ofNat b)
          (CFloat.mul
            (CFloat.ofNat (if item.size = SIZE_MAX then item.downloadedSize else item.size))
            item.sizeScaleFactor)) with
      | none =>
        rw [hb1] at he
        cases he
      | some b1 =>
        rw [ha1] at hd
        rw [hb1] at he
        have hstep : a1 ≤ b1 :=
          accumulate_mono item.sizeScaleFactor (hnn (key, item) (List.mem_cons_self _ _))
            a b _ _ a1 b1 hab (hle (key, item) (List.mem_cons_self _ _)) ha1 hb1
        exact ih (fun q hq => hnn q (List.mem_cons_of_mem _ hq))
          (fun q hq => hle q (List.mem_cons_of_mem _ hq)) a1 b1 hstep hd he

/-- Every state reached from a fresh engine by accepted submessages is well
formed. -/
theorem wellFormed_of_reachable (impl : ProgressImpl) (h : Reachable impl) :
    impl.WellFormed := by
  induction h with
  | fresh start => exact ⟨trivial, trivial⟩
  | step now impl allParams _ hret ih =>
    obtain ⟨hn, ha⟩ := ih
    cases accepted_of_returns now impl allParams hret with
    | finish => rw [progress_finish]; exact ⟨hn, ha⟩
    | ping uri params => rw [progress_ping]; exact ⟨hn, ha⟩
    | startUnknown uri =>
      rw [progress_startUnknown]
      exact ⟨StdMap.ordered_insert _ _ _ hn, ha⟩
    | startSized uri q size hc =>
      rw [progress_startSized now impl uri q size hc]
      exact ⟨StdMap.ordered_insert _ _ _ hn, ha⟩
    | downloading uri p0 p1 record a b hf h0 h1 =>
      rw [progress_downloading now impl uri p0 p1 record a b hf h0 h1]
      exact ⟨StdMap.ordered_insert _ _ _ hn, ha⟩
    | expectedSize uri q record v hf hc =>
      rw [progress_expectedSize now impl uri q record v hf hc]
      exact ⟨StdMap.ordered_insert _ _ _ hn, ha⟩
    | uiSize uri q record v hf hc =>
      rw [progress_uiSize now impl uri q record v hf hc]
      exact ⟨StdMap.ordered_insert _ _ _ hn, ha⟩
    | preDone uri record hf =>
      rw [progress_preDone now impl uri record hf]
      exact ⟨StdMap.ordered_insert _ _ _ hn, ha⟩
    | done uri result record hf =>
      rw [progress_done now impl uri result record hf]
      by_cases hres : result = ""
      · simp only [hres, if_true]
        exact ⟨StdMap.ordered_erase _ _ hn, ha⟩
      · simp only [hres, if_false]
        exact ⟨StdMap.ordered_erase _ _ hn, ha⟩

/-- A run of accepted submessages from a reachable state ends in a reachable
state. -/
theorem reachable_progressAll (steps : List (timespec × List String)) (impl : ProgressImpl)
    (h : Reachable impl) (hacc : allAccepted impl steps = true) :
    Reachable (progressAll impl steps) := by
  induction steps generalizing impl with
  | nil => exact h
  | cons step rest ih =>
    obtain ⟨now, allParams⟩ := step
    simp only [allAccepted, Bool.and_eq_true, Option.isNone_iff_eq_none] at hacc
    exact ih _ (Reachable.step now impl allParams h hacc.1) hacc.2

/-- C6, the claim as stated fails: after `overshootSteps`, both accepted, the
only active record has the known size 100, `getOverallDownloadedSize` is 200
and `getOverallEstimatedSize` is 100. -/
theorem C6_counterexample :
    allAccepted (ProgressImpl.new 0) overshootSteps = true ∧
      (progressAll (ProgressImpl.new 0) overshootSteps).nowDownloading =
        [("a", { number := 1, downloadedSize := 200, size := 100, beingPostprocessed := false,
                 sizeScaleFactor := CFloat.ofInt 1 })] ∧
      (100 : Nat) ≠ SIZE_MAX ∧
      getOverallDownloadedSize (progressAll (ProgressImpl.new 0) overshootSteps) = some 200 ∧
      getOverallEstimatedSize (progressAll (ProgressImpl.new 0) overshootSteps) = some 100 ∧
      ¬ (200 ≤ 100) := by
  decide

/-- C6 (amended): in every state reached from a fresh engine by accepted
submessages in which every active record has a known size and has downloaded
no more than that size, whenever `getOverallDownloadedSize` and
`getOverallEstimatedSize` both have a value (no conversion from `float` to
`uint64_t` is out of range), the first is at most the second. -/
theorem C6_downloaded_le_estimated (impl : ProgressImpl) (hreach : Reachable impl)
    (hknown : ∀ p ∈ impl.nowDownloading, p.2.size ≠ SIZE_MAX)
    (hle : ∀ p ∈ impl.nowDownloading, p.2.downloadedSize ≤ p.2.size)
    (d e : Nat) (hd : getOverallDownloadedSize impl = some d)
    (he : getOverallEstimatedSize impl = some e) : d ≤ e := by
  obtain ⟨ht, hn⟩ := reachable_invariant impl hreach
  unfold getOverallDownloadedSize at hd
  unfold getOverallEstimatedSize at he
  simp only [ht, ne_eq, not_true_eq_false, if_false] at he
  refine downloadedLoop_le_estimatedLoop impl.nowDownloading hn ?_ _ _ d e (Nat.le_refl _) hd he
  intro p hp
  simp only [hknown p hp, if_false]
  exact hle p hp

/-- C6, witness: the theorem at the state after `withinSizeSteps`, a download
of size 1000 that has reported 250 bytes. -/
theorem C6_downloaded_le_estimated_witness :
    Reachable (progressAll (ProgressImpl.new 0) withinSizeSteps) ∧
      (∀ p ∈ (progressAll (ProgressImpl.new 0) withinSizeSteps).nowDownloading,
        p.2.size ≠ SIZE_MAX) ∧
      (∀ p ∈ (progressAll (ProgressImpl.new 0) withinSizeSteps).nowDownloading,
        p.2.downloadedSize ≤ p.2.size) ∧
      getOverallDownloadedSize (progressAll (ProgressImpl.new 0) withinSizeSteps) = some 250 ∧
      getOverallEstimatedSize (progressAll (ProgressImpl.new 0) withinSizeSteps) = some 1000 ∧
      250 ≤ 1000 :=
  have hreach : Reachable (progressAll (ProgressImpl.new 0) withinSizeSteps) :=
    reachable_progressAll withinSizeSteps (ProgressImpl.new 0) (Reachable.fresh 0) (by decide)
  ⟨hreach, by decide, by decide, by decide, by decide,
    C6_downloaded_le_estimated (progressAll (ProgressImpl.new 0) withinSizeSteps) hreach
      (by decide) (by decide) 250 1000 (by decide) (by decide)⟩

/-! ## C7 and C8: `ui-size` -/

/-- C7, the code at the failing input: a download is started with the known
size 4294967295, the value of `-1u`, and then receives `ui-size` 2.  Both
submessages are accepted and the size becomes 2, but `sizeScaleFactor` stays
1.0 instead of becoming 4294967295 / 2: the branch tests `record.size != -1u`.
With the declared size 1000 and `ui-size` 500 the factor does become 2.0 and
the size 500. -/
theorem C7_uiSize_at_size_UINT_MAX :
    allAccepted (ProgressImpl.new 0) uiSizeAfterSize4GSteps = true ∧
      (4294967295 : Nat) ≠ SIZE_MAX ∧
      (progressAll (ProgressImpl.new 0) uiSizeAfterSize4GSteps).nowDownloading.find "u" =
        some { number := 1, downloadedSize := 0, size := 2, beingPostprocessed := false,
               sizeScaleFactor := CFloat.ofInt 1 } ∧
      CFloat.div (CFloat.ofNat 4294967295) (CFloat.ofNat 2) = CFloat.ofNat 2147483648 ∧
      CFloat.div (CFloat.ofNat 4294967295) (CFloat.ofNat 2) ≠ CFloat.ofInt 1 ∧
      (progressAll (ProgressImpl.new 0) uiSizeAfterSize1000Steps).nowDownloading.find "u" =
        some { number := 1, downloadedSize := 0, size := 500, beingPostprocessed := false,
               sizeScaleFactor := CFloat.ofInt 2 } := by
  decide

/-- C8, the code at the failing input: a download is started without a size,
so that its size is the unknown value `(size_t)-1`, and then receives `ui-size`
500.  Both submessages are accepted and the size becomes 500, but
`sizeScaleFactor` does not stay 1.0: it is recomputed as `(float)(size_t)-1 /
500`, about 3.7e16, because the branch compares the size with `-1u`, which is
4294967295, and not with `(size_t)-1` as the `done` branch does. -/
theorem C8_uiSize_at_unknown_size :
    allAccepted (ProgressImpl.new 0) uiSizeAfterPlainStartSteps = true ∧
      ((progressAll (ProgressImpl.new 0) (uiSizeAfterPlainStartSteps.take 1)).nowDownloading.find
        "u") = some { number := 1, downloadedSize := 0, size := SIZE_MAX,
                      beingPostprocessed := false, sizeScaleFactor := CFloat.ofInt 1 } ∧
      (progressAll (ProgressImpl.new 0) uiSizeAfterPlainStartSteps).nowDownloading.find "u" =
        some { number := 1, downloadedSize := 0, size := 500, beingPostprocessed := false,
               sizeScaleFactor := CFloat.div (CFloat.ofNat SIZE_MAX) (CFloat.ofNat 500) } ∧
      CFloat.div (CFloat.ofNat SIZE_MAX) (CFloat.ofNat 500) ≠ CFloat.ofInt 1 ∧
      CFloat.toUInt64 (CFloat.div (CFloat.ofNat SIZE_MAX) (CFloat.ofNat 500)) =
        some 36893489899765760 ∧
      SIZE_MAX ≠ UINT_MAX := by
  decide

/-! ## C9: the speed sampler -/

theorem recent_self (now : timespec) (size : Nat) :
    recent now { timeSpec := now, size := size } = true := by
  unfold recent getTimeSpecDiff
  simp only [sub_self]
  decide

theorem firstRecent_getD (now : timespec) (l : List FetchedChunk) :
    (firstRecent now l).getD [] = l.dropWhile (fun c => !recent now c) := by
  induction l with
  | nil => rfl
  | cons c cs ih =>
    simp only [firstRecent, List.dropWhile]
    by_cases h : recent now c = true
    · simp [h]
    · simp only [h, if_false]
      have hf : recent now c = false := by simpa using h
      simp only [hf, Bool.not_false]
      exact ih

theorem firstRecent_append (now : timespec) (l : List FetchedChunk) (c : FetchedChunk)
    (hc : recent now c = true) :
    firstRecent now (l ++ [c]) = some ((l ++ [c]).dropWhile (fun x => !recent now x)) := by
  induction l with
  | nil => simp [firstRecent, List.dropWhile, hc]
  | cons x xs ih =>
    simp only [List.cons_append, firstRecent, List.dropWhile]
    by_cases h : recent now x = true
    · simp [h]
    · simp only [h, if_false]
      have hf : recent now x = false := by simpa using h
      simp only [hf, Bool.not_false]
      exact ih

theorem sumSizes_eq (l : List FetchedChunk) (acc : Nat) (hacc : acc < 2 ^ 64) :
    sumSizes l acc = (acc + (l.map FetchedChunk.size).sum) % 2 ^ 64 := by
  induction l generalizing acc with
  | nil =>
    simp only [sumSizes, List.map_nil, List.sum_nil, Nat.add_zero]
    exact (Nat.mod_eq_of_lt hacc).symm
  | cons c cs ih =>
    simp only [sumSizes, List.map_cons, List.sum_cons]
    rw [ih (wrap64 (acc + c.size)) (Nat.mod_lt _ (by norm_num))]
    simp only [wrap64]
    rw [Nat.add_mod, Nat.mod_mod, ← Nat.add_mod, Nat.add_assoc]

theorem speedCalculatingAccuracy_eq :
    speedCalculatingAccuracy = CFloat.fin false (16 * unitsPerOne) := by
  decide

theorem roundUnits_sixteen : roundUnits (16 * unitsPerOne) 1 = some (16 * unitsPerOne) := by
  decide

theorem recent_of_small (D : Nat) (h : D < 16) :
    CFloat.lt (CFloat.add (CFloat.ofInt (D : Int)) (CFloat.fin false 0))
      speedCalculatingAccuracy = true := by
  interval_cases D <;> decide

theorem not_recent_of_large (D : Nat) (h : 16 ≤ D) :
    CFloat.lt (CFloat.add (CFloat.ofInt (D : Int)) (CFloat.fin false 0))
      speedCalculatingAccuracy = false := by
  have hneg : decide ((D : Int) < 0) = false := by
    simp
  have hle : 16 * unitsPerOne ≤ D * unitsPerOne := Nat.mul_le_mul_right _ h
  rw [speedCalculatingAccuracy_eq]
  unfold CFloat.ofInt
  rw [hneg, Int.natAbs_ofNat]
  cases h1 : roundUnits (D * unitsPerOne) 1 with
  | none => simp [CFloat.ofRounded, CFloat.add, CFloat.lt]
  | some k =>
    have hk : 16 * unitsPerOne ≤ k :=
      roundUnits_mono _ _ 1 _ _ hle roundUnits_sixteen h1
    simp only [CFloat.ofRounded, CFloat.add, if_true]
    cases h2 : roundUnits (k + 0) 1 with
    | none => simp [CFloat.ofRounded, CFloat.lt]
    | some k2 =>
      have hk2 : 16 * unitsPerOne ≤ k2 :=
        roundUnits_mono _ _ 1 _ _ (by omega) roundUnits_sixteen h2
      simp only [CFloat.ofRounded, CFloat.lt]
      exact decide_eq_false (by omega)

/-- For a chunk stamped a whole number of seconds before `now`, the test of the
scans is the comparison of that number with 16. -/
theorem recent_of_same_nsec (now : timespec) (c : FetchedChunk)
    (hns : c.timeSpec.tv_nsec = now.tv_nsec) (hle : c.timeSpec.tv_sec ≤ now.tv_sec) :
    recent now c = decide (now.tv_sec - c.timeSpec.tv_sec < 16) := by
  have hz : CFloat.div (CFloat.ofInt 0) (CFloat.ofInt (1000 * 1000 * 1000)) =
      CFloat.fin false 0 := by decide
  obtain ⟨D, hD⟩ := Int.eq_ofNat_of_zero_le (show 0 ≤ now.tv_sec - c.timeSpec.tv_sec by omega)
  unfold recent getTimeSpecDiff
  rw [hns, sub_self, hz, hD]
  by_cases h : D < 16
  · rw [recent_of_small D h]
    exact (decide_eq_true (by omega)).symm
  · rw [not_recent_of_large D (by omega)]
    exact (decide_eq_false (by omega)).symm

/-- Along chunks in non-decreasing order of whole seconds, skipping up to the
first recent chunk keeps exactly the chunks less than 16 seconds old. -/
theorem dropWhile_eq_filter_of_sorted (now : timespec) (l : List FetchedChunk)
    (hall : ∀ c ∈ l, c.timeSpec.tv_nsec = now.tv_nsec ∧ c.timeSpec.tv_sec ≤ now.tv_sec)
    (hsorted : l.Pairwise (fun c1 c2 => c1.timeSpec.tv_sec ≤ c2.timeSpec.tv_sec)) :
    l.dropWhile (fun c => !recent now c) =
      l.filter (fun c => decide (now.tv_sec - c.timeSpec.tv_sec < 16)) := by
  induction l with
  | nil => rfl
  | cons c cs ih =>
    have hc := hall c (List.mem_cons_self _ _)
    have hrest : ∀ x ∈ cs, x.timeSpec.tv_nsec = now.tv_nsec ∧ x.timeSpec.tv_sec ≤ now.tv_sec :=
      fun x hx => hall x (List.mem_cons_of_mem _ hx)
    rw [List.pairwise_cons] at hsorted
    simp only [List.dropWhile, List.filter]
    rw [recent_of_same_nsec now c hc.1 hc.2]
    by_cases h : now.tv_sec - c.timeSpec.tv_sec < 16
    · simp only [h, decide_True, Bool.not_true]
      congr 1
      symm
      rw [List.filter_eq_self]
      intro x hx
      have := hsorted.1 x hx
      exact decide_eq_true (by omega)
    · simp only [h, decide_False, Bool.not_false]
      exact ih hrest hsorted.2

/-- For a sum of fewer than `2^24` bytes the speed is the integer quotient. -/
theorem speed_exact (total : Nat) (h : total < 2 ^ 24) :
    CFloat.toUInt64 (CFloat.div (CFloat.ofNat total) speedCalculatingAccuracy) =
      some (total / 16) := by
  have e1 : roundUnits (total * unitsPerOne) 1 = some (total * unitsPerOne) := by
    have := roundUnits_exact total 149 1 (by norm_num) h
      (by
        calc total * 2 ^ 149 < 2 ^ 24 * 2 ^ 149 :=
              Nat.mul_lt_mul_of_pos_right h (Nat.pow_pos (by norm_num))
          _ ≤ 2 ^ 277 := by rw [← pow_add]; exact Nat.pow_le_pow_right (by norm_num) (by norm_num))
    rw [Nat.mul_one] at this
    exact this
  have e2 : roundUnits (total * unitsPerOne * unitsPerOne) (16 * unitsPerOne) =
      some (total * 2 ^ 145) := by
    have := roundUnits_exact total 145 (16 * unitsPerOne) (by decide) h
      (by
        calc total * 2 ^ 145 < 2 ^ 24 * 2 ^ 145 :=
              Nat.mul_lt_mul_of_pos_right h (Nat.pow_pos (by norm_num))
          _ ≤ 2 ^ 277 := by rw [← pow_add]; exact Nat.pow_le_pow_right (by norm_num) (by norm_num))
    have e : total * unitsPerOne * unitsPerOne = total * 2 ^ 145 * (16 * unitsPerOne) := by
      unfold unitsPerOne
      ring
    rw [e]
    exact this
  have hne : 16 * unitsPerOne ≠ 0 := by decide
  have hq : total * 2 ^ 145 / unitsPerOne = total / 16 := by
    have : unitsPerOne = 16 * 2 ^ 145 := by
      unfold unitsPerOne
      norm_num
    rw [this]
    exact Nat.mul_div_mul_right total 16 (Nat.pow_pos (by norm_num))
  rw [speedCalculatingAccuracy_eq]
  unfold CFloat.ofNat
  rw [e1]
  simp only [CFloat.ofRounded, CFloat.div, hne, if_false, Bool.xor_false]
  rw [e2]
  simp only [CFloat.ofRounded, CFloat.toUInt64, hq]
  have hlt : total / 16 < 2 ^ 64 := by
    have : total / 16 ≤ total := Nat.div_le_self _ _
    have : (2 : Nat) ^ 24 ≤ 2 ^ 64 := Nat.pow_le_pow_right (by norm_num) (by norm_num)
    omega
  exact if_pos hlt

theorem ofInt_natCast (D : Nat) :
    CFloat.ofInt (D : Int) = CFloat.ofRounded false (roundUnits (D * unitsPerOne) 1) := by
  unfold CFloat.ofInt
  have hneg : decide ((D : Int) < 0) = false := by simp
  rw [hneg, Int.natAbs_ofNat]

theorem ofInt_neg_natCast (N : Nat) (h : 0 < N) :
    CFloat.ofInt (-(N : Int)) = CFloat.ofRounded true (roundUnits (N * unitsPerOne) 1) := by
  unfold CFloat.ofInt
  have hneg : decide (-(N : Int) < 0) = true := by
    apply decide_eq_true
    omega
  rw [hneg, Int.natAbs_neg, Int.natAbs_ofNat]

/-- The quotient of a nanosecond count below `10^9` by `10^9`, in `float`: at
most one, at least the quotient at 480 for a count of 480 or more, at most the
quotient at 999999520 for a count up to that. -/
theorem nsec_quotient (s : Bool) (N : Nat) (hN : N < 1000000000) :
    ∃ q, CFloat.div (CFloat.ofRounded s (roundUnits (N * unitsPerOne) 1))
          (CFloat.ofInt (1000 * 1000 * 1000)) = CFloat.fin s q ∧
      q ≤ unitsPerOne ∧ (480 ≤ N → 8444249 * 2 ^ 105 ≤ q) ∧
      (N ≤ 999999520 → q ≤ 16777207 * 2 ^ 125) := by
  have hbillion : CFloat.ofInt (1000 * 1000 * 1000) =
      CFloat.fin false (1000000000 * unitsPerOne) := by decide
  have htop : roundUnits (1000000000 * unitsPerOne) 1 = some (1000000000 * unitsPerOne) := by
    decide
  have hqtop : roundUnits (1000000000 * unitsPerOne * unitsPerOne)
      (1000000000 * unitsPerOne) = some unitsPerOne := by decide
  have h480 : roundUnits (480 * unitsPerOne) 1 = some (480 * unitsPerOne) := by decide
  have hq480 : roundUnits (480 * unitsPerOne * unitsPerOne) (1000000000 * unitsPerOne) =
      some (8444249 * 2 ^ 105) := by decide
  have h520 : roundUnits (999999520 * unitsPerOne) 1 = some (999999488 * unitsPerOne) := by
    decide
  have hq520 : roundUnits (999999488 * unitsPerOne * unitsPerOne)
      (1000000000 * unitsPerOne) = some (16777207 * 2 ^ 125) := by decide
  obtain ⟨kN, hkN⟩ := roundUnits_some_of_le (N * unitsPerOne) (1000000000 * unitsPerOne) 1 _
    (Nat.mul_le_mul_right _ (Nat.le_of_lt hN)) htop
  have hkNle : kN ≤ 1000000000 * unitsPerOne :=
    roundUnits_mono _ _ 1 _ _ (Nat.mul_le_mul_right _ (Nat.le_of_lt hN)) hkN htop
  obtain ⟨q, hq⟩ := roundUnits_some_of_le (kN * unitsPerOne)
    (1000000000 * unitsPerOne * unitsPerOne) (1000000000 * unitsPerOne) _
    (Nat.mul_le_mul_right _ hkNle) hqtop
  have hne : 1000000000 * unitsPerOne ≠ 0 := by decide
  refine ⟨q, ?_, ?_, ?_, ?_⟩
  · rw [hbillion, hkN]
    show (if 1000000000 * unitsPerOne = 0 then
        (if kN = 0 then CFloat.nan else CFloat.inf (xor s false))
      else CFloat.ofRounded (xor s false) (roundUnits (kN * unitsPerOne)
        (1000000000 * unitsPerOne))) = _
    rw [if_neg hne, hq, Bool.xor_false]
    rfl
  · exact roundUnits_mono _ _ _ _ _ (Nat.mul_le_mul_right _ hkNle) hq hqtop
  · intro h
    have h1 : 480 * unitsPerOne ≤ kN :=
      roundUnits_mono _ _ 1 _ _ (Nat.mul_le_mul_right _ h) h480 hkN
    exact roundUnits_mono _ _ _ _ _ (Nat.mul_le_mul_right _ h1) hq480 hq
  · intro h
    have h1 : kN ≤ 999999488 * unitsPerOne :=
      roundUnits_mono _ _ 1 _ _ (Nat.mul_le_mul_right _ h) hkN h520
    exact roundUnits_mono _ _ _ _ _ (Nat.mul_le_mul_right _ h1) hq hq520

/-- A rounded sum of at least 16 is not below the window. -/
theorem not_lt_window (a : Nat) (h : 16 * unitsPerOne ≤ a) :
    CFloat.lt (CFloat.ofRounded false (roundUnits a 1)) speedCalculatingAccuracy = false := by
  rw [speedCalculatingAccuracy_eq]
  cases h1 : roundUnits a 1 with
  | none => rfl
  | some v =>
    have hv : 16 * unitsPerOne ≤ v := roundUnits_mono _ _ 1 _ _ h roundUnits_sixteen h1
    show decide (v < 16 * unitsPerOne) = false
    exact decide_eq_false (by omega)

/-- A rounded sum is below the window when a larger sum rounds below 16. -/
theorem lt_window (a B V : Nat) (hab : a ≤ B) (hB : roundUnits B 1 = some V)
    (hV : V < 16 * unitsPerOne) :
    CFloat.lt (CFloat.ofRounded false (roundUnits a 1)) speedCalculatingAccuracy = true := by
  rw [speedCalculatingAccuracy_eq]
  obtain ⟨v, hv⟩ := roundUnits_some_of_le a B 1 V hab hB
  have hle : v ≤ V := roundUnits_mono _ _ 1 _ _ hab hv hB
  rw [hv]
  show decide (v < 16 * unitsPerOne) = true
  exact decide_eq_true (by omega)


theorem add_pos_pos (a b : Nat) :
    CFloat.add (CFloat.fin false a) (CFloat.fin false b) =
      CFloat.ofRounded false (roundUnits (a + b) 1) := by
  rfl

theorem add_pos_neg (a b : Nat) (h : b < a) :
    CFloat.add (CFloat.fin false a) (CFloat.fin true b) =
      CFloat.ofRounded false (roundUnits (a - b) 1) := by
  show (if b < a then CFloat.ofRounded false (roundUnits (a - b) 1)
    else if a < b then CFloat.ofRounded true (roundUnits (b - a) 1)
    else CFloat.fin false 0) = _
  exact if_pos h

theorem add_pos_neg_self (a : Nat) :
    CFloat.add (CFloat.fin false a) (CFloat.fin true a) = CFloat.fin false 0 := by
  show (if a < a then CFloat.ofRounded false (roundUnits (a - a) 1)
    else if a < a then CFloat.ofRounded true (roundUnits (a - a) 1)
    else CFloat.fin false 0) = _
  rw [if_neg (Nat.lt_irrefl a), if_neg (Nat.lt_irrefl a)]

/-- The computed difference is not below the window when the exact difference
is 16 s or more. -/
theorem diff_not_lt (ds dn : Int) (h1 : -1000000000 < dn) (h2 : dn < 1000000000)
    (h : 16000000000 ≤ ds * 1000000000 + dn) :
    CFloat.lt (CFloat.add (CFloat.ofInt ds)
      (CFloat.div (CFloat.ofInt dn) (CFloat.ofInt (1000 * 1000 * 1000))))
      speedCalculatingAccuracy = false := by
  have hds : 0 ≤ ds := by omega
  obtain ⟨D, hD⟩ := Int.eq_ofNat_of_zero_le hds
  subst hD
  have h17 : roundUnits (17 * unitsPerOne) 1 = some (17 * unitsPerOne) := by decide
  rw [ofInt_natCast D]
  by_cases hdn : 0 ≤ dn
  · obtain ⟨N, hN⟩ := Int.eq_ofNat_of_zero_le hdn
    subst hN
    have hD16 : 16 ≤ D := by omega
    obtain ⟨q, hq, _, _, _⟩ := nsec_quotient false N (by omega)
    rw [ofInt_natCast N, hq]
    cases hk : roundUnits (D * unitsPerOne) 1 with
    | none =>
      rw [speedCalculatingAccuracy_eq]
      rfl
    | some kD =>
      have hkD : 16 * unitsPerOne ≤ kD :=
        roundUnits_mono _ _ 1 _ _ (Nat.mul_le_mul_right _ hD16) roundUnits_sixteen hk
      show CFloat.lt (CFloat.add (CFloat.fin false kD) (CFloat.fin false q)) _ = false
      rw [add_pos_pos]
      exact not_lt_window _ (by omega)
  · obtain ⟨N, hN⟩ := Int.exists_eq_neg_ofNat (by omega : dn ≤ 0)
    subst hN
    have hpos : 0 < N := by omega
    have hD17 : 17 ≤ D := by omega
    obtain ⟨q, hq, hq1, _, _⟩ := nsec_quotient true N (by omega)
    rw [ofInt_neg_natCast N hpos, hq]
    cases hk : roundUnits (D * unitsPerOne) 1 with
    | none =>
      rw [speedCalculatingAccuracy_eq]
      rfl
    | some kD =>
      have hkD : 17 * unitsPerOne ≤ kD :=
        roundUnits_mono _ _ 1 _ _ (Nat.mul_le_mul_right _ hD17) h17 hk
      have hU : 0 < unitsPerOne := by decide
      show CFloat.lt (CFloat.add (CFloat.fin false kD) (CFloat.fin true q)) _ = false
      rw [add_pos_neg kD q (by omega)]
      exact not_lt_window _ (by omega)

/-- The computed difference is below the window when the exact difference is
not negative and at most 16 s less 480 ns. -/
theorem diff_lt (ds dn : Int) (h1 : -1000000000 < dn) (h2 : dn < 1000000000)
    (h0 : 0 ≤ ds * 1000000000 + dn) (h : ds * 1000000000 + dn ≤ 16000000000 - 480) :
    CFloat.lt (CFloat.add (CFloat.ofInt ds)
      (CFloat.div (CFloat.ofInt dn) (CFloat.ofInt (1000 * 1000 * 1000))))
      speedCalculatingAccuracy = true := by
  have hds : 0 ≤ ds := by omega
  obtain ⟨D, hD⟩ := Int.eq_ofNat_of_zero_le hds
  subst hD
  have hU : 0 < unitsPerOne := by decide
  have h15 : roundUnits (15 * unitsPerOne) 1 = some (15 * unitsPerOne) := by decide
  have h15lt : 15 * unitsPerOne < 16 * unitsPerOne := by decide
  have hVlt : 16777215 * 2 ^ 129 < 16 * unitsPerOne := by decide
  have hD16 : D ≤ 16 := by omega
  have hexact : roundUnits (D * unitsPerOne) 1 = some (D * unitsPerOne) := by
    have := roundUnits_exact D 149 1 (by norm_num)
      (lt_of_le_of_lt hD16 (by norm_num))
      (by
        calc D * 2 ^ 149 ≤ 16 * 2 ^ 149 := Nat.mul_le_mul_right _ hD16
          _ < 2 ^ 277 := by norm_num)
    rw [Nat.mul_one] at this
    exact this
  rw [ofInt_natCast D, hexact]
  by_cases hdn : 0 ≤ dn
  · obtain ⟨N, hN⟩ := Int.eq_ofNat_of_zero_le hdn
    subst hN
    obtain ⟨q, hq, hq1, _, hq520⟩ := nsec_quotient false N (by omega)
    rw [ofInt_natCast N, hq]
    show CFloat.lt (CFloat.add (CFloat.fin false (D * unitsPerOne)) (CFloat.fin false q)) _ =
      true
    rw [add_pos_pos]
    by_cases hD14 : D ≤ 14
    · have hm : D * unitsPerOne ≤ 14 * unitsPerOne := Nat.mul_le_mul_right _ hD14
      exact lt_window _ (15 * unitsPerOne) _ (by omega) h15 h15lt
    · have hD15 : D = 15 := by omega
      subst hD15
      have hsum : roundUnits (15 * unitsPerOne + 16777207 * 2 ^ 125) 1 =
          some (16777215 * 2 ^ 129) := by decide
      have hq2 := hq520 (by omega)
      exact lt_window _ (15 * unitsPerOne + 16777207 * 2 ^ 125) _ (by omega) hsum hVlt
  · obtain ⟨N, hN⟩ := Int.exists_eq_neg_ofNat (by omega : dn ≤ 0)
    subst hN
    have hpos : 0 < N := by omega
    have hD1 : 1 ≤ D := by omega
    obtain ⟨q, hq, hq1, hq480, _⟩ := nsec_quotient true N (by omega)
    rw [ofInt_neg_natCast N hpos, hq]
    show CFloat.lt (CFloat.add (CFloat.fin false (D * unitsPerOne)) (CFloat.fin true q)) _ =
      true
    have hm : 1 * unitsPerOne ≤ D * unitsPerOne := Nat.mul_le_mul_right _ hD1
    rcases Nat.lt_or_ge q (D * unitsPerOne) with hlt | hge
    · rw [add_pos_neg _ _ hlt]
      by_cases hD15 : D ≤ 15
      · have hm2 : D * unitsPerOne ≤ 15 * unitsPerOne := Nat.mul_le_mul_right _ hD15
        exact lt_window _ (15 * unitsPerOne) _ (by omega) h15 h15lt
      · have hDeq : D = 16 := by omega
        subst hDeq
        have hsub : roundUnits (16 * unitsPerOne - 8444249 * 2 ^ 105) 1 =
            some (16777215 * 2 ^ 129) := by decide
        have hq2 := hq480 (by omega)
        exact lt_window _ (16 * unitsPerOne - 8444249 * 2 ^ 105) _ (by omega) hsub hVlt
    · have heq : q = D * unitsPerOne := by omega
      rw [heq, add_pos_neg_self, speedCalculatingAccuracy_eq]
      decide

/-- A chunk 16 s old or older does not pass the age test of the scans. -/
theorem not_recent_of_old (now : timespec) (c : FetchedChunk) (hc : c.timeSpec.Normalized)
    (hn : now.Normalized) (h : 16000000000 ≤ ageNanoseconds now c) : recent now c = false := by
  unfold timespec.Normalized at hc hn
  unfold ageNanoseconds nanoseconds at h
  unfold recent getTimeSpecDiff
  exact diff_not_lt _ _ (by omega) (by omega) (by omega)

/-- A chunk stamped not after `now` and at least 480 ns younger than 16 s
passes the age test of the scans. -/
theorem recent_of_young (now : timespec) (c : FetchedChunk) (hc : c.timeSpec.Normalized)
    (hn : now.Normalized) (h0 : 0 ≤ ageNanoseconds now c)
    (h : ageNanoseconds now c ≤ 16000000000 - 480) : recent now c = true := by
  unfold timespec.Normalized at hc hn
  unfold ageNanoseconds nanoseconds at h h0
  unfold recent getTimeSpecDiff
  exact diff_lt _ _ (by omega) (by omega) (by omega) (by omega)


/-- Outside the last 480 ns of the window the age test is the comparison of the
exact age with 16 s. -/
theorem recent_eq_of_no_band (now : timespec) (c : FetchedChunk) (hc : c.timeSpec.Normalized)
    (hn : now.Normalized) (h0 : 0 ≤ ageNanoseconds now c)
    (hband : ¬ (16000000000 - 480 < ageNanoseconds now c ∧
      ageNanoseconds now c < 16000000000)) :
    recent now c = decide (ageNanoseconds now c < 16000000000) := by
  by_cases h : ageNanoseconds now c < 16000000000
  · rw [recent_of_young now c hc hn h0 (by omega)]
    exact (decide_eq_true h).symm
  · rw [not_recent_of_old now c hc hn (by omega)]
    exact (decide_eq_false h).symm

/-- The scan over chunks in non-decreasing order of time: every chunk it skips
is older than 16 s less 480 ns, every chunk from the first recent one on is
younger than 16 s. -/
theorem scan_bounds (now : timespec) (l : List FetchedChunk) (hn : now.Normalized)
    (hall : ∀ c ∈ l, c.timeSpec.Normalized ∧ nanoseconds c.timeSpec ≤ nanoseconds now)
    (hsorted : l.Pairwise (fun c1 c2 => nanoseconds c1.timeSpec ≤ nanoseconds c2.timeSpec)) :
    (∀ c ∈ l.takeWhile (fun c => !recent now c),
        16000000000 - 480 < ageNanoseconds now c) ∧
      (∀ c ∈ l.dropWhile (fun c => !recent now c), ageNanoseconds now c < 16000000000) := by
  constructor
  · intro c hc
    have hmem : c ∈ l := (List.takeWhile_sublist _).subset hc
    have hp := List.mem_takeWhile_imp hc
    have hnot : recent now c = false := by simpa using hp
    by_contra hcon
    have hage : 0 ≤ ageNanoseconds now c := by
      have := (hall c hmem).2
      unfold ageNanoseconds
      omega
    rw [recent_of_young now c (hall c hmem).1 hn hage (by omega)] at hnot
    cases hnot
  · induction l with
    | nil => intro c hc; cases hc
    | cons x xs ih =>
      rw [List.pairwise_cons] at hsorted
      intro c hc
      by_cases hx : recent now x = true
      · have hdw : (x :: xs).dropWhile (fun c => !recent now c) = x :: xs := by
          simp [List.dropWhile, hx]
        rw [hdw] at hc
        have hxage : ageNanoseconds now x < 16000000000 := by
          by_contra hcon
          rw [not_recent_of_old now x (hall x (List.mem_cons_self _ _)).1 hn (by omega)] at hx
          cases hx
        rcases List.mem_cons.mp hc with hc | hc
        · rw [hc]
          exact hxage
        · have := hsorted.1 c hc
          unfold ageNanoseconds at hxage ⊢
          omega
      · have hxf : recent now x = false := by simpa using hx
        have hdw : (x :: xs).dropWhile (fun c => !recent now c) =
            xs.dropWhile (fun c => !recent now c) := by
          simp [List.dropWhile, hxf]
        rw [hdw] at hc
        exact ih (fun c hc => hall c (List.mem_cons_of_mem _ hc)) hsorted.2 c hc

/-- The scan over chunks in non-decreasing order of time, none of them in the
last 480 ns of the window: the chunks from the first recent one on are exactly
the chunks younger than 16 s. -/
theorem dropWhile_eq_filter_of_age (now : timespec) (l : List FetchedChunk)
    (hn : now.Normalized)
    (hall : ∀ c ∈ l, c.timeSpec.Normalized ∧ nanoseconds c.timeSpec ≤ nanoseconds now)
    (hsorted : l.Pairwise (fun c1 c2 => nanoseconds c1.timeSpec ≤ nanoseconds c2.timeSpec))
    (hband : ∀ c ∈ l, ¬ (16000000000 - 480 < ageNanoseconds now c ∧
      ageNanoseconds now c < 16000000000)) :
    l.dropWhile (fun c => !recent now c) =
      l.filter (fun c => decide (ageNanoseconds now c < 16000000000)) := by
  induction l with
  | nil => rfl
  | cons x xs ih =>
    have hx := hall x (List.mem_cons_self _ _)
    have hxage : 0 ≤ ageNanoseconds now x := by
      have := hx.2
      unfold ageNanoseconds
      omega
    rw [List.pairwise_cons] at hsorted
    simp only [List.dropWhile, List.filter]
    rw [recent_eq_of_no_band now x hx.1 hn hxage (hband x (List.mem_cons_self _ _))]
    by_cases h : ageNanoseconds now x < 16000000000
    · simp only [h, decide_True, Bool.not_true]
      congr 1
      symm
      rw [List.filter_eq_self]
      intro c hc
      have := hsorted.1 c hc
      apply decide_eq_true
      unfold ageNanoseconds at h ⊢
      omega
    · simp only [h, decide_False, Bool.not_false]
      exact ih (fun c hc => hall c (List.mem_cons_of_mem _ hc)) hsorted.2
        (fun c hc => hband c (List.mem_cons_of_mem _ hc))

/-- The list that `addChunk` scans satisfies what is assumed of the chunks. -/
theorem pushed_ok (now : timespec) (size : Nat) (l : List FetchedChunk) (hn : now.Normalized)
    (hall : ∀ c ∈ l, c.timeSpec.Normalized ∧ nanoseconds c.timeSpec ≤ nanoseconds now)
    (hsorted : l.Pairwise (fun c1 c2 => nanoseconds c1.timeSpec ≤ nanoseconds c2.timeSpec)) :
    (∀ c ∈ l ++ [({ timeSpec := now, size := size } : FetchedChunk)],
        c.timeSpec.Normalized ∧ nanoseconds c.timeSpec ≤ nanoseconds now) ∧
      (l ++ [({ timeSpec := now, size := size } : FetchedChunk)]).Pairwise
        (fun c1 c2 => nanoseconds c1.timeSpec ≤ nanoseconds c2.timeSpec) := by
  constructor
  · intro c hc
    rcases List.mem_append.mp hc with hc | hc
    · exact hall c hc
    · rw [List.mem_singleton] at hc
      subst hc
      exact ⟨hn, Int.le_refl _⟩
  · rw [List.pairwise_append]
    refine ⟨hsorted, List.pairwise_singleton _ _, ?_⟩
    intro a ha b hb
    rw [List.mem_singleton] at hb
    subst hb
    exact (hall a ha).2

/-- C9, the claim as stated fails.  A single chunk of 268435472 bytes stamped
`now` passes the age test, yet the speed is 16777216 and not 268435472 / 16 =
16777217: the sum is converted to `float` before the division.  With the
non-decreasing stamps of `edgeChunks`, `addChunk` at `lateReading` retains the
second chunk although its computed age is 16.0, not below the window, its
exact age being 16 s less 479 ns.  And a
chunk stamped 1.000000001 s, 15.999999999 s before the reading 17 s, is
dropped. -/
theorem C9_counterexample :
    (recent t0 { timeSpec := t0, size := 268435472 } = true ∧
      getDownloadSpeed t0 [{ timeSpec := t0, size := 268435472 }] = some 16777216 ∧
      268435472 / 16 = 16777217) ∧
    (addChunk lateReading 4 edgeChunks =
        edgeChunks ++ [{ timeSpec := lateReading, size := 4 }] ∧
      recent lateReading { timeSpec := { tv_sec := 1, tv_nsec := 0 }, size := 2 } = false ∧
      ageNanoseconds lateReading { timeSpec := { tv_sec := 1, tv_nsec := 0 }, size := 2 } =
        16000000000 - 479) ∧
    (addChunk { tv_sec := 17, tv_nsec := 0 } 5
        [{ timeSpec := { tv_sec := 1, tv_nsec := 1 }, size := 2 }] =
        [{ timeSpec := { tv_sec := 17, tv_nsec := 0 }, size := 5 }] ∧
      (17 * 1000000000 + 0 : Int) - (1 * 1000000000 + 1) < 16 * 1000000000) := by
  decide

/-- C9 (amended): with the clock passed explicitly, `addChunk` at `now` keeps
the chunks from the first one on whose time difference to `now`, computed in
`float` by `getTimeSpecDiff`, is below the window, and `getDownloadSpeed` sums
the sizes from that chunk on (modulo `2^64`), converts the sum to `float`,
divides by the window and truncates.  When all stamps are whole seconds in
non-decreasing order and not after `now`, the chunks kept and summed are
exactly those less than 16 seconds old.  When the sum is below `2^24` the speed
is the integer quotient of the sum by 16.  With pieces of 1000 bytes at 0 s and
500 bytes at 20 s the speed at 20 s is 31, the integer part of 500 / 16.
For stamps with `tv_nsec` in its range, in non-decreasing order of time and not
after `now`: every chunk kept by `addChunk`, and every chunk summed by
`getDownloadSpeed`, is less than 16 s old, and every chunk dropped, or skipped,
is more than 16 s less 480 ns old; when no chunk has its age in the last
480 ns of the window, the chunks kept and summed are exactly those less than
16 s old. -/
theorem C9_sampler (now : timespec) (size : Nat) (chunks : List FetchedChunk) :
    addChunk now size chunks =
        (chunks ++ [({ timeSpec := now, size := size } : FetchedChunk)]).dropWhile (fun c => !recent now c) ∧
      getDownloadSpeed now chunks =
        CFloat.toUInt64 (CFloat.div (CFloat.ofNat
          (((chunks.dropWhile (fun c => !recent now c)).map FetchedChunk.size).sum % 2 ^ 64))
          speedCalculatingAccuracy) ∧
      ((∀ c ∈ chunks, c.timeSpec.tv_nsec = now.tv_nsec ∧ c.timeSpec.tv_sec ≤ now.tv_sec) →
        chunks.Pairwise (fun c1 c2 => c1.timeSpec.tv_sec ≤ c2.timeSpec.tv_sec) →
        addChunk now size chunks =
            (chunks ++ [({ timeSpec := now, size := size } : FetchedChunk)]).filter
              (fun c => decide (now.tv_sec - c.timeSpec.tv_sec < 16)) ∧
          getDownloadSpeed now chunks =
            CFloat.toUInt64 (CFloat.div (CFloat.ofNat
              (((chunks.filter (fun c => decide (now.tv_sec - c.timeSpec.tv_sec < 16))).map
                FetchedChunk.size).sum % 2 ^ 64))
              speedCalculatingAccuracy)) ∧
      (∀ total, total < 2 ^ 24 →
        CFloat.toUInt64 (CFloat.div (CFloat.ofNat total) speedCalculatingAccuracy) =
          some (total / 16)) ∧
      (twoPieces = [{ timeSpec := { tv_sec := 20, tv_nsec := 0 }, size := 500 }] ∧
        getDownloadSpeed { tv_sec := 20, tv_nsec := 0 } twoPieces = some 31 ∧
        500 / 16 = 31) ∧
      (now.Normalized →
        (∀ c ∈ chunks, c.timeSpec.Normalized ∧ nanoseconds c.timeSpec ≤ nanoseconds now) →
        chunks.Pairwise (fun c1 c2 => nanoseconds c1.timeSpec ≤ nanoseconds c2.timeSpec) →
        (∃ dropped,
          chunks ++ [({ timeSpec := now, size := size } : FetchedChunk)] =
            dropped ++ addChunk now size chunks ∧
          (∀ c ∈ dropped, 16000000000 - 480 < ageNanoseconds now c) ∧
          (∀ c ∈ addChunk now size chunks, ageNanoseconds now c < 16000000000)) ∧
        (∃ skipped summed, chunks = skipped ++ summed ∧
          (∀ c ∈ skipped, 16000000000 - 480 < ageNanoseconds now c) ∧
          (∀ c ∈ summed, ageNanoseconds now c < 16000000000) ∧
          getDownloadSpeed now chunks =
            CFloat.toUInt64 (CFloat.div (CFloat.ofNat
              ((summed.map FetchedChunk.size).sum % 2 ^ 64)) speedCalculatingAccuracy)) ∧
        ((∀ c ∈ chunks, ¬ (16000000000 - 480 < ageNanoseconds now c ∧
            ageNanoseconds now c < 16000000000)) →
          addChunk now size chunks =
            (chunks ++ [({ timeSpec := now, size := size } : FetchedChunk)]).filter
              (fun c => decide (ageNanoseconds now c < 16000000000)) ∧
          getDownloadSpeed now chunks =
            CFloat.toUInt64 (CFloat.div (CFloat.ofNat
              (((chunks.filter (fun c => decide (ageNanoseconds now c < 16000000000))).map
                FetchedChunk.size).sum % 2 ^ 64))
              speedCalculatingAccuracy))) := by
  have hadd : addChunk now size chunks =
      (chunks ++ [({ timeSpec := now, size := size } : FetchedChunk)]).dropWhile (fun c => !recent now c) := by
    unfold addChunk
    simp only [firstRecent_append now chunks _ (recent_self now size)]
  have hspeed : getDownloadSpeed now chunks =
      CFloat.toUInt64 (CFloat.div (CFloat.ofNat
        (((chunks.dropWhile (fun c => !recent now c)).map FetchedChunk.size).sum % 2 ^ 64))
        speedCalculatingAccuracy) := by
    unfold getDownloadSpeed
    simp only [firstRecent_getD]
    rw [sumSizes_eq _ 0 (by norm_num), Nat.zero_add]
  refine ⟨hadd, hspeed, ?_, speed_exact, by decide, ?_⟩
  · intro hall hsorted
    constructor
    · rw [hadd]
      apply dropWhile_eq_filter_of_sorted
      · intro c hc
        rcases List.mem_append.mp hc with hc | hc
        · exact hall c hc
        · rw [List.mem_singleton] at hc
          subst hc
          exact ⟨rfl, Int.le_refl _⟩
      · rw [List.pairwise_append]
        refine ⟨hsorted, List.pairwise_singleton _ _, ?_⟩
        intro a ha b hb
        rw [List.mem_singleton] at hb
        subst hb
        exact (hall a ha).2
    · rw [hspeed, dropWhile_eq_filter_of_sorted now chunks hall hsorted]
  · intro hn hall hsorted
    obtain ⟨hallp, hsortedp⟩ := pushed_ok now size chunks hn hall hsorted
    obtain ⟨hp1, hp2⟩ := scan_bounds now _ hn hallp hsortedp
    obtain ⟨hc1, hc2⟩ := scan_bounds now chunks hn hall hsorted
    refine ⟨⟨_, ?_, hp1, ?_⟩, ⟨_, _, (List.takeWhile_append_dropWhile _ _).symm, hc1, hc2, hspeed⟩, ?_⟩
    · rw [hadd]
      exact (List.takeWhile_append_dropWhile _ _).symm
    · rw [hadd]
      exact hp2
    · intro hband
      constructor
      · rw [hadd]
        apply dropWhile_eq_filter_of_age now _ hn hallp hsortedp
        intro c hc
        rcases List.mem_append.mp hc with hc | hc
        · exact hband c hc
        · rw [List.mem_singleton] at hc
          subst hc
          unfold ageNanoseconds
          simp
      · rw [hspeed, dropWhile_eq_filter_of_age now chunks hn hall hsorted hband]

/-- C9, witness: the whole-second case and the exact quotient at the chunk of
1000 bytes stamped 0 s, the clock reading 20 s; the general case at chunks
stamped 0.5 s, 4.05 s and 4.6 s, the clock reading 20.1 s: the first two are
16 s old or older and are dropped, the third, 15.5 s old, is kept. -/
theorem C9_sampler_witness :
    (∀ c ∈ [({ timeSpec := { tv_sec := 0, tv_nsec := 0 }, size := 1000 } : FetchedChunk)],
        c.timeSpec.tv_nsec = (0 : Int) ∧ c.timeSpec.tv_sec ≤ (20 : Int)) ∧
      addChunk { tv_sec := 20, tv_nsec := 0 } 500
          [{ timeSpec := { tv_sec := 0, tv_nsec := 0 }, size := 1000 }] =
        ([{ timeSpec := { tv_sec := 0, tv_nsec := 0 }, size := 1000 },
          { timeSpec := { tv_sec := 20, tv_nsec := 0 }, size := 500 }] : List FetchedChunk).filter
          (fun c => decide ((20 : Int) - c.timeSpec.tv_sec < 16)) ∧
      CFloat.toUInt64 (CFloat.div (CFloat.ofNat 500) speedCalculatingAccuracy) =
        some (500 / 16) ∧
      timespec.Normalized { tv_sec := 20, tv_nsec := 100000000 } ∧
      addChunk { tv_sec := 20, tv_nsec := 100000000 } 500
          [{ timeSpec := { tv_sec := 0, tv_nsec := 500000000 }, size := 1000 },
           { timeSpec := { tv_sec := 4, tv_nsec := 50000000 }, size := 3 },
           { timeSpec := { tv_sec := 4, tv_nsec := 600000000 }, size := 7 }] =
        [{ timeSpec := { tv_sec := 4, tv_nsec := 600000000 }, size := 7 },
         { timeSpec := { tv_sec := 20, tv_nsec := 100000000 }, size := 500 }] ∧
      addChunk { tv_sec := 20, tv_nsec := 100000000 } 500
          [{ timeSpec := { tv_sec := 0, tv_nsec := 500000000 }, size := 1000 },
           { timeSpec := { tv_sec := 4, tv_nsec := 50000000 }, size := 3 },
           { timeSpec := { tv_sec := 4, tv_nsec := 600000000 }, size := 7 }] =
        ([({ timeSpec := { tv_sec := 0, tv_nsec := 500000000 }, size := 1000 } : FetchedChunk),
          { timeSpec := { tv_sec := 4, tv_nsec := 50000000 }, size := 3 },
          { timeSpec := { tv_sec := 4, tv_nsec := 600000000 }, size := 7 }] ++
          [({ timeSpec := { tv_sec := 20, tv_nsec := 100000000 }, size := 500 } :
            FetchedChunk)]).filter
          (fun c => decide
            (ageNanoseconds { tv_sec := 20, tv_nsec := 100000000 } c < 16000000000)) :=
  have h := C9_sampler { tv_sec := 20, tv_nsec := 0 } 500
    [{ timeSpec := { tv_sec := 0, tv_nsec := 0 }, size := 1000 }]
  ⟨by decide, (h.2.2.1 (by decide) (by simp)).1, h.2.2.2.1 500 (by norm_num), by decide,
    by decide,
    (((C9_sampler { tv_sec := 20, tv_nsec := 100000000 } 500
      [({ timeSpec := { tv_sec := 0, tv_nsec := 500000000 }, size := 1000 } : FetchedChunk),
       { timeSpec := { tv_sec := 4, tv_nsec := 50000000 }, size := 3 },
       { timeSpec := { tv_sec := 4, tv_nsec := 600000000 }, size := 7 }]).2.2.2.2.2
      (by decide) (by decide) (by decide)).2.2 (by decide)).1⟩

/-! ## C10: arity checks -/

/-- C10, the claim as stated fails: `["x", "ping", "extra"]` has the recognised
action "ping" and one parameter, and `progress` accepts it. -/
theorem C10_counterexample :
    (progress t0 (ProgressImpl.new 0) ["x", "ping", "extra"]).thrown = none ∧
      (["extra"] : List String).length ≠ 0 := by
  decide

/-- C10 (amended): `progress` throws on `[id, action, p1..pn]` whenever `n`
violates the arity of `action`, for every action but "ping": "start" with
`n > 1` for every `id`, and, for an active `id`, "downloading" with `n ≠ 2`,
"expected-size", "ui-size" and "done" with `n ≠ 1`, "pre-done" with `n ≠ 0`.
The branch of "ping" checks no arity: "ping" is accepted with any parameters. -/
theorem C10_arity (now : timespec) (impl : ProgressImpl) (uri : String)
    (params : List String) :
    (1 < params.length →
        (progress now impl (uri :: "start" :: params)).thrown =
          some (.moreThanParameters "start" 1)) ∧
      (∀ r, impl.nowDownloading.find uri = some r →
        (params.length ≠ 2 →
          (progress now impl (uri :: "downloading" :: params)).thrown =
            some (.notParameters "downloading" 2)) ∧
        (params.length ≠ 1 →
          (progress now impl (uri :: "expected-size" :: params)).thrown =
            some (.notParameters "expected-size" 1)) ∧
        (params.length ≠ 1 →
          (progress now impl (uri :: "ui-size" :: params)).thrown =
            some (.notParameters "ui-size" 1)) ∧
        (params.length ≠ 1 →
          (progress now impl (uri :: "done" :: params)).thrown =
            some (.notParameters "done" 1)) ∧
        (params.length ≠ 0 →
          (progress now impl (uri :: "pre-done" :: params)).thrown =
            some (.notParameters "pre-done" 0))) ∧
      (progress now impl (uri :: "ping" :: params)).thrown = none := by
  refine ⟨?_, ?_, ?_⟩
  · intro hlen
    simp [progress, hlen]
  · intro r hf
    refine ⟨?_, ?_, ?_, ?_, ?_⟩
    · intro hlen
      match params, hlen with
      | [], _ => simp [progress, progressActive, hf]
      | [_], _ => simp [progress, progressActive, hf]
      | [_, _], hlen => simp at hlen
      | _ :: _ :: _ :: _, _ => simp [progress, progressActive, hf]
    · intro hlen
      match params, hlen with
      | [], _ => simp [progress, progressActive, hf]
      | [_], hlen => simp at hlen
      | _ :: _ :: _, _ => simp [progress, progressActive, hf]
    · intro hlen
      match params, hlen with
      | [], _ => simp [progress, progressActive, hf]
      | [_], hlen => simp at hlen
      | _ :: _ :: _, _ => simp [progress, progressActive, hf]
    · intro hlen
      match params, hlen with
      | [], _ => simp [progress, progressActive, hf]
      | [_], hlen => simp at hlen
      | _ :: _ :: _, _ => simp [progress, progressActive, hf]
    · intro hlen
      match params, hlen with
      | [], hlen => simp at hlen
      | _ :: _, _ => simp [progress, progressActive, hf]
  · rw [progress_ping]

/-- C10, witness: `["a", "downloading", "100"]` for the started download "a",
one parameter where two are required. -/
theorem C10_arity_witness :
    (progressAll (ProgressImpl.new 0) [(t0, ["a", "start"])]).nowDownloading.find "a" =
        some { number := 1, downloadedSize := 0, size := SIZE_MAX, beingPostprocessed := false,
               sizeScaleFactor := CFloat.ofInt 1 } ∧
      (["100"] : List String).length ≠ 2 ∧
      (progress t0 (progressAll (ProgressImpl.new 0) [(t0, ["a", "start"])])
        ["a", "downloading", "100"]).thrown = some (.notParameters "downloading" 2) :=
  ⟨by decide, by decide,
    ((C10_arity t0 (progressAll (ProgressImpl.new 0) [(t0, ["a", "start"])]) "a" ["100"]).2.1
      { number := 1, downloadedSize := 0, size := SIZE_MAX, beingPostprocessed := false,
        sizeScaleFactor := CFloat.ofInt 1 } (by decide)).1 (by decide)⟩

/-! ## C11: arity violations leave the state alone -/

/-- A call of `progress` that throws anything but `bad_lexical_cast` has
changed nothing and has called no hook. -/
theorem state_of_thrown (now : timespec) (impl : ProgressImpl) (allParams : List String)
    (t : Thrown) (h : (progress now impl allParams).thrown = some t)
    (hne : t ≠ .bad_lexical_cast) :
    (progress now impl allParams).impl = impl ∧ (progress now impl allParams).hooks = [] := by
  match allParams with
  | [] => simp [progress]
  | [p] =>
    by_cases hp : p = "finish"
    · simp [progress, hp] at h
    · simp [progress, hp]
  | uri :: action :: params =>
    by_cases hping : action = "ping"
    · simp [progress, hping] at h
    by_cases hstart : action = "start"
    · subst hstart
      match params with
      | [] => simp [progress, progressStart] at h
      | [p] =>
        cases hc : lexical_cast p with
        | none =>
          simp [progress, progressStart, hc] at h
          exact absurd h.symm hne
        | some v => simp [progress, progressStart, hc] at h
      | _ :: _ :: _ => simp [progress]
    cases hf : impl.nowDownloading.find uri with
    | none => simp [progress, hping, hstart, hf]
    | some record =>
      simp only [progress, hping, hstart, hf, if_false] at h ⊢
      unfold progressActive at h ⊢
      by_cases h1 : action = "downloading"
      · subst h1
        match params with
        | [] => simp
        | [_] => simp
        | [p0, p1] =>
          cases hc0 : lexical_cast p0 with
          | none =>
            simp [hc0] at h
            exact absurd h.symm hne
          | some a =>
            cases hc1 : lexical_cast p1 with
            | none =>
              simp [hc0, hc1] at h
              exact absurd h.symm hne
            | some b => simp [hc0, hc1] at h
        | _ :: _ :: _ :: _ => simp
      by_cases h2 : action = "expected-size"
      · subst h2
        match params with
        | [] => simp
        | [p] =>
          cases hc : lexical_cast p with
          | none =>
            simp [hc] at h
            exact absurd h.symm hne
          | some v => simp [hc] at h
        | _ :: _ :: _ => simp
      by_cases h3 : action = "ui-size"
      · subst h3
        match params with
        | [] => simp
        | [p] =>
          cases hc : lexical_cast p with
          | none =>
            simp [hc] at h
            exact absurd h.symm hne
          | some v => simp [hc] at h
        | _ :: _ :: _ => simp
      by_cases h4 : action = "pre-done"
      · subst h4
        match params with
        | [] => simp at h
        | _ :: _ => simp
      by_cases h5 : action = "done"
      · subst h5
        match params with
        | [] => simp
        | [result] => simp at h
        | _ :: _ :: _ => simp
      simp [h1, h2, h3, h4, h5]

/-- C11: a submessage that `progress` rejects for an arity violation, by
`assertMaxParamCount` or by `assertParamCount`, leaves the whole engine state
as it was (records, `doneDownloadsSize`, `fetchedSize`, `nextDownloadNumber`,
chunks) and calls no hook.  In particular `["uri1", "downloading", "100"]` is
rejected in every state and changes nothing; when "uri1" is active it is
rejected for its arity and the record of "uri1", with its `downloadedSize`, is
the same afterwards. -/
theorem C11_arity_violation_keeps_state (now : timespec) (impl : ProgressImpl)
    (allParams : List String) :
    (∀ action count,
      ((progress now impl allParams).thrown = some (.moreThanParameters action count) ∨
        (progress now impl allParams).thrown = some (.notParameters action count)) →
      (progress now impl allParams).impl = impl ∧ (progress now impl allParams).hooks = []) ∧
    ((progress now impl ["uri1", "downloading", "100"]).thrown ≠ none ∧
      (progress now impl ["uri1", "downloading", "100"]).impl = impl ∧
      ∀ r, impl.nowDownloading.find "uri1" = some r →
        (progress now impl ["uri1", "downloading", "100"]).thrown =
            some (.notParameters "downloading" 2) ∧
          (progress now impl ["uri1", "downloading", "100"]).impl.nowDownloading.find "uri1" =
            some r) := by
  constructor
  · intro action count h
    rcases h with h | h
    · exact state_of_thrown now impl allParams _ h (by simp)
    · exact state_of_thrown now impl allParams _ h (by simp)
  · cases hf : impl.nowDownloading.find "uri1" with
    | none =>
      rw [progress_notStarted now impl "uri1" "downloading" ["100"] hf (by decide) (by decide)]
      exact ⟨by simp, rfl, fun r hr => by cases hr⟩
    | some record =>
      have e : progress now impl ["uri1", "downloading", "100"] =
          { thrown := some (.notParameters "downloading" 2), impl := impl, hooks := [] } := by
        simp [progress, progressActive, hf]
      rw [e]
      refine ⟨by simp, rfl, fun r hr => ⟨rfl, ?_⟩⟩
      cases hr
      exact hf

/-- C11, witness: `["uri1", "downloading", "100"]` after "uri1" has been started
and has reported 100 bytes. -/
theorem C11_arity_violation_keeps_state_witness :
    (progress t0 (progressAll (ProgressImpl.new 0) uri1Steps)
        ["uri1", "downloading", "100"]).thrown = some (.notParameters "downloading" 2) ∧
      (progress t0 (progressAll (ProgressImpl.new 0) uri1Steps)
        ["uri1", "downloading", "100"]).impl = progressAll (ProgressImpl.new 0) uri1Steps ∧
      (progress t0 (progressAll (ProgressImpl.new 0) uri1Steps)
        ["uri1", "downloading", "100"]).hooks = [] ∧
      ((progressAll (ProgressImpl.new 0) uri1Steps).nowDownloading.find "uri1").map
        DownloadRecord.downloadedSize = some 100 :=
  have h := (C11_arity_violation_keeps_state t0 (progressAll (ProgressImpl.new 0) uri1Steps)
    ["uri1", "downloading", "100"]).1 "downloading" 2 (Or.inr (by decide))
  ⟨by decide, h.1, h.2, by decide⟩

/-! ## C12: unknown identifiers, unknown actions, short submessages -/

/-- C12: `progress` throws, with the engine state unchanged, on every
submessage `[id, action, ...]` whose action is neither "ping" nor "start" and
whose id has no record in the registry, and on every submessage whose action
is none of the seven actions; it also throws on the empty submessage and on
every one-field submessage other than `["finish"]`. -/
theorem C12_protocol_violations (now : timespec) (impl : ProgressImpl) (uri action : String)
    (params : List String) :
    (action ≠ "ping" → action ≠ "start" → impl.nowDownloading.find uri = none →
      (progress now impl (uri :: action :: params)).thrown = some (.notStartedDownload uri) ∧
        (progress now impl (uri :: action :: params)).impl = impl) ∧
    (action ≠ "ping" → action ≠ "start" → action ≠ "downloading" →
      action ≠ "expected-size" → action ≠ "ui-size" → action ≠ "pre-done" →
      action ≠ "done" →
      ((progress now impl (uri :: action :: params)).thrown = some (.notStartedDownload uri) ∨
        (progress now impl (uri :: action :: params)).thrown = some (.invalidAction action)) ∧
        (progress now impl (uri :: action :: params)).impl = impl) ∧
    ((progress now impl []).thrown = some .lessThan2Parameters ∧
      (progress now impl []).impl = impl) ∧
    (uri ≠ "finish" →
      (progress now impl [uri]).thrown = some .lessThan2Parameters ∧
        (progress now impl [uri]).impl = impl) := by
  refine ⟨?_, ?_, ?_, ?_⟩
  · intro hping hstart hf
    rw [progress_notStarted now impl uri action params hf hping hstart]
    exact ⟨rfl, rfl⟩
  · intro hping hstart h1 h2 h3 h4 h5
    cases hf : impl.nowDownloading.find uri with
    | none =>
      rw [progress_notStarted now impl uri action params hf hping hstart]
      exact ⟨Or.inl rfl, rfl⟩
    | some record =>
      have e : progress now impl (uri :: action :: params) =
          { thrown := some (.invalidAction action), impl := impl, hooks := [] } := by
        simp [progress, progressActive, hf, hping, hstart, h1, h2, h3, h4, h5]
      rw [e]
      exact ⟨Or.inr rfl, rfl⟩
  · simp [progress]
  · intro hfin
    simp [progress, hfin]

/-- C12, witness: a `downloading` for an identifier that was never started, the
unknown action "resume" for a started download, and the one-field submessage
`["a"]`. -/
theorem C12_protocol_violations_witness :
    (progress t0 (progressAll (ProgressImpl.new 0) uri1Steps)
        ["other", "downloading", "1", "1"]).thrown = some (.notStartedDownload "other") ∧
      (progress t0 (progressAll (ProgressImpl.new 0) uri1Steps)
        ["uri1", "resume"]).thrown = some (.invalidAction "resume") ∧
      (progress t0 (progressAll (ProgressImpl.new 0) uri1Steps) ["a"]).thrown =
        some .lessThan2Parameters :=
  ⟨((C12_protocol_violations t0 (progressAll (ProgressImpl.new 0) uri1Steps) "other"
      "downloading" ["1", "1"]).1 (by decide) (by decide) (by decide)).1,
    by decide,
    ((C12_protocol_violations t0 (progressAll (ProgressImpl.new 0) uri1Steps) "a"
      "x" []).2.2.2 (by decide)).1⟩

/-! ## C15: `finish` -/

/-- C15: in every engine state the one-field submessage `["finish"]` is
accepted, the hooks it calls are `finishHook`, once, and nothing else, and the
engine state after the call, which is also the state the hook sees, is the
state before it: registry and all counters are unchanged. -/
theorem C15_finish (now : timespec) (impl : ProgressImpl) :
    (progress now impl ["finish"]).thrown = none ∧
      (progress now impl ["finish"]).hooks.map Prod.fst = [HookCall.finishHook] ∧
      (progress now impl ["finish"]).hooks = [(HookCall.finishHook, impl)] ∧
      (progress now impl ["finish"]).impl = impl := by
  rw [progress_finish]
  exact ⟨rfl, rfl, rfl, rfl⟩

/-! ## C17: the hooks of each accepted submessage -/

/-- The shapes of an accepted submessage with at least two fields. -/
theorem accepted_inv (impl : ProgressImpl) (uri action : String) (params : List String)
    (h : Accepted impl (uri :: action :: params)) :
    action = "ping" ∨
      (action = "start" ∧ params = []) ∨
      (action = "start" ∧ ∃ p size, params = [p] ∧ lexical_cast p = some size) ∨
      (action = "downloading" ∧ ∃ p0 p1 record a b, params = [p0, p1] ∧
        impl.nowDownloading.find uri = some record ∧ lexical_cast p0 = some a ∧
        lexical_cast p1 = some b) ∨
      (action = "expected-size" ∧ ∃ p record v, params = [p] ∧
        impl.nowDownloading.find uri = some record ∧ lexical_cast p = some v) ∨
      (action = "ui-size" ∧ ∃ p record v, params = [p] ∧
        impl.nowDownloading.find uri = some record ∧ lexical_cast p = some v) ∨
      (action = "pre-done" ∧ params = [] ∧ ∃ record,
        impl.nowDownloading.find uri = some record) ∨
      (action = "done" ∧ ∃ result record, params = [result] ∧
        impl.nowDownloading.find uri = some record) := by
  generalize hm : uri :: action :: params = m at h
  cases h with
  | finish => simp at hm
  | ping u ps =>
    simp only [List.cons.injEq] at hm
    exact Or.inl hm.2.1
  | startUnknown u =>
    simp only [List.cons.injEq] at hm
    exact Or.inr (Or.inl ⟨hm.2.1, hm.2.2⟩)
  | startSized u p size hc =>
    simp only [List.cons.injEq] at hm
    exact Or.inr (Or.inr (Or.inl ⟨hm.2.1, p, size, hm.2.2, hc⟩))
  | downloading u p0 p1 record a b hf h0 h1 =>
    simp only [List.cons.injEq] at hm
    obtain ⟨hu, ha, hp⟩ := hm
    subst hu
    exact Or.inr (Or.inr (Or.inr (Or.inl ⟨ha, p0, p1, record, a, b, hp, hf, h0, h1⟩)))
  | expectedSize u p record v hf hc =>
    simp only [List.cons.injEq] at hm
    obtain ⟨hu, ha, hp⟩ := hm
    subst hu
    exact Or.inr (Or.inr (Or.inr (Or.inr (Or.inl ⟨ha, p, record, v, hp, hf, hc⟩))))
  | uiSize u p record v hf hc =>
    simp only [List.cons.injEq] at hm
    obtain ⟨hu, ha, hp⟩ := hm
    subst hu
    exact Or.inr (Or.inr (Or.inr (Or.inr (Or.inr (Or.inl ⟨ha, p, record, v, hp, hf, hc⟩)))))
  | preDone u record hf =>
    simp only [List.cons.injEq] at hm
    obtain ⟨hu, ha, hp⟩ := hm
    subst hu
    exact Or.inr (Or.inr (Or.inr (Or.inr (Or.inr (Or.inr (Or.inl ⟨ha, hp, record, hf⟩))))))
  | done u result record hf =>
    simp only [List.cons.injEq] at hm
    obtain ⟨hu, ha, hp⟩ := hm
    subst hu
    exact Or.inr (Or.inr (Or.inr (Or.inr (Or.inr (Or.inr (Or.inr
      ⟨ha, result, record, hp, hf⟩))))))

/-- C17: the hooks of each accepted submessage, in order, each with the engine
state at the moment of its call.  "ping": `updateHook(false)`, state unchanged.
"start": `newDownloadHook` with the identifier and the record now stored for
it, then `updateHook(true)`.  "downloading": `updateHook(false)`.
"expected-size": `updateHook(true)`.  "ui-size": no hook.  "pre-done":
`updateHook(true)`.  "done": `finishedDownloadHook` with the identifier and the
result string, called in a state that still holds the record of the
identifier, then the record is erased, then `updateHook(true)` in the state
after the call, which has no record for the identifier. -/
theorem C17_hook_traces (now : timespec) (impl : ProgressImpl) (uri : String)
    (params : List String) (hwf : impl.WellFormed) :
    ((progress now impl (uri :: "ping" :: params)).hooks = [(HookCall.updateHook false, impl)] ∧
      (progress now impl (uri :: "ping" :: params)).impl = impl) ∧
    ((progress now impl (uri :: "start" :: params)).thrown = none →
      ∃ record, (progress now impl (uri :: "start" :: params)).impl.nowDownloading.find uri = some record ∧
        (progress now impl (uri :: "start" :: params)).hooks =
          [(HookCall.newDownloadHook uri record, (progress now impl (uri :: "start" :: params)).impl),
           (HookCall.updateHook true, (progress now impl (uri :: "start" :: params)).impl)]) ∧
    ((progress now impl (uri :: "downloading" :: params)).thrown = none →
      (progress now impl (uri :: "downloading" :: params)).hooks =
        [(HookCall.updateHook false, (progress now impl (uri :: "downloading" :: params)).impl)]) ∧
    ((progress now impl (uri :: "expected-size" :: params)).thrown = none →
      (progress now impl (uri :: "expected-size" :: params)).hooks =
        [(HookCall.updateHook true, (progress now impl (uri :: "expected-size" :: params)).impl)]) ∧
    ((progress now impl (uri :: "ui-size" :: params)).thrown = none → (progress now impl (uri :: "ui-size" :: params)).hooks = []) ∧
    ((progress now impl (uri :: "pre-done" :: params)).thrown = none →
      (progress now impl (uri :: "pre-done" :: params)).hooks =
        [(HookCall.updateHook true, (progress now impl (uri :: "pre-done" :: params)).impl)]) ∧
    ((progress now impl (uri :: "done" :: params)).thrown = none →
      ∃ result record seen, params = [result] ∧
        (progress now impl (uri :: "done" :: params)).hooks =
          [(HookCall.finishedDownloadHook uri result, seen),
           (HookCall.updateHook true, (progress now impl (uri :: "done" :: params)).impl)] ∧
        seen.nowDownloading.find uri = some record ∧
        (progress now impl (uri :: "done" :: params)).impl.nowDownloading = seen.nowDownloading.erase uri ∧
        (progress now impl (uri :: "done" :: params)).impl.nowDownloading.find uri = none) := by
  refine ⟨?_, ?_, ?_, ?_, ?_, ?_, ?_⟩
  · rw [progress_ping]
    exact ⟨rfl, rfl⟩
  · intro h
    rcases accepted_inv impl uri "start" params (accepted_of_returns now impl _ h) with
      ha | ⟨_, hp⟩ | ⟨_, p, size, hp, hc⟩ | ⟨ha, _⟩ | ⟨ha, _⟩ | ⟨ha, _⟩ | ⟨ha, _⟩ | ⟨ha, _⟩
    · exact absurd ha (by decide)
    · subst hp
      rw [progress_startUnknown]
      exact ⟨_, StdMap.find_insert_self _ _ _, rfl⟩
    · subst hp
      rw [progress_startSized now impl uri p size hc]
      exact ⟨_, StdMap.find_insert_self _ _ _, rfl⟩
    · exact absurd ha (by decide)
    · exact absurd ha (by decide)
    · exact absurd ha (by decide)
    · exact absurd ha (by decide)
    · exact absurd ha (by decide)
  · intro h
    rcases accepted_inv impl uri "downloading" params (accepted_of_returns now impl _ h) with
      ha | ⟨ha, _⟩ | ⟨ha, _⟩ | ⟨_, p0, p1, record, a, b, hp, hf, h0, h1⟩ | ⟨ha, _⟩ | ⟨ha, _⟩ |
      ⟨ha, _⟩ | ⟨ha, _⟩
    · exact absurd ha (by decide)
    · exact absurd ha (by decide)
    · exact absurd ha (by decide)
    · subst hp
      rw [progress_downloading now impl uri p0 p1 record a b hf h0 h1]
    · exact absurd ha (by decide)
    · exact absurd ha (by decide)
    · exact absurd ha (by decide)
    · exact absurd ha (by decide)
  · intro h
    rcases accepted_inv impl uri "expected-size" params (accepted_of_returns now impl _ h) with
      ha | ⟨ha, _⟩ | ⟨ha, _⟩ | ⟨ha, _⟩ | ⟨_, p, record, v, hp, hf, hc⟩ | ⟨ha, _⟩ |
      ⟨ha, _⟩ | ⟨ha, _⟩
    · exact absurd ha (by decide)
    · exact absurd ha (by decide)
    · exact absurd ha (by decide)
    · exact absurd ha (by decide)
    · subst hp
      rw [progress_expectedSize now impl uri p record v hf hc]
    · exact absurd ha (by decide)
    · exact absurd ha (by decide)
    · exact absurd ha (by decide)
  · intro h
    rcases accepted_inv impl uri "ui-size" params (accepted_of_returns now impl _ h) with
      ha | ⟨ha, _⟩ | ⟨ha, _⟩ | ⟨ha, _⟩ | ⟨ha, _⟩ | ⟨_, p, record, v, hp, hf, hc⟩ |
      ⟨ha, _⟩ | ⟨ha, _⟩
    · exact absurd ha (by decide)
    · exact absurd ha (by decide)
    · exact absurd ha (by decide)
    · exact absurd ha (by decide)
    · exact absurd ha (by decide)
    · subst hp
      rw [progress_uiSize now impl uri p record v hf hc]
    · exact absurd ha (by decide)
    · exact absurd ha (by decide)
  · intro h
    rcases accepted_inv impl uri "pre-done" params (accepted_of_returns now impl _ h) with
      ha | ⟨ha, _⟩ | ⟨ha, _⟩ | ⟨ha, _⟩ | ⟨ha, _⟩ | ⟨ha, _⟩ | ⟨_, hp, record, hf⟩ | ⟨ha, _⟩
    · exact absurd ha (by decide)
    · exact absurd ha (by decide)
    · exact absurd ha (by decide)
    · exact absurd ha (by decide)
    · exact absurd ha (by decide)
    · exact absurd ha (by decide)
    · subst hp
      rw [progress_preDone now impl uri record hf]
    · exact absurd ha (by decide)
  · intro h
    obtain ⟨result, record, hp, hf⟩ :=
      accepted_done_inv impl uri params (accepted_of_returns now impl _ h)
    subst hp
    rw [progress_done now impl uri result record hf]
    by_cases hres : result = ""
    · refine ⟨result, record, _, rfl, rfl, ?_, rfl, ?_⟩
      · simp only [hres, if_true]
        exact hf
      · simp only [hres, if_true]
        exact StdMap.find_erase_self _ _ hwf.1
    · refine ⟨result, record, _, rfl, rfl, ?_, rfl, ?_⟩
      · simp only [hres, if_false]
        exact hf
      · simp only [hres, if_false]
        exact StdMap.find_erase_self _ _ hwf.1

/-- C17, witness: the hooks of a `done` with the result "404" for the started
download "uri1". -/
theorem C17_hook_traces_witness :
    (progressAll (ProgressImpl.new 0) uri1Steps).WellFormed ∧
      (progress t0 (progressAll (ProgressImpl.new 0) uri1Steps)
        ["uri1", "done", "404"]).thrown = none ∧
      ∃ result record seen, ["404"] = [result] ∧
        (progress t0 (progressAll (ProgressImpl.new 0) uri1Steps)
          ("uri1" :: "done" :: ["404"])).hooks =
          [(HookCall.finishedDownloadHook "uri1" result, seen),
           (HookCall.updateHook true,
            (progress t0 (progressAll (ProgressImpl.new 0) uri1Steps)
              ("uri1" :: "done" :: ["404"])).impl)] ∧
        seen.nowDownloading.find "uri1" = some record ∧
        (progress t0 (progressAll (ProgressImpl.new 0) uri1Steps)
          ("uri1" :: "done" :: ["404"])).impl.nowDownloading =
          seen.nowDownloading.erase "uri1" ∧
        (progress t0 (progressAll (ProgressImpl.new 0) uri1Steps)
          ("uri1" :: "done" :: ["404"])).impl.nowDownloading.find "uri1" = none :=
  ⟨by decide, by decide,
    (C17_hook_traces t0 (progressAll (ProgressImpl.new 0) uri1Steps) "uri1" ["404"]
      (by decide)).2.2.2.2.2.2 (by decide)⟩

/-! ## C16: sequence numbers -/

/-- Storing a record with a number not yet used, the next one, keeps the
numbers distinct and below the incremented counter. -/
theorem numbersBelow_start (m : StdMap DownloadRecord) (next : Nat) (uri : String)
    (record : DownloadRecord) (h : NumbersBelow m next) (hn : record.number = next) :
    NumbersBelow (m.insert uri record) (next + 1) := by
  obtain ⟨hb, hd⟩ := h
  constructor
  · intro k r hk
    rw [StdMap.find_insert] at hk
    by_cases e : k = uri
    · simp only [e, if_true, Option.some.injEq] at hk
      rw [← hk, hn]
      exact Nat.lt_succ_self _
    · simp only [e, if_false] at hk
      exact Nat.lt_succ_of_lt (hb k r hk)
  · intro k1 k2 r1 r2 h1 h2 hne
    rw [StdMap.find_insert] at h1 h2
    by_cases e1 : k1 = uri
    · have e2 : k2 ≠ uri := fun e => hne (e1.trans e.symm)
      simp only [e1, if_true, Option.some.injEq] at h1
      simp only [e2, if_false] at h2
      have := hb k2 r2 h2
      rw [← h1, hn]
      omega
    · simp only [e1, if_false] at h1
      by_cases e2 : k2 = uri
      · simp only [e2, if_true, Option.some.injEq] at h2
        have := hb k1 r1 h1
        rw [← h2, hn]
        omega
      · simp only [e2, if_false] at h2
        exact hd k1 k2 r1 r2 h1 h2 hne

/-- Replacing the record of an identifier by one with the same number keeps the
numbers distinct and below the counter. -/
theorem numbersBelow_update (m : StdMap DownloadRecord) (next : Nat) (uri : String)
    (old record : DownloadRecord) (h : NumbersBelow m next) (hf : m.find uri = some old)
    (hn : record.number = old.number) : NumbersBelow (m.insert uri record) next := by
  obtain ⟨hb, hd⟩ := h
  constructor
  · intro k r hk
    rw [StdMap.find_insert] at hk
    by_cases e : k = uri
    · simp only [e, if_true, Option.some.injEq] at hk
      rw [← hk, hn]
      exact hb uri old hf
    · simp only [e, if_false] at hk
      exact hb k r hk
  · intro k1 k2 r1 r2 h1 h2 hne
    rw [StdMap.find_insert] at h1 h2
    by_cases e1 : k1 = uri
    · have e2 : k2 ≠ uri := fun e => hne (e1.trans e.symm)
      simp only [e1, if_true, Option.some.injEq] at h1
      simp only [e2, if_false] at h2
      rw [← h1, hn]
      exact hd uri k2 old r2 hf h2 (Ne.symm e2)
    · simp only [e1, if_false] at h1
      by_cases e2 : k2 = uri
      · simp only [e2, if_true, Option.some.injEq] at h2
        rw [← h2, hn]
        exact hd k1 uri r1 old h1 hf e1
      · simp only [e2, if_false] at h2
        exact hd k1 k2 r1 r2 h1 h2 hne

/-- Erasing an identifier from an ordered map keeps the numbers distinct and
below the counter. -/
theorem numbersBelow_erase (m : StdMap DownloadRecord) (next : Nat) (uri : String)
    (h : NumbersBelow m next) (ho : m.Ordered) : NumbersBelow (m.erase uri) next := by
  obtain ⟨hb, hd⟩ := h
  have key : ∀ k r, (m.erase uri).find k = some r → k ≠ uri ∧ m.find k = some r := by
    intro k r hk
    by_cases e : k = uri
    · rw [e, StdMap.find_erase_self m uri ho] at hk
      cases hk
    · rw [StdMap.find_erase_ne m uri k e] at hk
      exact ⟨e, hk⟩
  constructor
  · intro k r hk
    exact hb k r (key k r hk).2
  · intro k1 k2 r1 r2 h1 h2 hne
    exact hd k1 k2 r1 r2 (key k1 r1 h1).2 (key k2 r2 h2).2 hne

theorem reachable_of_noWrap (impl : ProgressImpl) (h : ReachableNoWrap impl) :
    Reachable impl := by
  induction h with
  | fresh start => exact Reachable.fresh start
  | step now impl allParams _ hret _ ih => exact Reachable.step now impl allParams ih hret

theorem wrap64_succ_of_le (n : Nat) (h1 : 1 ≤ n) (h2 : n < 2 ^ 64) (h : n ≤ wrap64 (n + 1)) :
    wrap64 (n + 1) = n + 1 := by
  unfold wrap64 at h ⊢
  omega

/-- In a state reached without a wrap of the counter, the counter is at least
1 and every active record has its own number below the counter. -/
theorem numbers_invariant (impl : ProgressImpl) (h : ReachableNoWrap impl) :
    1 ≤ impl.nextDownloadNumber ∧ impl.nextDownloadNumber < 2 ^ 64 ∧
      NumbersBelow impl.nowDownloading impl.nextDownloadNumber := by
  induction h with
  | fresh start =>
    refine ⟨Nat.le_refl _, ?_, ?_, ?_⟩
    · show (1 : Nat) < 2 ^ 64
      norm_num
    · intro k r hk
      cases hk
    · intro k1 k2 r1 r2 h1
      cases h1
  | step now impl allParams hprev hret hle ih =>
    obtain ⟨h1, h2, hnum⟩ := ih
    have hwf := wellFormed_of_reachable impl (reachable_of_noWrap impl hprev)
    cases accepted_of_returns now impl allParams hret with
    | finish => rw [progress_finish]; exact ⟨h1, h2, hnum⟩
    | ping uri params => rw [progress_ping]; exact ⟨h1, h2, hnum⟩
    | startUnknown uri =>
      rw [progress_startUnknown] at hle ⊢
      have e := wrap64_succ_of_le _ h1 h2 hle
      simp only [e]
      have hlt : impl.nextDownloadNumber + 1 < 2 ^ 64 := by
        rw [← e]
        exact Nat.mod_lt _ (by norm_num)
      exact ⟨by omega, hlt, numbersBelow_start _ _ _ _ hnum rfl⟩
    | startSized uri q size hc =>
      rw [progress_startSized now impl uri q size hc] at hle ⊢
      have e := wrap64_succ_of_le _ h1 h2 hle
      simp only [e]
      have hlt : impl.nextDownloadNumber + 1 < 2 ^ 64 := by
        rw [← e]
        exact Nat.mod_lt _ (by norm_num)
      exact ⟨by omega, hlt, numbersBelow_start _ _ _ _ hnum rfl⟩
    | downloading uri p0 p1 record a b hf h0 hc1 =>
      rw [progress_downloading now impl uri p0 p1 record a b hf h0 hc1]
      exact ⟨h1, h2, numbersBelow_update _ _ _ record _ hnum hf rfl⟩
    | expectedSize uri q record v hf hc =>
      rw [progress_expectedSize now impl uri q record v hf hc]
      exact ⟨h1, h2, numbersBelow_update _ _ _ record _ hnum hf rfl⟩
    | uiSize uri q record v hf hc =>
      rw [progress_uiSize now impl uri q record v hf hc]
      exact ⟨h1, h2, numbersBelow_update _ _ _ record _ hnum hf rfl⟩
    | preDone uri record hf =>
      rw [progress_preDone now impl uri record hf]
      exact ⟨h1, h2, numbersBelow_update _ _ _ record _ hnum hf rfl⟩
    | done uri result record hf =>
      rw [progress_done now impl uri result record hf]
      by_cases hres : result = ""
      · simp only [hres, if_true]
        exact ⟨h1, h2, numbersBelow_erase _ _ _ hnum hwf.1⟩
      · simp only [hres, if_false]
        exact ⟨h1, h2, numbersBelow_erase _ _ _ hnum hwf.1⟩

/-- C16: a fresh engine has `nextDownloadNumber = 1`.  In every state an
accepted `start` stores for its identifier the record with `number` equal to
the current `nextDownloadNumber`, `size` from the parameter or the unknown
value, `downloadedSize` 0, `beingPostprocessed` false and `sizeScaleFactor`
1.0, and sets `nextDownloadNumber` to its successor modulo `2^64`, the
successor itself unless the counter overflows.  In every state reached from a
fresh engine by accepted submessages without a wrap of the counter, the number
of every active record is below `nextDownloadNumber` and the records of two
different identifiers have different numbers. -/
theorem C16_sequence_numbers (now : timespec) (impl : ProgressImpl) (uri p : String)
    (size : Nat) :
    (∀ start, (ProgressImpl.new start).nextDownloadNumber = 1) ∧
    ((progress now impl [uri, "start"]).thrown = none ∧
      (progress now impl [uri, "start"]).impl.nowDownloading.find uri =
        some { number := impl.nextDownloadNumber, downloadedSize := 0, size := SIZE_MAX,
               beingPostprocessed := false, sizeScaleFactor := CFloat.ofInt 1 } ∧
      (progress now impl [uri, "start"]).impl.nextDownloadNumber =
        (impl.nextDownloadNumber + 1) % 2 ^ 64 ∧
      (impl.nextDownloadNumber + 1 < 2 ^ 64 →
        (progress now impl [uri, "start"]).impl.nextDownloadNumber =
          impl.nextDownloadNumber + 1)) ∧
    (lexical_cast p = some size →
      (progress now impl [uri, "start", p]).thrown = none ∧
      (progress now impl [uri, "start", p]).impl.nowDownloading.find uri =
        some { number := impl.nextDownloadNumber, downloadedSize := 0, size := size,
               beingPostprocessed := false, sizeScaleFactor := CFloat.ofInt 1 } ∧
      (progress now impl [uri, "start", p]).impl.nextDownloadNumber =
        (impl.nextDownloadNumber + 1) % 2 ^ 64 ∧
      (impl.nextDownloadNumber + 1 < 2 ^ 64 →
        (progress now impl [uri, "start", p]).impl.nextDownloadNumber =
          impl.nextDownloadNumber + 1)) ∧
    (ReachableNoWrap impl →
      (∀ k r, impl.nowDownloading.find k = some r → r.number < impl.nextDownloadNumber) ∧
      ∀ k1 k2 r1 r2, impl.nowDownloading.find k1 = some r1 →
        impl.nowDownloading.find k2 = some r2 → k1 ≠ k2 → r1.number ≠ r2.number) := by
  refine ⟨fun _ => rfl, ?_, ?_, ?_⟩
  · rw [progress_startUnknown]
    refine ⟨rfl, StdMap.find_insert_self _ _ _, rfl, ?_⟩
    intro hlt
    exact Nat.mod_eq_of_lt hlt
  · intro hc
    rw [progress_startSized now impl uri p size hc]
    refine ⟨rfl, StdMap.find_insert_self _ _ _, rfl, ?_⟩
    intro hlt
    exact Nat.mod_eq_of_lt hlt
  · intro hreach
    exact (numbers_invariant impl hreach).2.2

/-- C16, witness: the state after the starts of "a", with size 7, and "b". -/
theorem C16_sequence_numbers_witness :
    ReachableNoWrap (progressAll (ProgressImpl.new 0) twoStartsSteps) ∧
      lexical_cast "9" = some 9 ∧
      (progressAll (ProgressImpl.new 0) twoStartsSteps).nextDownloadNumber = 3 ∧
      (progress t0 (progressAll (ProgressImpl.new 0) twoStartsSteps)
        ["c", "start", "9"]).impl.nowDownloading.find "c" =
        some { number := 3, downloadedSize := 0, size := 9, beingPostprocessed := false,
               sizeScaleFactor := CFloat.ofInt 1 } ∧
      ∀ k r, (progressAll (ProgressImpl.new 0) twoStartsSteps).nowDownloading.find k = some r →
        r.number < 3 :=
  have hreach : ReachableNoWrap (progressAll (ProgressImpl.new 0) twoStartsSteps) :=
    ReachableNoWrap.step t0 _ ["b", "start"]
      (ReachableNoWrap.step t0 _ ["a", "start", "7"] (ReachableNoWrap.fresh 0)
        (by decide) (by decide))
      (by decide) (by decide)
  have h := C16_sequence_numbers t0 (progressAll (ProgressImpl.new 0) twoStartsSteps) "c" "9" 9
  ⟨hreach, by decide, by decide, (h.2.2.1 (by decide)).2.1, (h.2.2.2 hreach).1⟩

/-! ## C18: a numeric field that does not decode -/

/-- C18, the claim as stated fails.  In a fresh engine `["a", "start", "x"]`
fails in `lexical_cast`, yet afterwards the registry holds a record for "a"
and `nextDownloadNumber` is 2 instead of 1.  After "uri1" has reported 100
bytes, `["uri1", "downloading", "7", "x"]` fails in the second `lexical_cast`,
yet the `downloadedSize` of "uri1" is 7 afterwards. -/
theorem C18_counterexample :
    lexical_cast "x" = none ∧
      (progress t0 (ProgressImpl.new 0) ["a", "start", "x"]).thrown =
        some .bad_lexical_cast ∧
      (ProgressImpl.new 0).nowDownloading.find "a" = none ∧
      (progress t0 (ProgressImpl.new 0) ["a", "start", "x"]).impl.nowDownloading.find "a" =
        some { number := 1, downloadedSize := 0, size := 0, beingPostprocessed := false,
               sizeScaleFactor := CFloat.fin false 0 } ∧
      (ProgressImpl.new 0).nextDownloadNumber = 1 ∧
      (progress t0 (ProgressImpl.new 0) ["a", "start", "x"]).impl.nextDownloadNumber = 2 ∧
      (progress t0 (progressAll (ProgressImpl.new 0) uri1Steps)
        ["uri1", "downloading", "7", "x"]).thrown = some .bad_lexical_cast ∧
      ((progressAll (ProgressImpl.new 0) uri1Steps).nowDownloading.find "uri1").map
        DownloadRecord.downloadedSize = some 100 ∧
      ((progress t0 (progressAll (ProgressImpl.new 0) uri1Steps)
        ["uri1", "downloading", "7", "x"]).impl.nowDownloading.find "uri1").map
        DownloadRecord.downloadedSize = some 7 := by
  decide

/-- C18 (amended): a submessage on which `progress` fails because a numeric
field does not decode leaves the whole engine state unchanged when it is a
`downloading` with a bad first field, an `expected-size` or a `ui-size`.  For a
`start` with a bad size and for a `downloading` with a good first and a bad
second field, no hook is called and `fetchedSize`, `doneDownloadsSize`, the
chunks and the records of all other identifiers keep their values; for the
`downloading`, `nextDownloadNumber` is kept as well. -/
theorem C18_decode_failure (now : timespec) (impl : ProgressImpl) (uri p p0 p1 : String) :
    (lexical_cast p = none →
      (progress now impl [uri, "start", p]).thrown = some .bad_lexical_cast ∧
      (progress now impl [uri, "start", p]).hooks = [] ∧
      (progress now impl [uri, "start", p]).impl.fetchedSize = impl.fetchedSize ∧
      (progress now impl [uri, "start", p]).impl.doneDownloadsSize = impl.doneDownloadsSize ∧
      (progress now impl [uri, "start", p]).impl.fetchedChunks = impl.fetchedChunks ∧
      ∀ Y, Y ≠ uri →
        (progress now impl [uri, "start", p]).impl.nowDownloading.find Y =
          impl.nowDownloading.find Y) ∧
    (∀ r, impl.nowDownloading.find uri = some r →
      (lexical_cast p0 = none →
        (progress now impl [uri, "downloading", p0, p1]).thrown = some .bad_lexical_cast ∧
        (progress now impl [uri, "downloading", p0, p1]).hooks = [] ∧
        (progress now impl [uri, "downloading", p0, p1]).impl = impl) ∧
      (∀ a, lexical_cast p0 = some a → lexical_cast p1 = none →
        (progress now impl [uri, "downloading", p0, p1]).thrown = some .bad_lexical_cast ∧
        (progress now impl [uri, "downloading", p0, p1]).hooks = [] ∧
        (progress now impl [uri, "downloading", p0, p1]).impl.fetchedSize =
          impl.fetchedSize ∧
        (progress now impl [uri, "downloading", p0, p1]).impl.doneDownloadsSize =
          impl.doneDownloadsSize ∧
        (progress now impl [uri, "downloading", p0, p1]).impl.fetchedChunks =
          impl.fetchedChunks ∧
        (progress now impl [uri, "downloading", p0, p1]).impl.nextDownloadNumber =
          impl.nextDownloadNumber ∧
        ∀ Y, Y ≠ uri →
          (progress now impl [uri, "downloading", p0, p1]).impl.nowDownloading.find Y =
            impl.nowDownloading.find Y) ∧
      (lexical_cast p = none →
        (progress now impl [uri, "expected-size", p]).thrown = some .bad_lexical_cast ∧
        (progress now impl [uri, "expected-size", p]).hooks = [] ∧
        (progress now impl [uri, "expected-size", p]).impl = impl) ∧
      (lexical_cast p = none →
        (progress now impl [uri, "ui-size", p]).thrown = some .bad_lexical_cast ∧
        (progress now impl [uri, "ui-size", p]).hooks = [] ∧
        (progress now impl [uri, "ui-size", p]).impl = impl)) := by
  constructor
  · intro hc
    have e : progress now impl [uri, "start", p] =
        { thrown := some .bad_lexical_cast,
          impl := { impl with
            nowDownloading := impl.nowDownloading.insert uri
              { (impl.nowDownloading.find uri).getD DownloadRecord.zero with
                number := impl.nextDownloadNumber }
            nextDownloadNumber := wrap64 (impl.nextDownloadNumber + 1) },
          hooks := [] } := by
      simp [progress, progressStart, hc]
    rw [e]
    refine ⟨rfl, rfl, rfl, rfl, rfl, ?_⟩
    intro Y hY
    exact StdMap.find_insert_ne _ _ _ _ hY
  · intro r hf
    refine ⟨?_, ?_, ?_, ?_⟩
    · intro hc
      have e : progress now impl [uri, "downloading", p0, p1] =
          { thrown := some .bad_lexical_cast, impl := impl, hooks := [] } := by
        simp [progress, progressActive, hf, hc]
      rw [e]
      exact ⟨rfl, rfl, rfl⟩
    · intro a hc0 hc1
      have e : progress now impl [uri, "downloading", p0, p1] =
          { thrown := some .bad_lexical_cast,
            impl := { impl with
              nowDownloading :=
                impl.nowDownloading.insert uri { r with downloadedSize := a } },
            hooks := [] } := by
        simp [progress, progressActive, hf, hc0, hc1]
      rw [e]
      refine ⟨rfl, rfl, rfl, rfl, rfl, rfl, ?_⟩
      intro Y hY
      exact StdMap.find_insert_ne _ _ _ _ hY
    · intro hc
      have e : progress now impl [uri, "expected-size", p] =
          { thrown := some .bad_lexical_cast, impl := impl, hooks := [] } := by
        simp [progress, progressActive, hf, hc]
      rw [e]
      exact ⟨rfl, rfl, rfl⟩
    · intro hc
      have e : progress now impl [uri, "ui-size", p] =
          { thrown := some .bad_lexical_cast, impl := impl, hooks := [] } := by
        simp [progress, progressActive, hf, hc]
      rw [e]
      exact ⟨rfl, rfl, rfl⟩

/-- C18, witness: an `expected-size` with the field "x" for the started
download "uri1", and a `start` with the size "x". -/
theorem C18_decode_failure_witness :
    lexical_cast "x" = none ∧
      (progress t0 (progressAll (ProgressImpl.new 0) uri1Steps)
        ["uri1", "expected-size", "x"]).impl = progressAll (ProgressImpl.new 0) uri1Steps ∧
      (progress t0 (progressAll (ProgressImpl.new 0) uri1Steps)
        ["b", "start", "x"]).impl.nowDownloading.find "uri1" =
        (progressAll (ProgressImpl.new 0) uri1Steps).nowDownloading.find "uri1" :=
  have h := C18_decode_failure t0 (progressAll (ProgressImpl.new 0) uri1Steps) "uri1" "x"
    "x" "x"
  have g := C18_decode_failure t0 (progressAll (ProgressImpl.new 0) uri1Steps) "b" "x"
    "x" "x"
  ⟨by decide,
    ((h.2 { number := 1, downloadedSize := 100, size := SIZE_MAX, beingPostprocessed := false,
            sizeScaleFactor := CFloat.ofInt 1 } (by decide)).2.2.1 (by decide)).2.2,
    (g.1 (by decide)).2.2.2.2.2 "uri1" (by decide)⟩

/-! ## C19: the alias table -/

/-- The short getter returns what the short setter stored last. -/
theorem getShortAlias_setShortAlias (impl : ProgressImpl) (uri theAlias : String) :
    getShortAliasForUri (setShortAliasForUri impl uri theAlias) uri = theAlias := by
  simp [getShortAliasForUri, setShortAliasForUri, StdMap.find_insert_self]

/-- The long getter returns what the long setter stored last. -/
theorem getLongAlias_setLongAlias (impl : ProgressImpl) (uri theAlias : String) :
    getLongAliasForUri (setLongAliasForUri impl uri theAlias) uri = theAlias := by
  simp [getLongAliasForUri, setLongAliasForUri, StdMap.find_insert_self]

/-- C19, the code at the failing input: in a fresh engine the short getter
returns "u" for "u"; after `setLongAliasForUri("u", "L")`, with no short alias
ever set, it returns the empty string and not "u", because the long setter has
created the entry of "u" with an empty short alias.  The same holds with the
two kinds exchanged.  A setter does determine what the getter of its own kind
returns. -/
theorem C19_alias_after_other_kind :
    getShortAliasForUri (ProgressImpl.new 0) "u" = "u" ∧
      getShortAliasForUri (setLongAliasForUri (ProgressImpl.new 0) "u" "L") "u" = "" ∧
      getShortAliasForUri (setLongAliasForUri (ProgressImpl.new 0) "u" "L") "u" ≠ "u" ∧
      getLongAliasForUri (ProgressImpl.new 0) "u" = "u" ∧
      getLongAliasForUri (setShortAliasForUri (ProgressImpl.new 0) "u" "S") "u" = "" ∧
      getLongAliasForUri (setLongAliasForUri (ProgressImpl.new 0) "u" "L") "u" = "L" ∧
      getShortAliasForUri
        (setShortAliasForUri (setShortAliasForUri (ProgressImpl.new 0) "u" "S1") "u" "S2")
        "u" = "S2" := by
  decide

/-! ## C13: the estimated time -/

/-- The conversion of a positive 64-bit integer to `float` is finite and
positive. -/
theorem ofNat_pos (e : Nat) (h1 : 1 ≤ e) (h2 : e < 2 ^ 64) :
    ∃ k, CFloat.ofNat e = CFloat.fin false k ∧ 0 < k := by
  have hbig : roundUnits (2 ^ 64 * unitsPerOne) 1 = some (2 ^ 64 * unitsPerOne) := by decide
  have hone : roundUnits (1 * unitsPerOne) 1 = some (1 * unitsPerOne) := by decide
  obtain ⟨k, hk⟩ := roundUnits_some_of_le (e * unitsPerOne) (2 ^ 64 * unitsPerOne) 1 _
    (Nat.mul_le_mul_right _ (Nat.le_of_lt h2)) hbig
  have hge : 1 * unitsPerOne ≤ k :=
    roundUnits_mono _ _ 1 _ _ (Nat.mul_le_mul_right _ h1) hone hk
  have hU : 0 < unitsPerOne := by decide
  refine ⟨k, ?_, by omega⟩
  unfold CFloat.ofNat
  rw [hk]
  rfl

/-- A finite positive `float` divided by itself is one. -/
theorem div_self_eq_one (k : Nat) (hk : 0 < k) :
    CFloat.div (CFloat.fin false k) (CFloat.fin false k) = CFloat.fin false unitsPerOne := by
  have hne : k ≠ 0 := by omega
  have e := roundUnits_exact 1 149 k hk (by norm_num) (by norm_num)
  have e2 : k * unitsPerOne = 1 * 2 ^ 149 * k := by
    unfold unitsPerOne
    ring
  simp only [CFloat.div, hne, if_false, Bool.xor_false]
  rw [e2, e]
  simp [CFloat.ofRounded, unitsPerOne]

/-- A number of seconds below `2^24` divided by the `float` one and converted
to `size_t` is that number. -/
theorem elapsed_div_one (elapsed : Nat) (h : elapsed < 2 ^ 24) :
    CFloat.toUInt64 (CFloat.div (CFloat.ofInt (elapsed : Int))
      (CFloat.fin false unitsPerOne)) = some elapsed := by
  have hlt : elapsed * 2 ^ 149 < 2 ^ 277 := by
    calc elapsed * 2 ^ 149 < 2 ^ 24 * 2 ^ 149 :=
          Nat.mul_lt_mul_of_pos_right h (Nat.pow_pos (by norm_num))
      _ ≤ 2 ^ 277 := by rw [← pow_add]; exact Nat.pow_le_pow_right (by norm_num) (by norm_num)
  have e1 : roundUnits (elapsed * unitsPerOne) 1 = some (elapsed * unitsPerOne) := by
    have := roundUnits_exact elapsed 149 1 (by norm_num) h hlt
    rw [Nat.mul_one] at this
    exact this
  have e2 : roundUnits (elapsed * unitsPerOne * unitsPerOne) unitsPerOne =
      some (elapsed * unitsPerOne) :=
    roundUnits_exact elapsed 149 unitsPerOne (by decide) h hlt
  have hneg : decide ((elapsed : Int) < 0) = false := by simp
  have hU : unitsPerOne ≠ 0 := by decide
  unfold CFloat.ofInt
  rw [hneg, Int.natAbs_ofNat, e1]
  simp only [CFloat.ofRounded, CFloat.div, hU, if_false, Bool.xor_false]
  rw [e2]
  simp only [CFloat.ofRounded, CFloat.toUInt64]
  rw [Nat.mul_div_cancel _ (by decide : 0 < unitsPerOne)]
  have : elapsed < 2 ^ 64 :=
    lt_of_lt_of_le h (Nat.pow_le_pow_right (by norm_num) (by norm_num))
  exact if_pos this

/-- The `float` quotient of zero by a positive finite value is zero. -/
theorem div_zero_pos (k : Nat) (hk : 0 < k) :
    CFloat.div (CFloat.fin false 0) (CFloat.fin false k) = CFloat.fin false 0 := by
  have hr : roundUnits (0 * unitsPerOne) k = some 0 := by
    have hm : ∀ d, 0 < d → roundHalfEven 0 0 d = 0 := by
      intro d hd
      unfold roundHalfEven
      rw [if_pos (by omega)]
    rw [Nat.zero_mul]
    unfold roundUnits
    simp only [Nat.zero_div, Nat.zero_mod]
    rw [hm _ (Nat.mul_pos hk (Nat.pow_pos (by norm_num))), Nat.zero_mul]
    rfl
  show (if k = 0 then (if 0 = 0 then CFloat.nan else CFloat.inf (xor false false))
    else CFloat.ofRounded (xor false false) (roundUnits (0 * unitsPerOne) k)) = _
  rw [if_neg (by omega), hr]
  rfl

/-- C13, the claim as stated fails: after `completeSteps` the downloaded size
equals the estimated size 100; with the engine started at 0 s and the clock at
10 s, `getOverallEstimatedTime` returns 10, the elapsed time, and not 0. -/
theorem C13_counterexample :
    getOverallDownloadedSize (progressAll (ProgressImpl.new 0) completeSteps) = some 100 ∧
      getOverallEstimatedSize (progressAll (ProgressImpl.new 0) completeSteps) = some 100 ∧
      (10 : Int) - (progressAll (ProgressImpl.new 0) completeSteps).startTimestamp = 10 ∧
      getOverallEstimatedTime 10 (progressAll (ProgressImpl.new 0) completeSteps) = some 10 ∧
      getOverallEstimatedTime 10 (progressAll (ProgressImpl.new 0) completeSteps) ≠ some 0 := by
  decide

/-- C13 (amended): with the clock passed explicitly, `getOverallEstimatedTime`
returns the elapsed time divided by the completed part, in `float` and
converted to `size_t`; the elapsed time is not subtracted.  The part is zero
when the estimated size is zero, and the `float` quotient of the downloaded
size by the estimated size otherwise; a part below the `double` `0.001` is
replaced by `0.001` rounded to `float`.  The `double` `0.001` is
`4611686018427388 * 2^(-62)`, the 53-bit value nearest to `1 / 1000`, and its
`float` is `8589935 * 2^(-33)`; in units of `2^(-149)` these are
`4611686018427388 * 2^87` and `8589935 * 2^116`.  So with an estimated size of
zero, and with nothing downloaded, the result is the elapsed time divided by
the `float` `0.001`; when the downloaded size equals a non-zero estimated size
and the elapsed time is below `2^24` seconds, the result is the elapsed time.
Four states with an empty registry, the sizes given by `doneDownloadsSize` and
`totalEstimatedSize`: sizes 0 of 0 after 7 s give 6999, 0 of 100 after 10 s
give 10000, 1 of 3 after 100 s give 300, and 999 of 1000000 after 12345 s give
12344999. -/
theorem C13_estimated_time (currentTimestamp : Int) (impl : ProgressImpl) :
    (doubleThousandth = 4611686018427388 * 2 ^ 87 ∧
      2 ^ 52 ≤ 4611686018427388 ∧ 4611686018427388 < 2 ^ 53 ∧
      unitsPerOne ≤ 1000 * doubleThousandth ∧
      2 * (1000 * doubleThousandth - unitsPerOne) ≤ 1000 * 2 ^ 87 ∧
      roundUnits doubleThousandth 1 = some (8589935 * 2 ^ 116)) ∧
    (getOverallEstimatedSize impl = some 0 →
      getOverallEstimatedTime currentTimestamp impl =
        CFloat.toUInt64 (CFloat.div (CFloat.ofInt (currentTimestamp - impl.startTimestamp))
          (CFloat.fin false (8589935 * 2 ^ 116)))) ∧
    (∀ d e : Nat, getOverallDownloadedSize impl = some d →
      getOverallEstimatedSize impl = some e → e ≠ 0 →
      getOverallEstimatedTime currentTimestamp impl =
          CFloat.toUInt64 (CFloat.div (CFloat.ofInt (currentTimestamp - impl.startTimestamp))
            (if CFloat.lt (CFloat.div (CFloat.ofNat d) (CFloat.ofNat e))
                (CFloat.fin false (4611686018427388 * 2 ^ 87)) then
              CFloat.fin false (8589935 * 2 ^ 116)
            else CFloat.div (CFloat.ofNat d) (CFloat.ofNat e))) ∧
        (d = 0 → e < 2 ^ 64 →
          getOverallEstimatedTime currentTimestamp impl =
            CFloat.toUInt64
              (CFloat.div (CFloat.ofInt (currentTimestamp - impl.startTimestamp))
                (CFloat.fin false (8589935 * 2 ^ 116)))) ∧
        (d = e → e < 2 ^ 64 → ∀ elapsed : Nat,
          currentTimestamp - impl.startTimestamp = (elapsed : Int) → elapsed < 2 ^ 24 →
          getOverallEstimatedTime currentTimestamp impl = some elapsed)) ∧
    (getOverallEstimatedTime 7 (ProgressImpl.new 0) = some 6999 ∧
      getOverallEstimatedTime 10
        { ProgressImpl.new 0 with doneDownloadsSize := 0, totalEstimatedSize := 100 } =
        some 10000 ∧
      getOverallEstimatedTime 100
        { ProgressImpl.new 0 with doneDownloadsSize := 1, totalEstimatedSize := 3 } =
        some 300 ∧
      getOverallEstimatedTime 12345
        { ProgressImpl.new 0 with doneDownloadsSize := 999, totalEstimatedSize := 1000000 } =
        some 12344999) := by
  have hT : doubleThousandth = 4611686018427388 * 2 ^ 87 := rfl
  have hF : CFloat.ofRounded false (roundUnits doubleThousandth 1) =
      CFloat.fin false (8589935 * 2 ^ 116) := by decide
  have hzero : CFloat.lt (CFloat.fin false 0) (CFloat.fin false doubleThousandth) = true := by
    decide
  refine ⟨by decide, ?_, ?_, by decide⟩
  · intro he
    unfold getOverallEstimatedTime
    rw [he]
    simp only [ne_eq, not_true_eq_false, if_false, hzero, if_true, hF]
  · intro d e hd he hne
    have hform : getOverallEstimatedTime currentTimestamp impl =
        CFloat.toUInt64 (CFloat.div (CFloat.ofInt (currentTimestamp - impl.startTimestamp))
          (if CFloat.lt (CFloat.div (CFloat.ofNat d) (CFloat.ofNat e))
              (CFloat.fin false (4611686018427388 * 2 ^ 87)) then
            CFloat.fin false (8589935 * 2 ^ 116)
          else CFloat.div (CFloat.ofNat d) (CFloat.ofNat e))) := by
      unfold getOverallEstimatedTime
      rw [he, hd]
      simp only [ne_eq, hne, not_false_eq_true, if_true, hF]
      rw [hT]
    refine ⟨hform, ?_, ?_⟩
    · intro hd0 hlt
      rw [hform, hd0]
      obtain ⟨k, hk, hpos⟩ := ofNat_pos e (by omega) hlt
      have hz : CFloat.ofNat 0 = CFloat.fin false 0 := by decide
      rw [hk, hz, div_zero_pos k hpos, ← hT, hzero]
      rfl
    · intro hde hlt elapsed hel hsmall
      rw [hform, hde, hel]
      obtain ⟨k, hk, hpos⟩ := ofNat_pos e (by omega) hlt
      rw [hk, div_self_eq_one k hpos]
      have hnot : CFloat.lt (CFloat.fin false unitsPerOne)
          (CFloat.fin false (4611686018427388 * 2 ^ 87)) = false := by decide
      rw [hnot]
      simp only [Bool.false_eq_true, if_false]
      exact elapsed_div_one elapsed hsmall

/-- C13, witness: the state after `completeSteps` with the clock at 10 s, and
the fresh engine, whose estimated size is zero, with the clock at 7 s. -/
theorem C13_estimated_time_witness :
    getOverallDownloadedSize (progressAll (ProgressImpl.new 0) completeSteps) = some 100 ∧
      getOverallEstimatedSize (progressAll (ProgressImpl.new 0) completeSteps) = some 100 ∧
      (100 : Nat) ≠ 0 ∧
      getOverallEstimatedTime 10 (progressAll (ProgressImpl.new 0) completeSteps) = some 10 ∧
      getOverallEstimatedSize (ProgressImpl.new 0) = some 0 ∧
      getOverallEstimatedTime 7 (ProgressImpl.new 0) =
        CFloat.toUInt64 (CFloat.div (CFloat.ofInt (7 - (ProgressImpl.new 0).startTimestamp))
          (CFloat.fin false (8589935 * 2 ^ 116))) :=
  ⟨by decide, by decide, by decide,
    ((C13_estimated_time 10 (progressAll (ProgressImpl.new 0) completeSteps)).2.2.1 100 100
      (by decide) (by decide) (by decide)).2.2 rfl (by norm_num) 10 (by decide) (by norm_num),
    by decide,
    (C13_estimated_time 7 (ProgressImpl.new 0)).2.1 (by decide)⟩

/-! ## C14: the downloaded size -/

/-- An unsigned integer with at most 24 significant bits converts to `float`
without a change of value. -/
theorem ofNat_exact (m e : Nat) (hm : m < 2 ^ 24) (hd : m * 2 ^ e < 2 ^ 64) :
    CFloat.ofNat (m * 2 ^ e) = CFloat.fin false (m * 2 ^ e * unitsPerOne) := by
  have hU : unitsPerOne = 2 ^ 149 := rfl
  have hlt : m * 2 ^ (e + 149) < 2 ^ 277 := by
    rw [pow_add]
    calc m * (2 ^ e * 2 ^ 149) = m * 2 ^ e * 2 ^ 149 := by ring
      _ < 2 ^ 64 * 2 ^ 149 := Nat.mul_lt_mul_of_pos_right hd (by norm_num)
      _ ≤ 2 ^ 277 := by norm_num
  have h := roundUnits_exact m (e + 149) 1 (by norm_num) hm hlt
  have e2 : m * 2 ^ e * unitsPerOne = m * 2 ^ (e + 149) := by
    rw [hU, pow_add]
    ring
  have hr : roundUnits (m * 2 ^ e * unitsPerOne) 1 = some (m * 2 ^ e * unitsPerOne) := by
    rw [Nat.mul_one] at h
    rw [e2]
    exact h
  unfold CFloat.ofNat
  rw [hr]
  rfl

/-- The `float` product of zero and a finite non-negative factor is zero. -/
theorem mul_zero_fin (kf : Nat) :
    CFloat.mul (CFloat.ofNat 0) (CFloat.fin false kf) = CFloat.fin false 0 := by
  have hz : CFloat.ofNat 0 = CFloat.fin false 0 := by decide
  have hz2 : roundUnits 0 unitsPerOne = some 0 := by decide
  rw [hz]
  show CFloat.ofRounded (xor false false) (roundUnits (0 * kf) unitsPerOne) = _
  rw [Nat.zero_mul, hz2]
  rfl

/-- Adding zero to a non-negative `float` does not change it. -/
theorem add_fin_zero (a : Nat) (hr : roundUnits a 1 = some a) :
    CFloat.add (CFloat.fin false a) (CFloat.fin false 0) = CFloat.fin false a := by
  show CFloat.ofRounded false (roundUnits (a + 0) 1) = _
  rw [Nat.add_zero, hr]
  rfl

/-- One turn of the loop of `getOverallDownloadedSize` for a record that has
received nothing, the running sum a value with at most 24 significant bits. -/
theorem accumulate_idle (m e kf : Nat) (hm : m < 2 ^ 24) (hd : m * 2 ^ e < 2 ^ 64) :
    CFloat.toUInt64 (CFloat.add (CFloat.ofNat (m * 2 ^ e))
      (CFloat.mul (CFloat.ofNat 0) (CFloat.fin false kf))) = some (m * 2 ^ e) := by
  have hU : unitsPerOne = 2 ^ 149 := rfl
  have hlt : m * 2 ^ (e + 149) < 2 ^ 277 := by
    rw [pow_add]
    calc m * (2 ^ e * 2 ^ 149) = m * 2 ^ e * 2 ^ 149 := by ring
      _ < 2 ^ 64 * 2 ^ 149 := Nat.mul_lt_mul_of_pos_right hd (by norm_num)
      _ ≤ 2 ^ 277 := by norm_num
  have h := roundUnits_exact m (e + 149) 1 (by norm_num) hm hlt
  have e2 : m * 2 ^ e * unitsPerOne = m * 2 ^ (e + 149) := by
    rw [hU, pow_add]
    ring
  have hr : roundUnits (m * 2 ^ e * unitsPerOne) 1 = some (m * 2 ^ e * unitsPerOne) := by
    rw [Nat.mul_one] at h
    rw [e2]
    exact h
  have hpos : 0 < unitsPerOne := by decide
  rw [ofNat_exact m e hm hd, mul_zero_fin, add_fin_zero _ hr]
  show (if m * 2 ^ e * unitsPerOne / unitsPerOne < 2 ^ 64 then
    some (m * 2 ^ e * unitsPerOne / unitsPerOne) else none) = _
  rw [Nat.mul_div_cancel _ hpos]
  exact if_pos hd

/-- The loop of `getOverallDownloadedSize` over records that have received
nothing returns the sum it starts with, when that sum has at most 24
significant bits. -/
theorem downloadedLoop_idle (m e : Nat) (hm : m < 2 ^ 24) (hd : m * 2 ^ e < 2 ^ 64) :
    ∀ records : StdMap DownloadRecord,
      (∀ p ∈ records, p.2.downloadedSize = 0 ∧
        ∃ kf, p.2.sizeScaleFactor = CFloat.fin false kf) →
      downloadedLoop records (m * 2 ^ e) = some (m * 2 ^ e) := by
  intro records
  induction records with
  | nil => intro _; rfl
  | cons head rest ih =>
    intro h
    obtain ⟨key, item⟩ := head
    obtain ⟨h0, kf, hkf⟩ := h (key, item) (List.mem_cons_self _ _)
    rw [downloadedLoop_cons]
    have h0a : item.downloadedSize = 0 := h0
    have hkfa : item.sizeScaleFactor = CFloat.fin false kf := hkf
    rw [h0a, hkfa, accumulate_idle m e kf hm hd]
    exact ih (fun p hp => h p (List.mem_cons_of_mem _ hp))

/-- The loop of `getOverallDownloadedSize` as a left fold over the records. -/
theorem downloadedLoop_eq_foldl (records : StdMap DownloadRecord) :
    ∀ result : Nat, downloadedLoop records result =
      records.foldl (fun acc p => acc.bind (fun r =>
        CFloat.toUInt64 (CFloat.add (CFloat.ofNat r)
          (CFloat.mul (CFloat.ofNat p.2.downloadedSize) p.2.sizeScaleFactor))))
        (some result) := by
  induction records with
  | nil => intro result; rfl
  | cons head rest ih =>
    intro result
    obtain ⟨key, item⟩ := head
    rw [downloadedLoop_cons, List.foldl_cons]
    cases hc : CFloat.toUInt64 (CFloat.add (CFloat.ofNat result)
        (CFloat.mul (CFloat.ofNat item.downloadedSize) item.sizeScaleFactor)) with
    | none =>
      simp only [Option.bind, hc]
      clear ih hc
      induction rest with
      | nil => rfl
      | cons h2 r2 ih2 => rw [List.foldl_cons]; exact ih2
    | some r1 =>
      simp only [Option.bind, hc]
      exact ih r1

/-- C14, the claim as stated fails: after `oddTotalSteps` the value of
`doneDownloadsSize` is 16777217 and the only active record, "b", has received
nothing, and `getOverallDownloadedSize` returns 16777216. -/
theorem C14_counterexample :
    (progressAll (ProgressImpl.new 0) oddTotalSteps).doneDownloadsSize = 16777217 ∧
      (progressAll (ProgressImpl.new 0) oddTotalSteps).nowDownloading.map
        (fun p => (p.1, p.2.downloadedSize)) = [("b", 0)] ∧
      getOverallDownloadedSize (progressAll (ProgressImpl.new 0) oddTotalSteps) =
        some 16777216 ∧
      getOverallDownloadedSize (progressAll (ProgressImpl.new 0) oddTotalSteps) ≠
        some (progressAll (ProgressImpl.new 0) oddTotalSteps).doneDownloadsSize := by
  decide

/-- C14 (amended): `getOverallDownloadedSize` starts from `doneDownloadsSize`
and, for each active record in key order, replaces the running sum by the
`float` sum of itself and of the `float` product of the record's downloaded
size and scale factor, converted back to a 64-bit unsigned integer (undefined
when the `float` is out of range).  With no active record the result is
`doneDownloadsSize`.  After `scaledSteps` (`doneDownloadsSize` 0, one record of
scale factor 2.0 that has received 250 bytes) the result is 500.  When every
active record has received nothing and has a finite non-negative scale factor,
the result is `doneDownloadsSize` for every value of it that has at most 24
significant bits, that is `m * 2^e < 2^64` with `m < 2^24`. -/
theorem C14_downloaded_size (impl : ProgressImpl) :
    getOverallDownloadedSize impl =
        impl.nowDownloading.foldl (fun acc p => acc.bind (fun r =>
          CFloat.toUInt64 (CFloat.add (CFloat.ofNat r)
            (CFloat.mul (CFloat.ofNat p.2.downloadedSize) p.2.sizeScaleFactor))))
          (some impl.doneDownloadsSize) ∧
      (impl.nowDownloading = [] →
        getOverallDownloadedSize impl = some impl.doneDownloadsSize) ∧
      ((progressAll (ProgressImpl.new 0) scaledSteps).doneDownloadsSize = 0 ∧
        (progressAll (ProgressImpl.new 0) scaledSteps).nowDownloading.map
          (fun p => (p.1, p.2.downloadedSize, p.2.sizeScaleFactor)) =
          [("u", 250, CFloat.fin false (2 * unitsPerOne))] ∧
        getOverallDownloadedSize (progressAll (ProgressImpl.new 0) scaledSteps) = some 500) ∧
      (∀ m e : Nat, m < 2 ^ 24 → m * 2 ^ e < 2 ^ 64 → impl.doneDownloadsSize = m * 2 ^ e →
        (∀ p ∈ impl.nowDownloading, p.2.downloadedSize = 0 ∧
          ∃ kf, p.2.sizeScaleFactor = CFloat.fin false kf) →
        getOverallDownloadedSize impl = some impl.doneDownloadsSize) := by
  refine ⟨downloadedLoop_eq_foldl _ _, ?_, by decide, ?_⟩
  · intro h
    unfold getOverallDownloadedSize
    rw [h]
    rfl
  · intro m e hm hd heq hall
    unfold getOverallDownloadedSize
    rw [heq]
    exact downloadedLoop_idle m e hm hd _ hall

/-- C14, witness: after `evenTotalSteps` the value of `doneDownloadsSize` is
`3 * 2^24` and the only active record has received nothing. -/
theorem C14_downloaded_size_witness :
    (3 : Nat) < 2 ^ 24 ∧ 3 * 2 ^ 24 < 2 ^ 64 ∧
      (progressAll (ProgressImpl.new 0) evenTotalSteps).doneDownloadsSize = 3 * 2 ^ 24 ∧
      (progressAll (ProgressImpl.new 0) evenTotalSteps).nowDownloading.map
        (fun p => (p.1, p.2.downloadedSize, p.2.sizeScaleFactor)) =
        [("b", 0, CFloat.fin false unitsPerOne)] ∧
      getOverallDownloadedSize (progressAll (ProgressImpl.new 0) evenTotalSteps) =
        some (progressAll (ProgressImpl.new 0) evenTotalSteps).doneDownloadsSize :=
  ⟨by norm_num, by norm_num, by decide, by decide,
    (C14_downloaded_size (progressAll (ProgressImpl.new 0) evenTotalSteps)).2.2.2 3 24
      (by norm_num) (by norm_num) (by decide)
      (by
        have hl : (progressAll (ProgressImpl.new 0) evenTotalSteps).nowDownloading =
            [("b", { number := 2, downloadedSize := 0, size := SIZE_MAX,
                     beingPostprocessed := false,
                     sizeScaleFactor := CFloat.fin false unitsPerOne })] := by decide
        intro p hp
        rw [hl] at hp
        rw [List.mem_singleton] at hp
        rw [hp]
        exact ⟨rfl, unitsPerOne, rfl⟩)⟩

/-! ## C20: `split` and `join` -/

theorem substring_prefix (pre rest : List Char) (sp : Nat) (h : sp ≤ pre.length) :
    substring (pre ++ rest) sp (pre.length - sp) = pre.drop sp := by
  unfold substring
  rw [List.drop_append_of_le_length h, List.take_append_of_le_length (by simp)]
  exact List.take_of_length_le (by simp)

theorem splitLoop_eq_piecesFrom (c : Char) (allowEmpty : Bool) (rest : List Char) :
    ∀ (pre : List Char) (sp : Nat) (result : List (List Char)), sp ≤ pre.length →
      splitLoop c (pre ++ rest) allowEmpty rest pre.length sp result =
        result ++ piecesFrom c allowEmpty (pre.drop sp) rest := by
  induction rest with
  | nil =>
    intro pre sp result h
    have hs := substring_prefix pre [] sp h
    have hlen : (0 < (pre.drop sp).length) ↔ sp < pre.length := by
      rw [List.length_drop]; omega
    simp only [splitLoop, piecesFrom, hs, hlen]
    split <;> simp
  | cons ch rest ih =>
    intro pre sp result h
    have hs := substring_prefix pre (ch :: rest) sp h
    have hlen : (0 < (pre.drop sp).length) ↔ sp < pre.length := by
      rw [List.length_drop]; omega
    have hstr : pre ++ ch :: rest = (pre ++ [ch]) ++ rest := by simp
    have hl : pre.length + 1 = (pre ++ [ch]).length := by simp
    by_cases hc : ch = c
    · subst hc
      simp only [splitLoop, piecesFrom, if_true, hs, hlen]
      rw [hstr, hl, ih (pre ++ [ch]) _ _ (le_refl _)]
      rw [List.drop_length]
      split <;> simp
    · simp only [splitLoop, piecesFrom, hc, if_false]
      rw [hstr, hl, ih (pre ++ [ch]) sp result (by simp; omega)]
      rw [List.drop_append_of_le_length h]

theorem splitChars_eq_piecesFrom (c : Char) (allowEmpty : Bool) (str : List Char) :
    splitChars c str allowEmpty = piecesFrom c allowEmpty [] str := by
  have h := splitLoop_eq_piecesFrom c allowEmpty str [] 0 [] (le_refl _)
  simpa [splitChars] using h

theorem piecesFrom_ne_nil (c : Char) (rest : List Char) :
    ∀ cur, piecesFrom c true cur rest ≠ [] := by
  induction rest with
  | nil => intro cur; simp [piecesFrom]
  | cons ch rest ih =>
    intro cur
    by_cases hc : ch = c
    · simp [piecesFrom, hc]
    · simp only [piecesFrom, hc, if_false]
      exact ih _

theorem joinLoop_append (joiner : List Char) (parts : List (List Char)) :
    ∀ result, joinLoop joiner parts result = result ++ joinLoop joiner parts [] := by
  induction parts with
  | nil => intro result; simp [joinLoop]
  | cons part rest ih =>
    intro result
    simp only [joinLoop]
    rw [ih (result ++ joiner ++ part), ih ([] ++ joiner ++ part)]
    simp

theorem joinLoop_nil_eq (joiner : List Char) (parts : List (List Char)) (h : parts ≠ []) :
    joinLoop joiner parts [] = joiner ++ joinChars joiner parts := by
  cases parts with
  | nil => exact absurd rfl h
  | cons part rest =>
    simp only [joinLoop, joinChars]
    rw [joinLoop_append joiner rest ([] ++ joiner ++ part), joinLoop_append joiner rest part]
    simp

theorem joinChars_piecesFrom (c : Char) (rest : List Char) :
    ∀ cur, joinChars [c] (piecesFrom c true cur rest) = cur ++ rest := by
  induction rest with
  | nil => intro cur; simp [piecesFrom, joinChars, joinLoop]
  | cons ch rest ih =>
    intro cur
    by_cases hc : ch = c
    · subst hc
      simp only [piecesFrom, if_true, or_true, List.singleton_append, joinChars]
      rw [joinLoop_append, joinLoop_nil_eq _ _ (piecesFrom_ne_nil ch rest []), ih []]
      simp
    · simp only [piecesFrom, hc, if_false]
      rw [ih]
      simp

theorem length_piecesFrom (c : Char) (rest : List Char) :
    ∀ cur, (piecesFrom c true cur rest).length = rest.count c + 1 := by
  induction rest with
  | nil => intro cur; simp [piecesFrom]
  | cons ch rest ih =>
    intro cur
    by_cases hc : ch = c
    · subst hc
      simp only [piecesFrom, if_true, or_true, List.singleton_append, List.length_cons, ih,
        List.count_cons_self]
    · simp only [piecesFrom, hc, if_false]
      rw [ih, List.count_cons_of_ne (Ne.symm hc)]

theorem not_mem_piecesFrom (c : Char) (allowEmpty : Bool) (rest : List Char) :
    ∀ cur, c ∉ cur → ∀ piece ∈ piecesFrom c allowEmpty cur rest, c ∉ piece := by
  induction rest with
  | nil =>
    intro cur hcur piece hp
    simp only [piecesFrom] at hp
    split at hp
    · rw [List.mem_singleton] at hp
      rw [hp]
      exact hcur
    · cases hp
  | cons ch rest ih =>
    intro cur hcur piece hp
    by_cases hc : ch = c
    · simp only [piecesFrom, hc, if_true, List.mem_append] at hp
      rcases hp with hp | hp
      · split at hp
        · rw [List.mem_singleton] at hp
          rw [hp]
          exact hcur
        · cases hp
      · exact ih [] (List.not_mem_nil c) piece hp
    · simp only [piecesFrom, hc, if_false] at hp
      refine ih (cur ++ [ch]) ?_ piece hp
      intro hm
      rw [List.mem_append, List.mem_singleton] at hm
      rcases hm with hm | hm
      · exact hcur hm
      · exact hc hm.symm

theorem piecesFrom_false (c : Char) (rest : List Char) :
    ∀ cur, piecesFrom c false cur rest =
      (piecesFrom c true cur rest).filter (fun piece => decide (piece ≠ [])) := by
  induction rest with
  | nil =>
    intro cur
    cases cur <;> simp [piecesFrom]
  | cons ch rest ih =>
    intro cur
    by_cases hc : ch = c
    · simp only [piecesFrom, hc, if_true, or_true, List.filter_append, ih []]
      cases cur <;> simp
    · simp only [piecesFrom, hc, if_false]
      exact ih _

/-- C20: `join(string(1, c), split(c, s, true))` is `s`; `split(c, s, true)`
has one piece more than `s` has occurrences of `c`, and no piece contains `c`;
`split(c, s, false)` is `split(c, s, true)` without its empty pieces. -/
theorem C20_split_join (c : Char) (s : String) :
    join (String.singleton c) (split c s true) = s ∧
      (split c s true).length = s.data.count c + 1 ∧
      (∀ piece ∈ split c s true, c ∉ piece.data) ∧
      split c s false = (split c s true).filter (fun piece => decide (piece ≠ "")) := by
  have hmap : ∀ l : List (List Char), (l.map String.mk).map String.data = l := by
    intro l
    rw [List.map_map]
    exact List.map_id l
  refine ⟨?_, ?_, ?_, ?_⟩
  · unfold join split
    have hsingle : (String.singleton c).data = [c] := rfl
    rw [hmap, splitChars_eq_piecesFrom, hsingle, joinChars_piecesFrom]
    rfl
  · unfold split
    rw [List.length_map, splitChars_eq_piecesFrom, length_piecesFrom]
  · intro piece hp
    unfold split at hp
    rw [List.mem_map] at hp
    obtain ⟨chars, hmem, hmk⟩ := hp
    rw [splitChars_eq_piecesFrom] at hmem
    rw [← hmk]
    exact not_mem_piecesFrom c true s.data [] (List.not_mem_nil c) chars hmem
  · unfold split
    rw [splitChars_eq_piecesFrom, splitChars_eq_piecesFrom, piecesFrom_false, List.filter_map]
    congr 1
    apply List.filter_congr
    intro x _
    simp only [Function.comp, ne_eq, decide_not]
    congr 1
    cases x <;> rfl

end Cupt
